import Mathlib

/-! Verification of brep_application: boundary representations and level sets.

A shallow embedding of `custom_algebra/brep.h` and
`custom_algebra/level_set/*.h`.

Modelling conventions.

* `double` is modelled by an ordered field `K` of scalars with exact
  arithmetic: the rationals where results are evaluated, the reals where a
  square root has to be exact.  Rounding is modelled at the two places where it
  decides what the code does next: the arithmetic on the bracket of `Bisect`
  rounds its results with the parameter `round`, and the library routine `pow`
  that computes the squares of the projections is a parameter.  `Binary64.round`
  is the rounding of IEEE binary64 and `Binary64.pow` the power rounded by it.
* `KRATOS_THROW_ERROR` is modelled by the `Except.error` result; the `Error`
  type lists the messages thrown in the embedded source files.
* A C++ virtual method is a field of the record that models the class; a
  concrete subclass is a value of that record.
* `KRATOS_WATCH` only prints and is dropped.
* A ublas `Vector` is the list of its entries and a 3x3 ublas `Matrix` is a
  `Matrix (Fin 3) (Fin 3) K`; an output parameter is the result of the function.
* The library routines `sqrt`, `pow`, `cos` and `sin` are parameters of the
  functions that call them; what a result assumes about them is stated at the
  arguments they are given.
* Where copies and pointers matter, objects live in a store (`Heap`) and are
  named by their address.
-/

namespace Kratos

variable {K : Type} [LinearOrderedField K]

/-! ## Data model -/

/-- The three coordinates of a `PointType`. -/
structure Point (K : Type) where
  x : K
  y : K
  z : K
deriving DecidableEq

namespace Point

/-- Componentwise sum, `P + Q`. -/
def add (P Q : Point K) : Point K := ⟨P.x + Q.x, P.y + Q.y, P.z + Q.z⟩

/-- Componentwise difference, `P - Q`. -/
def sub (P Q : Point K) : Point K := ⟨P.x - Q.x, P.y - Q.y, P.z - Q.z⟩

/-- Scaling by a scalar, `t * P`. -/
def smul (t : K) (P : Point K) : Point K := ⟨t * P.x, t * P.y, t * P.z⟩

end Point

/-- The exceptions raised by `KRATOS_THROW_ERROR` in the embedded sources. -/
inductive Error where
  /-- `std::logic_error`, "Calling the base class". -/
  | callingBaseClass
  /-- `std::logic_error`, "!!!FATAL ERROR!!!The geometry is degenerated. We won't handle it." -/
  | degenerated
  /-- `std::logic_error`, "Bisect does not work with two end at the same side". -/
  | bisectSameSide
  /-- `std::invalid_argument`, raised by the projections at the centre. -/
  | invalidArgument
deriving DecidableEq

/-- A ublas `Vector`: its entries in order. -/
abbrev Vector (K : Type) := List K

/-- A node of a geometry: it is a point (its current coordinates, the `PointType`
base sub-object) and it also stores its initial position. -/
structure Node (K : Type) where
  /-- The current coordinates, read when the node is used as a `PointType`. -/
  toPoint : Point K
  /-- The value of `GetInitialPosition()`. -/
  InitialPosition : Point K
deriving DecidableEq

/-- The method `Node::GetInitialPosition`. -/
def Node.GetInitialPosition (n : Node K) : Point K := n.InitialPosition

/-- A geometry is an ordered collection of nodes. -/
abbrev GeometryType (K : Type) := List (Node K)

/-- What running the body of a value-returning C++ function gives: a returned
value, a thrown exception, or control reaching the closing brace without a
`return` statement (no value is defined by the code in that case). -/
inductive Outcome (α : Type) where
  | returned (a : α)
  | thrown (e : Error)
  | noReturn
deriving DecidableEq

/-- Lifts the result of a callee whose value is returned unchanged. -/
def Outcome.ofExcept {α : Type} : Except Error α → Outcome α
  | .ok a => .returned a
  | .error e => .thrown e

/-! ## The arithmetic of `double`

IEEE binary64: 53 significant bits, round to nearest with ties to even, gradual
underflow down to `2^(-1074)`. -/

/-- Rounding of a rational to the nearest integer, a tie going to the even one. -/
def roundHalfEven (q : ℚ) : ℤ :=
  if q - ⌊q⌋ < 1 / 2 then ⌊q⌋
  else if 1 / 2 < q - ⌊q⌋ then ⌊q⌋ + 1
  else if ⌊q⌋ % 2 = 0 then ⌊q⌋ else ⌊q⌋ + 1

/-- The exponent of the unit in the last place of binary64 at the magnitude of
`q`: 52 below the exponent of `q`, and `-1074` for the subnormal numbers. -/
def Binary64.ulpExponent (q : ℚ) : ℤ := max (Int.log 2 |q|) (-1022) - 52

/-- The binary64 number nearest to `q`, ties to even: the result in `double` of
an operation whose exact result is `q`.  Results of magnitude `2^1024` and more,
which are infinities in `double`, are outside its use here. -/
def Binary64.round (q : ℚ) : ℚ :=
  roundHalfEven (q / 2 ^ Binary64.ulpExponent q) * 2 ^ Binary64.ulpExponent q

/-- The library routine `pow(x, n)` on `double`: the power, rounded. -/
def Binary64.pow (x : ℚ) (n : Nat) : ℚ := Binary64.round (x ^ n)

/-! ## `BRep` (brep.h) -/

/-- The class `BRep`: the tolerance member and the virtual `IsInside`. -/
structure BRep (K : Type) where
  mTOL : K
  IsInside : Point K → Except Error Bool

namespace BRep

/-- The constant `BRep::_CUT`. -/
def _CUT : Int := -1
/-- The constant `BRep::_IN`. -/
def _IN : Int := 0
/-- The constant `BRep::_OUT`. -/
def _OUT : Int := 1

/-- The base class itself: `BRep::IsInside` throws. -/
def base (TOL : K) : BRep K := ⟨TOL, fun _ => .error .callingBaseClass⟩

/-- The method `BRep::SetTolerance`. -/
def SetTolerance (b : BRep K) (TOL : K) : BRep K := { b with mTOL := TOL }

/-- The method `BRep::GetTolerance`. -/
def GetTolerance (b : BRep K) : K := b.mTOL

/-- The method `BRep::CloneBRep`: a new object built by the copy constructor,
which copies `mTOL`. -/
def CloneBRep (b : BRep K) : BRep K := { b with mTOL := b.mTOL }

/-- The two index lists filled by the first loop of `BRep::CutStatusOfPoints`. -/
structure Partition where
  in_list : List Nat
  out_list : List Nat
deriving DecidableEq

/-- The first loop of `BRep::CutStatusOfPoints`, from index `v` on. -/
def partitionLoop (b : BRep K) : List (Point K) → Nat → Partition → Except Error Partition
  | [], _, acc => .ok acc
  | p :: rest, v, acc =>
    match b.IsInside p with
    | .error e => .error e
    | .ok check =>
      if check then
        partitionLoop b rest (v + 1) { acc with in_list := acc.in_list ++ [v] }
      else
        partitionLoop b rest (v + 1) { acc with out_list := acc.out_list ++ [v] }

/-- The template method `BRep::CutStatusOfPoints(r_points)`. -/
def CutStatusOfPoints (b : BRep K) (r_points : List (Point K)) : Except Error Int :=
  match partitionLoop b r_points 0 ⟨[], []⟩ with
  | .error e => .error e
  | .ok acc =>
    if acc.in_list.length = 0 ∧ acc.out_list.length = 0 then
      .error .degenerated
    else if acc.in_list.length = 0 then
      .ok _OUT
    else if acc.out_list.length = 0 then
      .ok _IN
    else
      .ok _CUT

end BRep

/-! ## `LevelSet` (level_set/level_set.h) -/

/-- The class `LevelSet`: the inherited tolerance and the virtual methods
`GetValue`, `GetGradient`, `GetGradientDerivatives` and `WorkingSpaceDimension`.
The default value of a method is the body it has in `LevelSet` itself, which
throws; a subclass that does not override the method inherits it. -/
structure LevelSet (K : Type) where
  mTOL : K
  GetValue : Point K → Except Error K
  GetGradient : Point K → Except Error (Vector K) := fun _ => .error .callingBaseClass
  GetGradientDerivatives : Point K → Except Error (Matrix (Fin 3) (Fin 3) K) :=
    fun _ => .error .callingBaseClass
  WorkingSpaceDimension : Except Error Nat := .error .callingBaseClass

namespace LevelSet

/-- The base class itself: `LevelSet::GetValue` throws. -/
def base (TOL : K) : LevelSet K :=
  { mTOL := TOL
    GetValue := fun _ => .error .callingBaseClass }

/-- The inherited `BRep::SetTolerance`. -/
def SetTolerance (L : LevelSet K) (TOL : K) : LevelSet K := { L with mTOL := TOL }

/-- The inherited `BRep::GetTolerance`. -/
def GetTolerance (L : LevelSet K) : K := L.mTOL

/-- The method `LevelSet::IsInside`. -/
def IsInside (L : LevelSet K) (P : Point K) : Except Error Bool :=
  match L.GetValue P with
  | .error e => .error e
  | .ok v => .ok (decide (v < 0))

/-- The method `LevelSet::IsOnBoundary`. -/
def IsOnBoundary (L : LevelSet K) (P : Point K) (tol : K) : Except Error Bool :=
  match L.GetValue P with
  | .error e => .error e
  | .ok v => .ok (decide (|v| < tol))

/-- A level set seen as a `BRep` (the base sub-object with the overridden
`IsInside`). -/
def toBRep (L : LevelSet K) : BRep K := ⟨L.mTOL, L.IsInside⟩

/-- The three index lists filled by the first loop of
`LevelSet::CutStatusOfPoints`. -/
structure Buckets where
  in_list : List Nat
  out_list : List Nat
  on_list : List Nat
deriving DecidableEq

/-- The first loop of `LevelSet::CutStatusOfPoints`, from index `v` on. -/
def bucketLoop (L : LevelSet K) (tolerance : K) :
    List (Point K) → Nat → Buckets → Except Error Buckets
  | [], _, acc => .ok acc
  | p :: rest, v, acc =>
    match L.GetValue p with
    | .error e => .error e
    | .ok phi =>
      if phi < -tolerance then
        bucketLoop L tolerance rest (v + 1) { acc with in_list := acc.in_list ++ [v] }
      else if phi > tolerance then
        bucketLoop L tolerance rest (v + 1) { acc with out_list := acc.out_list ++ [v] }
      else
        bucketLoop L tolerance rest (v + 1) { acc with on_list := acc.on_list ++ [v] }

/-- The private template method `LevelSet::CutStatusOfPoints(r_points, tolerance)`. -/
def CutStatusOfPoints (L : LevelSet K) (r_points : List (Point K)) (tolerance : K) :
    Except Error Int :=
  match bucketLoop L tolerance r_points 0 ⟨[], [], []⟩ with
  | .error e => .error e
  | .ok acc =>
    if acc.in_list.length = 0 ∧ acc.out_list.length = 0 then
      .error .degenerated
    else if acc.in_list.length = 0 then
      .ok BRep._OUT
    else if acc.out_list.length = 0 then
      .ok BRep._IN
    else
      .ok BRep._CUT

/-- The method `LevelSet::CutStatus(r_points)`. -/
def CutStatus (L : LevelSet K) (r_points : List (Point K)) : Except Error Int :=
  CutStatusOfPoints L r_points L.GetTolerance

/-- The method `LevelSet::CutStatus(r_geom, configuration)`.  With
`configuration == 1` the template is instantiated on the geometry and every
node is read as a `PointType`, that is at its current position.  For any other
`configuration` neither branch is taken and the body ends without a `return`. -/
def CutStatusGeom (L : LevelSet K) (r_geom : GeometryType K) (configuration : Int) :
    Outcome Int :=
  if configuration = 0 then
    let points := r_geom.map Node.GetInitialPosition
    Outcome.ofExcept (CutStatusOfPoints L points L.GetTolerance)
  else if configuration = 1 then
    Outcome.ofExcept (CutStatusOfPoints L (r_geom.map Node.toPoint) L.GetTolerance)
  else
    .noReturn

/-- The local variables of `LevelSet::Bisect` that live across loop iterations. -/
structure BisectState (K : Type) where
  f1 : K
  f2 : K
  left : K
  right : K
  converged : Bool
  P : Point K
deriving DecidableEq

/-- The point `P1 + mid*(P2-P1)` of the segment. -/
def segmentPoint (P1 P2 : Point K) (mid : K) : Point K :=
  Point.add P1 (Point.smul mid (Point.sub P2 P1))

/-- One execution of the body of the `while` loop of `LevelSet::Bisect`.  The
bracket ends `left`, `right` and `mid` are doubles: the sum `left+right`, its
half and the difference `right-left` are rounded by `round`; the coordinates of
`P` and the values of the level set are exact. -/
def BisectBody (L : LevelSet K) (round : K → K) (P1 P2 : Point K) (tol : K)
    (s : BisectState K) : Except Error (BisectState K) :=
  let mid := round (round (s.left + s.right) / 2)
  let P := segmentPoint P1 P2 mid
  match L.GetValue P with
  | .error e => .error e
  | .ok fm =>
    if |fm| < tol then
      .ok { s with P := P, converged := true }
    else
      let s1 : BisectState K :=
        if fm * s.f1 < 0 then { s with P := P, right := mid, f2 := fm }
        else { s with P := P, left := mid, f1 := fm }
      if round (s1.right - s1.left) < tol then .ok { s1 with converged := true }
      else .ok s1

/-- The `while(!converged)` loop of `LevelSet::Bisect` followed by `return P`.
The source loop has no iteration bound; `fuel` bounds the number of iterations
the model runs and `none` means that the loop is still running after them. -/
def BisectLoop (L : LevelSet K) (round : K → K) (P1 P2 : Point K) (tol : K) :
    Nat → BisectState K → Option (Except Error (Point K))
  | fuel, s =>
    if s.converged then some (.ok s.P)
    else
      match fuel with
      | 0 => none
      | fuel + 1 =>
        match BisectBody L round P1 P2 tol s with
        | .error e => some (.error e)
        | .ok s1 => BisectLoop L round P1 P2 tol fuel s1

/-- The state on entry of the loop of `LevelSet::Bisect`.  `P` is
default-constructed there and is assigned in the first iteration, which always
runs, before it is read. -/
def BisectInit (f1 f2 : K) : BisectState K :=
  { f1 := f1, f2 := f2, left := 0, right := 1, converged := false, P := ⟨0, 0, 0⟩ }

/-- The state of the loop of `LevelSet::Bisect` after `n` tests of the loop
condition followed by an iteration: the body runs while `converged` is not set,
and the state in which the loop exits is kept.  When the result is not
converged, `n` iterations have been completed and the next one starts in it. -/
def BisectIterate (L : LevelSet K) (round : K → K) (P1 P2 : Point K) (tol : K) :
    Nat → BisectState K → Except Error (BisectState K)
  | 0, s => .ok s
  | n + 1, s =>
    if s.converged then .ok s
    else
      match BisectBody L round P1 P2 tol s with
      | .error e => .error e
      | .ok s1 => BisectIterate L round P1 P2 tol n s1

/-- The method `LevelSet::Bisect(P1, P2, tol)`, run for at most `fuel` loop
iterations (`none`: the loop has not finished within `fuel` iterations);
`round` is the rounding of the bracket arithmetic. -/
def Bisect (L : LevelSet K) (round : K → K) (fuel : Nat) (P1 P2 : Point K) (tol : K) :
    Option (Except Error (Point K)) :=
  match L.GetValue P1 with
  | .error e => some (.error e)
  | .ok f1 =>
    match L.GetValue P2 with
    | .error e => some (.error e)
    | .ok f2 =>
      if f1 * f2 > 0 then some (.error .bisectSameSide)
      else BisectLoop L round P1 P2 tol fuel (BisectInit f1 f2)

/-- The loop `for (i = 0; i < G.size(); ++i) rNormal[i] = G(i)` of
`LevelSet::GetNormal`, from index `i` on.  `rNormal` has three coordinates;
`none` stands for a write past the third one, for which the code defines no
result. -/
def writeNormal : List K → Nat → Point K → Option (Point K)
  | [], _, rNormal => some rNormal
  | g :: rest, 0, rNormal => writeNormal rest 1 { rNormal with x := g }
  | g :: rest, 1, rNormal => writeNormal rest 2 { rNormal with y := g }
  | g :: rest, 2, rNormal => writeNormal rest 3 { rNormal with z := g }
  | _ :: _, _, _ => none

/-- The method `LevelSet::GetNormal`; `rNormal` is the result. -/
def GetNormal (L : LevelSet K) (P : Point K) : Except Error (Option (Point K)) :=
  match L.GetGradient P with
  | .error e => .error e
  | .ok G => .ok (writeNormal G 0 ⟨0, 0, 0⟩)

/-- The method `LevelSet::GetNormalDerivatives`; `Derivatives` is the result. -/
def GetNormalDerivatives (L : LevelSet K) (P : Point K) :
    Except Error (Matrix (Fin 3) (Fin 3) K) :=
  L.GetGradientDerivatives P

end LevelSet

/-! ## `CircularLevelSet` (level_set/circular_level_set.h) -/

/-- The class `CircularLevelSet` with members `mcX`, `mcY`, `mR`: its overrides
of `GetValue`, `GetGradient`, `GetGradientDerivatives` and
`WorkingSpaceDimension`. -/
def CircularLevelSet (cX cY R : K) (TOL : K) : LevelSet K :=
  { mTOL := TOL
    GetValue := fun P => .ok ((P.x - cX) ^ 2 + (P.y - cY) ^ 2 - R ^ 2)
    GetGradient := fun P => .ok [2 * (P.x - cX), 2 * (P.y - cY), 0]
    GetGradientDerivatives := fun _ => .ok !![2, 0, 0; 0, 2, 0; 0, 0, 0]
    WorkingSpaceDimension := .ok 2 }

/-- The method `CircularLevelSet::ProjectOnSurface`; the projected point is the
result.  The library routines `pow` and `sqrt` are parameters. -/
def CircularLevelSet.ProjectOnSurface (pow : K → Nat → K) (sqrt : K → K) (cX cY R : K)
    (P : Point K) : Except Error (Point K) :=
  let vector_length := sqrt (pow (P.x - cX) 2 + pow (P.y - cY) 2)
  if vector_length = 0 then .error .invalidArgument
  else
    .ok ⟨(P.x - cX) * R / vector_length + cX, (P.y - cY) * R / vector_length + cY, 0⟩

/-- The method `CircularLevelSet::ProjectionDerivatives`; the 3x3 matrix is the
result.  The library routines `pow` and `sqrt` are parameters. -/
def CircularLevelSet.ProjectionDerivatives (pow : K → Nat → K) (sqrt : K → K) (cX cY R : K)
    (P : Point K) : Except Error (Matrix (Fin 3) (Fin 3) K) :=
  let vector_length := sqrt (pow (P.x - cX) 2 + pow (P.y - cY) 2)
  if vector_length = 0 then .error .invalidArgument
  else
    let dvector_length0 := 2 * (P.x - cX)
    let dvector_length1 := 2 * (P.y - cY)
    .ok !![R / vector_length - (P.x - cX) * R * dvector_length0 / pow vector_length 2,
            -(P.x - cX) * R * dvector_length1 / pow vector_length 2, 0;
           -(P.y - cY) * R * dvector_length0 / pow vector_length 2,
            R / vector_length - (P.y - cY) * R * dvector_length1 / pow vector_length 2, 0;
           0, 0, 0]

/-- The loop of `CircularLevelSet::GeneratePoints` with `remaining` iterations
left, at index `j`.  The library routines `cos` and `sin` are parameters. -/
def CircularLevelSet.GeneratePointsLoop (cos sin : K → K) (cX cY R : K)
    (start_angle small_angle : K) : Nat → Nat → List (Point K) → List (Point K)
  | 0, _, radial_points => radial_points
  | remaining + 1, j, radial_points =>
    let d := start_angle + j * small_angle
    let V : Point K := ⟨cX + R * cos d, cY + R * sin d, 0⟩
    CircularLevelSet.GeneratePointsLoop cos sin cX cY R start_angle small_angle remaining (j + 1)
      (radial_points.set j V)

/-- The method `CircularLevelSet::GeneratePoints(start_angle, end_angle,
nsampling_radial)`: the vector is created with `nsampling_radial` points and the
loop assigns its entries in turn. -/
def CircularLevelSet.GeneratePoints (cos sin : K → K) (cX cY R : K)
    (start_angle end_angle : K) (nsampling_radial : Nat) : List (Point K) :=
  let small_angle := (end_angle - start_angle) / nsampling_radial
  CircularLevelSet.GeneratePointsLoop cos sin cX cY R start_angle small_angle
    nsampling_radial 0 (List.replicate nsampling_radial ⟨0, 0, 0⟩)

/-! ## `SphericalLevelSet` (level_set/spherical_level_set.h) -/

/-- The class `SphericalLevelSet` with members `mcX`, `mcY`, `mcZ`, `mR`: its
overrides of `GetValue`, `GetGradient` and `WorkingSpaceDimension`. -/
def SphericalLevelSet (cX cY cZ R : K) (TOL : K) : LevelSet K :=
  { mTOL := TOL
    GetValue := fun P => .ok ((P.x - cX) ^ 2 + (P.y - cY) ^ 2 + (P.z - cZ) ^ 2 - R ^ 2)
    GetGradient := fun P => .ok [2 * (P.x - cX), 2 * (P.y - cY), 2 * (P.z - cZ)]
    WorkingSpaceDimension := .ok 3 }

/-- The method `SphericalLevelSet::ProjectOnSurface`; the projected point is the
result.  The library routines `pow` and `sqrt` are parameters. -/
def SphericalLevelSet.ProjectOnSurface (pow : K → Nat → K) (sqrt : K → K) (cX cY cZ R : K)
    (P : Point K) : Except Error (Point K) :=
  let vector_length := sqrt (pow (P.x - cX) 2 + pow (P.y - cY) 2 + pow (P.z - cZ) 2)
  if vector_length = 0 then .error .invalidArgument
  else
    .ok ⟨(P.x - cX) * R / vector_length + cX, (P.y - cY) * R / vector_length + cY,
      (P.z - cZ) * R / vector_length + cZ⟩

/-! ## `InverseLevelSet` (level_set/inverse_level_set.h) -/

/-- The class `InverseLevelSet` wrapping the level set `mp_level_set`: its
overrides of `GetValue`, `GetGradient` and `WorkingSpaceDimension`.  An
exception of the inner call propagates. -/
def InverseLevelSet (p_level_set : LevelSet K) (TOL : K) : LevelSet K :=
  { mTOL := TOL
    GetValue := fun P =>
      match p_level_set.GetValue P with
      | .error e => .error e
      | .ok v => .ok (-v)
    GetGradient := fun P =>
      match p_level_set.GetGradient P with
      | .error e => .error e
      | .ok g => .ok (g.map fun a => -a)
    WorkingSpaceDimension := p_level_set.WorkingSpaceDimension }

/-! ## Objects, pointers and `CloneLevelSet`

The classes hold their members by value except `InverseLevelSet`, which holds a
pointer `mp_level_set`.  To speak about copies and aliasing, objects live in a
store: an address is an index in the list of the objects allocated so far, and
`new` appends the object it creates. -/

/-- An object of the `LevelSet` hierarchy: its dynamic type and its members
(`mTOL` is the inherited tolerance). -/
inductive LevelSetObject (K : Type) where
  | levelSet (mTOL : K)
  | circular (mTOL mcX mcY mR : K)
  | spherical (mTOL mcX mcY mcZ mR : K)
  | inverse (mTOL : K) (mp_level_set : Nat)
deriving DecidableEq

/-- The store of the allocated objects. -/
abbrev Heap (K : Type) := List (LevelSetObject K)

/-- The member `mTOL` of an object. -/
def LevelSetObject.getTOL : LevelSetObject K → K
  | .levelSet t => t
  | .circular t _ _ _ => t
  | .spherical t _ _ _ _ => t
  | .inverse t _ => t

/-- The object with `mTOL` overwritten. -/
def LevelSetObject.setTOL (TOL : K) : LevelSetObject K → LevelSetObject K
  | .levelSet _ => .levelSet TOL
  | .circular _ x y r => .circular TOL x y r
  | .spherical _ x y z r => .spherical TOL x y z r
  | .inverse _ p => .inverse TOL p

/-- The operator `new`: the object is appended, its address is returned. -/
def Heap.alloc (h : Heap K) (o : LevelSetObject K) : (Heap K) × Nat := (h ++ [o], h.length)

/-- `BRep::GetTolerance` on the object at address `a` (`none`: no object there). -/
def Heap.GetTolerance (h : Heap K) (a : Nat) : Option K := (h[a]?).map LevelSetObject.getTOL

/-- `BRep::SetTolerance` on the object at address `a`. -/
def Heap.SetTolerance (h : Heap K) (a : Nat) (TOL : K) : Heap K :=
  match h[a]? with
  | some o => h.set a (o.setTOL TOL)
  | none => h

/-- `InverseLevelSet::pLeveSet` on the object at address `a`. -/
def Heap.pLeveSet (h : Heap K) (a : Nat) : Option Nat :=
  match h[a]? with
  | some (.inverse _ p) => some p
  | _ => none

/-- `InverseLevelSet::pSetLevelSet` on the object at address `a`. -/
def Heap.pSetLevelSet (h : Heap K) (a : Nat) (p_level_set : Nat) : Heap K :=
  match h[a]? with
  | some (.inverse t _) => h.set a (.inverse t p_level_set)
  | _ => h

/-- The virtual method `CloneLevelSet` on the object at address `a`, dispatched
on its dynamic type.  `LevelSet::CloneLevelSet` creates `new LevelSet()`, whose
tolerance is the one the default constructor of `BRep` sets (`defaultTOL`, a
parameter); the circular and the spherical class call their copy constructor;
the copy constructor of `InverseLevelSet` copies `mTOL` and clones the inner
level set.  `fuel` bounds the depth of the chain of inner level sets. -/
def Heap.CloneLevelSet (defaultTOL : K) : Nat → Heap K → Nat → Option ((Heap K) × Nat)
  | 0, _, _ => none
  | fuel + 1, h, a =>
    match h[a]? with
    | none => none
    | some (.levelSet _) => some (Heap.alloc h (.levelSet defaultTOL))
    | some (.circular t x y r) => some (Heap.alloc h (.circular t x y r))
    | some (.spherical t x y z r) => some (Heap.alloc h (.spherical t x y z r))
    | some (.inverse t p) =>
      match Heap.CloneLevelSet defaultTOL fuel h p with
      | none => none
      | some (h1, p1) => some (Heap.alloc h1 (.inverse t p1))

/-- The level set that the object at address `a` is, with its virtual methods
(`none`: a pointer of the chain points to no object, or the chain is deeper
than `fuel`). -/
def Heap.toLevelSet : Nat → Heap K → Nat → Option (LevelSet K)
  | 0, _, _ => none
  | fuel + 1, h, a =>
    match h[a]? with
    | none => none
    | some (.levelSet t) => some (LevelSet.base t)
    | some (.circular t x y r) => some (CircularLevelSet x y r t)
    | some (.spherical t x y z r) => some (SphericalLevelSet x y z r t)
    | some (.inverse t p) =>
      match Heap.toLevelSet fuel h p with
      | none => none
      | some inner => some (InverseLevelSet inner t)

/-- The virtual method `GetValue` on the object at address `a`. -/
def Heap.GetValue (fuel : Nat) (h : Heap K) (a : Nat) (P : Point K) : Option (Except Error K) :=
  (Heap.toLevelSet fuel h a).map (fun L => L.GetValue P)

/-! ## Auxiliary definitions used to state the results -/

/-- The status computed by the second half of both `CutStatusOfPoints` methods
from the sizes of the inside and outside lists. -/
def statusOfSizes (n_in n_out : Nat) : Except Error Int :=
  if n_in = 0 ∧ n_out = 0 then .error .degenerated
  else if n_in = 0 then .ok BRep._OUT
  else if n_out = 0 then .ok BRep._IN
  else .ok BRep._CUT

/-- The value `(x-cX)^2 + (y-cY)^2 - R^2` returned by `CircularLevelSet::GetValue`. -/
def circleValue (cX cY R : K) (P : Point K) : K :=
  (P.x - cX) ^ 2 + (P.y - cY) ^ 2 - R ^ 2

/-- The value `(x-cX)^2 + (y-cY)^2 + (z-cZ)^2 - R^2` returned by
`SphericalLevelSet::GetValue`. -/
def sphereValue (cX cY cZ R : K) (P : Point K) : K :=
  (P.x - cX) ^ 2 + (P.y - cY) ^ 2 + (P.z - cZ) ^ 2 - R ^ 2

/-- The routine `sqrt` is exact at `s`: its result is the non-negative number
whose square is `s`. -/
def ExactSqrtAt (sqrt : K → K) (s : K) : Prop :=
  0 ≤ sqrt s ∧ sqrt s * sqrt s = s

/-- The routine `pow` is exact at the square of `d`. -/
def ExactSquareAt (pow : K → Nat → K) (d : K) : Prop :=
  pow d 2 = d ^ 2

/-- The square of `d` computed by `pow` has not underflowed: it is not negative
and it is `0` only for `d = 0`. -/
def SquareKeepsZeroAt (pow : K → Nat → K) (d : K) : Prop :=
  0 ≤ pow d 2 ∧ (pow d 2 = 0 ↔ d = 0)

/-- The routine `sqrt` gives `0` at `s` only for `s = 0`. -/
def SqrtKeepsZeroAt (sqrt : K → K) (s : K) : Prop :=
  sqrt s = 0 ↔ s = 0

/-- The power in exact arithmetic. -/
def exactPow (x : K) (n : Nat) : K := x ^ n

/-- The unit vector `e_i` of the coordinate `i`. -/
def Point.axis : Fin 3 → Point K
  | 0 => ⟨1, 0, 0⟩
  | 1 => ⟨0, 1, 0⟩
  | 2 => ⟨0, 0, 1⟩

/-- The operations of a `BRep` that touch its tolerance. -/
inductive BRepOp (K : Type) where
  | setTolerance (TOL : K)
  | clone
deriving DecidableEq

/-- What a `BRep::Pointer` points to: an object of class `BRep` itself, or the
object of the `LevelSet` hierarchy at an address of the store. -/
inductive BRepRef (K : Type) where
  | brep (b : BRep K)
  | levelSet (a : Nat)

/-- `BRep::GetTolerance` through a pointer (`none`: no object at the address). -/
def BRepRef.GetTolerance (h : Heap K) : BRepRef K → Option K
  | .brep b => some b.GetTolerance
  | .levelSet a => Heap.GetTolerance h a

/-- `BRep::SetTolerance` through a pointer: the store and the pointer after the
call. -/
def BRepRef.SetTolerance (h : Heap K) (TOL : K) : BRepRef K → Heap K × BRepRef K
  | .brep b => (h, .brep (b.SetTolerance TOL))
  | .levelSet a => (Heap.SetTolerance h a TOL, .levelSet a)

/-- The virtual method `CloneBRep` through a pointer, dispatched on the class of
the object: `BRep::CloneBRep` returns `new BRep(*this)`, and the override
`LevelSet::CloneBRep` returns `CloneLevelSet()`.  The result is the store after
the call and the pointer to the clone. -/
def BRepRef.CloneBRep (defaultTOL : K) (fuel : Nat) (h : Heap K) :
    BRepRef K → Option (Heap K × BRepRef K)
  | .brep b => some (h, .brep b.CloneBRep)
  | .levelSet a =>
    match Heap.CloneLevelSet defaultTOL fuel h a with
    | none => none
    | some (h1, k) => some (h1, .levelSet k)

/-- Applies a sequence of operations, each to the object that the previous one
produced (`SetTolerance` on the object at hand, `CloneBRep` giving the object
to go on with). -/
def BRepOp.run (defaultTOL : K) (fuel : Nat) :
    Heap K × BRepRef K → List (BRepOp K) → Option (Heap K × BRepRef K)
  | s, [] => some s
  | s, .setTolerance TOL :: ops => BRepOp.run defaultTOL fuel (s.2.SetTolerance s.1 TOL) ops
  | s, .clone :: ops =>
    match s.2.CloneBRep defaultTOL fuel s.1 with
    | none => none
    | some s1 => BRepOp.run defaultTOL fuel s1 ops

/-- What the results on the bracket of `Bisect` use of the rounding of its
arithmetic: it keeps `0` and `1`, it is monotone and idempotent on the
non-negative numbers, and the double of a number it keeps is kept. -/
structure IsRounding (round : K → K) : Prop where
  zero : round 0 = 0
  one : round 1 = 1
  mono : ∀ a b, 0 ≤ a → a ≤ b → round a ≤ round b
  idem : ∀ a, 0 ≤ a → round (round a) = round a
  double : ∀ a, 0 ≤ a → round a = a → round (2 * a) = 2 * a

/-- The rounding is exact on the fractions `m / 2^k` with `k ≤ p` whose numerator
has at most `p` bits (for binary64: `p = 53`). -/
def RoundsExactly (round : K → K) (p : Nat) : Prop :=
  ∀ k m : Nat, k ≤ p → m < 2 ^ p → round ((m : K) / 2 ^ k) = (m : K) / 2 ^ k

/-- The bracket of `LevelSet::Bisect` in a state: its ends are numbers that the
rounding keeps and `0 ≤ left ≤ right ≤ 1`. -/
def BracketInv (round : K → K) (s : LevelSet.BisectState K) : Prop :=
  round s.left = s.left ∧ round s.right = s.right
    ∧ 0 ≤ s.left ∧ s.left ≤ s.right ∧ s.right ≤ 1

/-- The bracket of `LevelSet::Bisect` after `n` exact halvings of `[0, 1]`:
`[j / 2^n, (j+1) / 2^n]`. -/
def ExactLevel (n : Nat) (s : LevelSet.BisectState K) : Prop :=
  ∃ j : Nat, j < 2 ^ n ∧ s.left = (j : K) / 2 ^ n ∧ s.right = ((j : K) + 1) / 2 ^ n

/-- A level set of a class derived from `LevelSet` whose `GetValue` is a step:
`-1` where `x < 1` and `1` elsewhere. -/
def stepLevelSet : LevelSet ℚ :=
  { mTOL := 0
    GetValue := fun P => .ok (if P.x < 1 then -1 else 1) }

/-- The state of the loop of `Bisect` on `stepLevelSet` between `(0,0,0)` and
`(1,0,0)` whose bracket is `[1 - 2^(-k), 1]`. -/
def stepState (k : Nat) (P : Point ℚ) : LevelSet.BisectState ℚ :=
  { f1 := -1, f2 := 1, left := 1 - 1 / 2 ^ k, right := 1, converged := false, P := P }

/-! ## The two classification loops -/

theorem LevelSet.bucketLoop_sizes (L : LevelSet ℚ) (phi : Point ℚ → ℚ) (tol : ℚ) :
    ∀ (pts : List (Point ℚ)) (v : Nat) (acc : LevelSet.Buckets),
      (∀ p ∈ pts, L.GetValue p = .ok (phi p)) →
      ∃ acc1, L.bucketLoop tol pts v acc = .ok acc1 ∧
        acc1.in_list.length
          = acc.in_list.length + pts.countP (fun p => decide (phi p < -tol)) ∧
        acc1.out_list.length
          = acc.out_list.length
            + pts.countP (fun p => decide (¬ phi p < -tol ∧ phi p > tol)) := by
  intro pts
  induction pts with
  | nil => intro v acc _; exact ⟨acc, rfl, by simp, by simp⟩
  | cons p rest ih =>
    intro v acc h
    have hp : L.GetValue p = .ok (phi p) := h p (List.mem_cons_self _ _)
    have hrest : ∀ q ∈ rest, L.GetValue q = .ok (phi q) :=
      fun q hq => h q (List.mem_cons_of_mem _ hq)
    simp only [LevelSet.bucketLoop, hp]
    by_cases h1 : phi p < -tol
    · obtain ⟨acc1, e, hi, ho⟩ := ih (v + 1) { acc with in_list := acc.in_list ++ [v] } hrest
      have c1 := List.countP_cons_of_pos (fun p => decide (phi p < -tol)) rest
        (show decide (phi p < -tol) = true by simpa using h1)
      have c2 := List.countP_cons_of_neg (fun p => decide (¬ phi p < -tol ∧ phi p > tol)) rest
        (show ¬ decide (¬ phi p < -tol ∧ phi p > tol) = true by simp [h1])
      refine ⟨acc1, by simpa [h1] using e, ?_, ?_⟩
      · rw [hi, c1]; simp only [List.length_append, List.length_singleton]; omega
      · rw [ho, c2]
    · by_cases h2 : phi p > tol
      · obtain ⟨acc1, e, hi, ho⟩ :=
          ih (v + 1) { acc with out_list := acc.out_list ++ [v] } hrest
        have c1 := List.countP_cons_of_neg (fun p => decide (phi p < -tol)) rest
          (show ¬ decide (phi p < -tol) = true by simpa using h1)
        have c2 := List.countP_cons_of_pos (fun p => decide (¬ phi p < -tol ∧ phi p > tol)) rest
          (show decide (¬ phi p < -tol ∧ phi p > tol) = true from decide_eq_true ⟨h1, h2⟩)
        refine ⟨acc1, by simpa [h1, h2] using e, ?_, ?_⟩
        · rw [hi, c1]
        · rw [ho, c2]; simp only [List.length_append, List.length_singleton]; omega
      · obtain ⟨acc1, e, hi, ho⟩ :=
          ih (v + 1) { acc with on_list := acc.on_list ++ [v] } hrest
        have c1 := List.countP_cons_of_neg (fun p => decide (phi p < -tol)) rest
          (show ¬ decide (phi p < -tol) = true by simpa using h1)
        have c2 := List.countP_cons_of_neg (fun p => decide (¬ phi p < -tol ∧ phi p > tol)) rest
          (show ¬ decide (¬ phi p < -tol ∧ phi p > tol) = true from
            fun hd => h2 (of_decide_eq_true hd).2)
        refine ⟨acc1, by simpa [h1, h2] using e, ?_, ?_⟩
        · rw [hi, c1]
        · rw [ho, c2]

theorem LevelSet.banded_eq_statusOfSizes (L : LevelSet ℚ) (phi : Point ℚ → ℚ) (tol : ℚ)
    (pts : List (Point ℚ)) (h : ∀ p ∈ pts, L.GetValue p = .ok (phi p)) :
    L.CutStatusOfPoints pts tol
      = statusOfSizes (pts.countP (fun p => decide (phi p < -tol)))
          (pts.countP (fun p => decide (¬ phi p < -tol ∧ phi p > tol))) := by
  obtain ⟨acc1, e, hi, ho⟩ := L.bucketLoop_sizes phi tol pts 0 ⟨[], [], []⟩ h
  simp only [LevelSet.CutStatusOfPoints, e, hi, ho, statusOfSizes, List.length_nil, Nat.zero_add]

theorem BRep.partitionLoop_sizes (b : BRep ℚ) (ins : Point ℚ → Bool) :
    ∀ (pts : List (Point ℚ)) (v : Nat) (acc : BRep.Partition),
      (∀ p ∈ pts, b.IsInside p = .ok (ins p)) →
      ∃ acc1, b.partitionLoop pts v acc = .ok acc1 ∧
        acc1.in_list.length = acc.in_list.length + pts.countP ins ∧
        acc1.out_list.length = acc.out_list.length + pts.countP (fun p => !ins p) := by
  intro pts
  induction pts with
  | nil => intro v acc _; exact ⟨acc, rfl, by simp, by simp⟩
  | cons p rest ih =>
    intro v acc h
    have hp : b.IsInside p = .ok (ins p) := h p (List.mem_cons_self _ _)
    have hrest : ∀ q ∈ rest, b.IsInside q = .ok (ins q) :=
      fun q hq => h q (List.mem_cons_of_mem _ hq)
    simp only [BRep.partitionLoop, hp]
    by_cases h1 : ins p = true
    · obtain ⟨acc1, e, hi, ho⟩ := ih (v + 1) { acc with in_list := acc.in_list ++ [v] } hrest
      have c1 := List.countP_cons_of_pos ins rest h1
      have c2 := List.countP_cons_of_neg (fun p => !ins p) rest
        (show ¬ (!ins p) = true by simp [h1])
      refine ⟨acc1, by simpa [h1] using e, ?_, ?_⟩
      · rw [hi, c1]; simp only [List.length_append, List.length_singleton]; omega
      · rw [ho, c2]
    · obtain ⟨acc1, e, hi, ho⟩ := ih (v + 1) { acc with out_list := acc.out_list ++ [v] } hrest
      have c1 := List.countP_cons_of_neg ins rest h1
      have c2 := List.countP_cons_of_pos (fun p => !ins p) rest
        (show (!ins p) = true by simpa using h1)
      refine ⟨acc1, by simpa [h1] using e, ?_, ?_⟩
      · rw [hi, c1]
      · rw [ho, c2]; simp only [List.length_append, List.length_singleton]; omega

theorem BRep.generic_eq_statusOfSizes (b : BRep ℚ) (ins : Point ℚ → Bool) (pts : List (Point ℚ))
    (h : ∀ p ∈ pts, b.IsInside p = .ok (ins p)) :
    b.CutStatusOfPoints pts
      = statusOfSizes (pts.countP ins) (pts.countP (fun p => !ins p)) := by
  obtain ⟨acc1, e, hi, ho⟩ := b.partitionLoop_sizes ins pts 0 ⟨[], []⟩ h
  simp only [BRep.CutStatusOfPoints, e, hi, ho, statusOfSizes, List.length_nil, Nat.zero_add]

/-! ## Reading the status off the sizes -/

theorem statusOfSizes_cut_iff (a b : Nat) :
    statusOfSizes a b = .ok BRep._CUT ↔ a ≠ 0 ∧ b ≠ 0 := by
  unfold statusOfSizes
  split_ifs with h1 h2 h3 <;> simp_all [BRep._CUT, BRep._IN, BRep._OUT]

theorem statusOfSizes_in_iff (a b : Nat) :
    statusOfSizes a b = .ok BRep._IN ↔ a ≠ 0 ∧ b = 0 := by
  unfold statusOfSizes
  split_ifs with h1 h2 h3 <;> simp_all [BRep._CUT, BRep._IN, BRep._OUT]

theorem statusOfSizes_out_iff (a b : Nat) :
    statusOfSizes a b = .ok BRep._OUT ↔ a = 0 ∧ b ≠ 0 := by
  unfold statusOfSizes
  split_ifs with h1 h2 h3 <;> simp_all [BRep._CUT, BRep._IN, BRep._OUT]

theorem statusOfSizes_error_iff (a b : Nat) :
    statusOfSizes a b = .error .degenerated ↔ a = 0 ∧ b = 0 := by
  unfold statusOfSizes
  split_ifs with h1 h2 h3 <;> simp_all

theorem countP_in_eq_zero (phi : Point ℚ → ℚ) (tol : ℚ) (pts : List (Point ℚ)) :
    pts.countP (fun p => decide (phi p < -tol)) = 0 ↔ ∀ p ∈ pts, ¬ phi p < -tol := by
  simp [List.countP_eq_zero]

theorem countP_out_eq_zero (phi : Point ℚ → ℚ) (tol : ℚ) (pts : List (Point ℚ)) :
    pts.countP (fun p => decide (¬ phi p < -tol ∧ phi p > tol)) = 0
      ↔ ∀ p ∈ pts, ¬ (¬ phi p < -tol ∧ phi p > tol) := by
  simp [List.countP_eq_zero]

/-- With a non-negative tolerance a value above `tol` is not below `-tol`, so the
outside list is empty exactly when no value is above `tol`. -/
theorem countP_out_eq_zero_of_nonneg (phi : Point ℚ → ℚ) (tol : ℚ) (pts : List (Point ℚ))
    (htol : 0 ≤ tol) :
    pts.countP (fun p => decide (¬ phi p < -tol ∧ phi p > tol)) = 0
      ↔ ∀ p ∈ pts, ¬ phi p > tol := by
  rw [countP_out_eq_zero]
  constructor
  · intro h p hp hgt
    exact h p hp ⟨by intro hlt; linarith, hgt⟩
  · intro h p hp hgt
    exact h p hp hgt.2

/-- The outcome of the tolerance-banded classification in terms of the values,
for any tolerance. -/
theorem LevelSet.cut_iff_buckets (L : LevelSet ℚ) (phi : Point ℚ → ℚ) (tol : ℚ)
    (pts : List (Point ℚ)) (h : ∀ p ∈ pts, L.GetValue p = .ok (phi p)) :
    L.CutStatusOfPoints pts tol = .ok BRep._CUT
      ↔ (∃ p ∈ pts, phi p < -tol) ∧ (∃ p ∈ pts, ¬ phi p < -tol ∧ phi p > tol) := by
  rw [L.banded_eq_statusOfSizes phi tol pts h, statusOfSizes_cut_iff, Ne, Ne,
    countP_in_eq_zero, countP_out_eq_zero]
  push_neg
  rfl

theorem LevelSet.cut_iff_of_nonneg (L : LevelSet ℚ) (phi : Point ℚ → ℚ) (tol : ℚ)
    (pts : List (Point ℚ)) (h : ∀ p ∈ pts, L.GetValue p = .ok (phi p)) (htol : 0 ≤ tol) :
    L.CutStatusOfPoints pts tol = .ok BRep._CUT
      ↔ (∃ p ∈ pts, phi p < -tol) ∧ (∃ p ∈ pts, phi p > tol) := by
  rw [L.banded_eq_statusOfSizes phi tol pts h, statusOfSizes_cut_iff, Ne, Ne,
    countP_in_eq_zero, countP_out_eq_zero_of_nonneg phi tol pts htol]
  push_neg
  rfl

theorem LevelSet.in_iff_of_nonneg (L : LevelSet ℚ) (phi : Point ℚ → ℚ) (tol : ℚ)
    (pts : List (Point ℚ)) (h : ∀ p ∈ pts, L.GetValue p = .ok (phi p)) (htol : 0 ≤ tol) :
    L.CutStatusOfPoints pts tol = .ok BRep._IN
      ↔ (∃ p ∈ pts, phi p < -tol) ∧ (∀ p ∈ pts, ¬ phi p > tol) := by
  rw [L.banded_eq_statusOfSizes phi tol pts h, statusOfSizes_in_iff, Ne,
    countP_in_eq_zero, countP_out_eq_zero_of_nonneg phi tol pts htol]
  push_neg
  rfl

theorem LevelSet.out_iff (L : LevelSet ℚ) (phi : Point ℚ → ℚ) (tol : ℚ)
    (pts : List (Point ℚ)) (h : ∀ p ∈ pts, L.GetValue p = .ok (phi p)) :
    L.CutStatusOfPoints pts tol = .ok BRep._OUT
      ↔ (∀ p ∈ pts, ¬ phi p < -tol) ∧ (∃ p ∈ pts, phi p > tol) := by
  rw [L.banded_eq_statusOfSizes phi tol pts h, statusOfSizes_out_iff, Ne,
    countP_in_eq_zero, countP_out_eq_zero]
  constructor
  · rintro ⟨h1, h2⟩
    by_contra hno
    exact h2 (fun p hp hgt => hno ⟨h1, p, hp, hgt.2⟩)
  · rintro ⟨h1, p, hp, hgt⟩
    refine ⟨h1, ?_⟩
    intro hall
    exact hall p hp ⟨h1 p hp, hgt⟩

theorem LevelSet.degenerated_iff (L : LevelSet ℚ) (phi : Point ℚ → ℚ) (tol : ℚ)
    (pts : List (Point ℚ)) (h : ∀ p ∈ pts, L.GetValue p = .ok (phi p)) :
    L.CutStatusOfPoints pts tol = .error .degenerated
      ↔ (∀ p ∈ pts, ¬ phi p < -tol) ∧ (∀ p ∈ pts, ¬ phi p > tol) := by
  rw [L.banded_eq_statusOfSizes phi tol pts h, statusOfSizes_error_iff,
    countP_in_eq_zero, countP_out_eq_zero]
  constructor
  · rintro ⟨h1, h2⟩
    exact ⟨h1, fun p hp hgt => h2 p hp ⟨h1 p hp, hgt⟩⟩
  · rintro ⟨h1, h2⟩
    exact ⟨h1, fun p hp hgt => h2 p hp hgt.2⟩

theorem CircularLevelSet_GetValue (cX cY R TOL : ℚ) (P : Point ℚ) :
    (CircularLevelSet cX cY R TOL).GetValue P = .ok (circleValue cX cY R P) := rfl

/-! ## Tolerance-banded classification: the results -/

/-- C1, as stated, fails for a negative tolerance: on the circle of radius 5
with tolerance `-1` the single point `(5,0,0)` has value `0`, which is both below
`-tol = 1` and above `tol = -1`, yet the status is `IN`, not `CUT`. -/
theorem LevelSet.CutStatus_cut_iff_fails_at_negative_tolerance :
    ¬ ((CircularLevelSet (0 : ℚ) 0 5 (-1)).CutStatus [⟨5, 0, 0⟩] = .ok BRep._CUT
        ↔ (∃ p ∈ [(⟨5, 0, 0⟩ : Point ℚ)], circleValue (0 : ℚ) 0 5 p < -(-1))
          ∧ (∃ p ∈ [(⟨5, 0, 0⟩ : Point ℚ)], circleValue (0 : ℚ) 0 5 p > -1)) := by
  have hstat : (CircularLevelSet (0 : ℚ) 0 5 (-1)).CutStatus [⟨5, 0, 0⟩] = .ok BRep._IN := by
    norm_num [CircularLevelSet, LevelSet.CutStatus, LevelSet.CutStatusOfPoints,
      LevelSet.bucketLoop, LevelSet.GetTolerance, BRep._IN]
  rw [hstat]
  intro hiff
  have hrhs : (∃ p ∈ [(⟨5, 0, 0⟩ : Point ℚ)], circleValue (0 : ℚ) 0 5 p < -(-1))
      ∧ (∃ p ∈ [(⟨5, 0, 0⟩ : Point ℚ)], circleValue (0 : ℚ) 0 5 p > -1) := by
    constructor <;> exact ⟨⟨5, 0, 0⟩, List.mem_singleton.mpr rfl, by norm_num [circleValue]⟩
  have := hiff.mpr hrhs
  simp [BRep._IN, BRep._CUT] at this

/-- C1 (amended: non-negative tolerance).  For every level set whose `GetValue`
is `phi` on the points, every tolerance `tol ≥ 0` and every list of points,
`CutStatusOfPoints(points, tol)` returns `CUT` if and only if some point has
value below `-tol` and some point has value above `tol`; and
`CutStatus(points)` is `CutStatusOfPoints(points, GetTolerance())`. -/
theorem LevelSet.CutStatusOfPoints_cut_iff (L : LevelSet ℚ) (phi : Point ℚ → ℚ) (tol : ℚ)
    (pts : List (Point ℚ)) (hphi : ∀ p ∈ pts, L.GetValue p = .ok (phi p)) (htol : 0 ≤ tol) :
    (L.CutStatusOfPoints pts tol = .ok BRep._CUT
        ↔ (∃ p ∈ pts, phi p < -tol) ∧ (∃ p ∈ pts, phi p > tol))
      ∧ L.CutStatus pts = L.CutStatusOfPoints pts L.GetTolerance :=
  ⟨L.cut_iff_of_nonneg phi tol pts hphi htol, rfl⟩

theorem LevelSet.CutStatusOfPoints_cut_iff_witness :
    (0 : ℚ) ≤ 1
      ∧ (((CircularLevelSet (0 : ℚ) 0 5 1).CutStatusOfPoints [⟨0, 0, 0⟩, ⟨10, 0, 0⟩] 1
            = .ok BRep._CUT
          ↔ (∃ p ∈ [(⟨0, 0, 0⟩ : Point ℚ), ⟨10, 0, 0⟩], circleValue (0 : ℚ) 0 5 p < -1)
            ∧ (∃ p ∈ [(⟨0, 0, 0⟩ : Point ℚ), ⟨10, 0, 0⟩], circleValue (0 : ℚ) 0 5 p > 1))
        ∧ (CircularLevelSet (0 : ℚ) 0 5 1).CutStatus [⟨0, 0, 0⟩, ⟨10, 0, 0⟩]
            = (CircularLevelSet (0 : ℚ) 0 5 1).CutStatusOfPoints [⟨0, 0, 0⟩, ⟨10, 0, 0⟩]
                (CircularLevelSet (0 : ℚ) 0 5 1).GetTolerance) :=
  ⟨by norm_num,
    LevelSet.CutStatusOfPoints_cut_iff (CircularLevelSet (0 : ℚ) 0 5 1) (circleValue (0 : ℚ) 0 5) 1
      [⟨0, 0, 0⟩, ⟨10, 0, 0⟩] (fun _ _ => rfl) (by norm_num)⟩

/-- C2, as stated, fails for a negative tolerance: on the circle of radius 5
with tolerance `-2` the single point `(3,4,0)` has value `0 < -tol`, so the list
is not degenerate, and the status is `IN` although the point has value above
`tol = -2`. -/
theorem LevelSet.CutStatus_in_iff_fails_at_negative_tolerance :
    ((∃ p ∈ [(⟨3, 4, 0⟩ : Point ℚ)], circleValue (0 : ℚ) 0 5 p < -(-2))
        ∨ (∃ p ∈ [(⟨3, 4, 0⟩ : Point ℚ)], circleValue (0 : ℚ) 0 5 p > -2))
      ∧ ¬ ((CircularLevelSet (0 : ℚ) 0 5 (-2)).CutStatus [⟨3, 4, 0⟩] = .ok BRep._IN
            ↔ ∀ p ∈ [(⟨3, 4, 0⟩ : Point ℚ)], ¬ circleValue (0 : ℚ) 0 5 p > -2) := by
  have hstat : (CircularLevelSet (0 : ℚ) 0 5 (-2)).CutStatus [⟨3, 4, 0⟩] = .ok BRep._IN := by
    norm_num [CircularLevelSet, LevelSet.CutStatus, LevelSet.CutStatusOfPoints,
      LevelSet.bucketLoop, LevelSet.GetTolerance, BRep._IN]
  refine ⟨Or.inl ⟨⟨3, 4, 0⟩, List.mem_singleton.mpr rfl, by norm_num [circleValue]⟩, ?_⟩
  rw [hstat]
  intro hiff
  have := hiff.mp rfl ⟨3, 4, 0⟩ (List.mem_singleton.mpr rfl)
  norm_num [circleValue] at this

/-- C2 (amended: non-negative tolerance).  For every level set whose `GetValue`
is `phi` on the points, every tolerance `tol ≥ 0` and every list that is not
degenerate, the classification returns `IN` iff no point has value above `tol`
and `OUT` iff no point has value below `-tol`.  For the circle centred at the
origin with radius 5 and `tol < 24`: the three inner points give `IN`, the three
outer points give `OUT`, and one of the former with one of the latter, in either
order, gives `CUT`. -/
theorem LevelSet.CutStatusOfPoints_in_out_iff (L : LevelSet ℚ) (phi : Point ℚ → ℚ) (tol : ℚ)
    (pts : List (Point ℚ)) (hphi : ∀ p ∈ pts, L.GetValue p = .ok (phi p)) (htol : 0 ≤ tol)
    (hnd : (∃ p ∈ pts, phi p < -tol) ∨ (∃ p ∈ pts, phi p > tol)) :
    (L.CutStatusOfPoints pts tol = .ok BRep._IN ↔ ∀ p ∈ pts, ¬ phi p > tol)
      ∧ (L.CutStatusOfPoints pts tol = .ok BRep._OUT ↔ ∀ p ∈ pts, ¬ phi p < -tol)
      ∧ (tol < 24 →
          (CircularLevelSet (0 : ℚ) 0 5 tol).CutStatus [⟨0, 0, 0⟩, ⟨1, 0, 0⟩, ⟨0, 1, 0⟩]
              = .ok BRep._IN
            ∧ (CircularLevelSet (0 : ℚ) 0 5 tol).CutStatus [⟨10, 0, 0⟩, ⟨20, 0, 0⟩, ⟨0, 30, 0⟩]
              = .ok BRep._OUT
            ∧ ∀ p ∈ [(⟨0, 0, 0⟩ : Point ℚ), ⟨1, 0, 0⟩, ⟨0, 1, 0⟩],
                ∀ q ∈ [(⟨10, 0, 0⟩ : Point ℚ), ⟨20, 0, 0⟩, ⟨0, 30, 0⟩],
                  (CircularLevelSet (0 : ℚ) 0 5 tol).CutStatus [p, q] = .ok BRep._CUT
                    ∧ (CircularLevelSet (0 : ℚ) 0 5 tol).CutStatus [q, p] = .ok BRep._CUT) := by
  refine ⟨?_, ?_, ?_⟩
  · rw [L.in_iff_of_nonneg phi tol pts hphi htol]
    constructor
    · exact fun h => h.2
    · intro hno
      rcases hnd with hin | ⟨p, hp, hgt⟩
      · exact ⟨hin, hno⟩
      · exact absurd hgt (hno p hp)
  · rw [L.out_iff phi tol pts hphi]
    constructor
    · exact fun h => h.1
    · intro hno
      rcases hnd with ⟨p, hp, hlt⟩ | hout
      · exact absurd hlt (hno p hp)
      · exact ⟨hno, hout⟩
  · intro h24
    have hv : ∀ (l : List (Point ℚ)), ∀ p ∈ l,
        (CircularLevelSet (0 : ℚ) 0 5 tol).GetValue p = .ok (circleValue (0 : ℚ) 0 5 p) :=
      fun _ _ _ => rfl
    have hin : ∀ p ∈ [(⟨0, 0, 0⟩ : Point ℚ), ⟨1, 0, 0⟩, ⟨0, 1, 0⟩],
        circleValue (0 : ℚ) 0 5 p < -tol := by
      intro p hp
      simp only [List.mem_cons, List.mem_singleton, List.not_mem_nil, or_false] at hp
      rcases hp with rfl | rfl | rfl <;> norm_num [circleValue] <;> linarith
    have hout : ∀ q ∈ [(⟨10, 0, 0⟩ : Point ℚ), ⟨20, 0, 0⟩, ⟨0, 30, 0⟩],
        circleValue (0 : ℚ) 0 5 q > tol := by
      intro q hq
      simp only [List.mem_cons, List.mem_singleton, List.not_mem_nil, or_false] at hq
      rcases hq with rfl | rfl | rfl <;> norm_num [circleValue] <;> linarith
    refine ⟨?_, ?_, ?_⟩
    · show (CircularLevelSet (0 : ℚ) 0 5 tol).CutStatusOfPoints _ tol = _
      rw [LevelSet.in_iff_of_nonneg _ (circleValue (0 : ℚ) 0 5) tol _ (hv _) htol]
      refine ⟨⟨⟨0, 0, 0⟩, by simp, hin _ (by simp)⟩, ?_⟩
      intro p hp hgt
      have := hin p hp
      linarith
    · show (CircularLevelSet (0 : ℚ) 0 5 tol).CutStatusOfPoints _ tol = _
      rw [LevelSet.out_iff _ (circleValue (0 : ℚ) 0 5) tol _ (hv _)]
      refine ⟨?_, ⟨⟨10, 0, 0⟩, by simp, hout _ (by simp)⟩⟩
      intro p hp hlt
      have := hout p hp
      linarith
    · intro p hp q hq
      constructor
      · show (CircularLevelSet (0 : ℚ) 0 5 tol).CutStatusOfPoints _ tol = _
        rw [LevelSet.cut_iff_of_nonneg _ (circleValue (0 : ℚ) 0 5) tol _ (hv _) htol]
        exact ⟨⟨p, by simp, hin p hp⟩, ⟨q, by simp, hout q hq⟩⟩
      · show (CircularLevelSet (0 : ℚ) 0 5 tol).CutStatusOfPoints _ tol = _
        rw [LevelSet.cut_iff_of_nonneg _ (circleValue (0 : ℚ) 0 5) tol _ (hv _) htol]
        exact ⟨⟨p, by simp, hin p hp⟩, ⟨q, by simp, hout q hq⟩⟩

theorem LevelSet.CutStatusOfPoints_in_out_iff_witness :
    (0 : ℚ) ≤ 1
      ∧ (∃ p ∈ [(⟨0, 0, 0⟩ : Point ℚ), ⟨1, 0, 0⟩], circleValue (0 : ℚ) 0 5 p < -1)
      ∧ ((CircularLevelSet (0 : ℚ) 0 5 1).CutStatusOfPoints [⟨0, 0, 0⟩, ⟨1, 0, 0⟩] 1 = .ok BRep._IN
          ↔ ∀ p ∈ [(⟨0, 0, 0⟩ : Point ℚ), ⟨1, 0, 0⟩], ¬ circleValue (0 : ℚ) 0 5 p > 1) :=
  ⟨by norm_num, ⟨⟨0, 0, 0⟩, by simp, by norm_num [circleValue]⟩,
    (LevelSet.CutStatusOfPoints_in_out_iff (CircularLevelSet (0 : ℚ) 0 5 1) (circleValue (0 : ℚ) 0 5) 1
      [⟨0, 0, 0⟩, ⟨1, 0, 0⟩] (fun _ _ => rfl) (by norm_num)
      (Or.inl ⟨⟨0, 0, 0⟩, by simp, by norm_num [circleValue]⟩)).1⟩

/-- C3.  For every level set whose `GetValue` is `phi` on the points, every
tolerance and every list of points, `CutStatusOfPoints(points, tol)` throws the
degenerate-geometry error (so no status is returned) if and only if no point has
value below `-tol` and no point has value above `tol`; it throws it for the
empty list and for every list whose values all lie in `[-tol, tol]`. -/
theorem LevelSet.CutStatusOfPoints_degenerated_iff (L : LevelSet ℚ) (phi : Point ℚ → ℚ)
    (tol : ℚ) (pts : List (Point ℚ)) (hphi : ∀ p ∈ pts, L.GetValue p = .ok (phi p)) :
    (L.CutStatusOfPoints pts tol = .error .degenerated
        ↔ (∀ p ∈ pts, ¬ phi p < -tol) ∧ (∀ p ∈ pts, ¬ phi p > tol))
      ∧ L.CutStatusOfPoints [] tol = .error .degenerated
      ∧ ((∀ p ∈ pts, -tol ≤ phi p ∧ phi p ≤ tol) →
          L.CutStatusOfPoints pts tol = .error .degenerated) := by
  refine ⟨L.degenerated_iff phi tol pts hphi, rfl, ?_⟩
  intro hband
  rw [L.degenerated_iff phi tol pts hphi]
  exact ⟨fun p hp => not_lt.mpr (hband p hp).1, fun p hp => not_lt.mpr (hband p hp).2⟩

theorem LevelSet.CutStatusOfPoints_degenerated_iff_witness :
    ((CircularLevelSet (0 : ℚ) 0 5 1).CutStatusOfPoints [⟨5, 0, 0⟩, ⟨3, 4, 0⟩] 1
          = .error .degenerated
        ↔ (∀ p ∈ [(⟨5, 0, 0⟩ : Point ℚ), ⟨3, 4, 0⟩], ¬ circleValue (0 : ℚ) 0 5 p < -1)
          ∧ (∀ p ∈ [(⟨5, 0, 0⟩ : Point ℚ), ⟨3, 4, 0⟩], ¬ circleValue (0 : ℚ) 0 5 p > 1))
      ∧ (CircularLevelSet (0 : ℚ) 0 5 1).CutStatusOfPoints [] 1 = .error .degenerated
      ∧ ((∀ p ∈ [(⟨5, 0, 0⟩ : Point ℚ), ⟨3, 4, 0⟩],
            -1 ≤ circleValue (0 : ℚ) 0 5 p ∧ circleValue (0 : ℚ) 0 5 p ≤ 1) →
          (CircularLevelSet (0 : ℚ) 0 5 1).CutStatusOfPoints [⟨5, 0, 0⟩, ⟨3, 4, 0⟩] 1
            = .error .degenerated) :=
  LevelSet.CutStatusOfPoints_degenerated_iff (CircularLevelSet (0 : ℚ) 0 5 1) (circleValue (0 : ℚ) 0 5) 1
    [⟨5, 0, 0⟩, ⟨3, 4, 0⟩] (fun _ _ => rfl)

/-! ## Generic classification: the results -/

theorem countP_eq_zero_iff_forall_false (ins : Point ℚ → Bool) (pts : List (Point ℚ)) :
    pts.countP ins = 0 ↔ ∀ p ∈ pts, ins p = false := by
  simp [List.countP_eq_zero]

theorem countP_not_eq_zero_iff_forall_true (ins : Point ℚ → Bool) (pts : List (Point ℚ)) :
    pts.countP (fun p => !ins p) = 0 ↔ ∀ p ∈ pts, ins p = true := by
  simp [List.countP_eq_zero]

theorem countP_add_countP_not (ins : Point ℚ → Bool) (pts : List (Point ℚ)) :
    pts.countP ins + pts.countP (fun p => !ins p) = pts.length := by
  induction pts with
  | nil => rfl
  | cons p rest ih =>
    cases hp : ins p
    · rw [List.countP_cons_of_neg ins rest (by simp [hp]),
        List.countP_cons_of_pos (fun p => !ins p) rest (by simp [hp]), List.length_cons]
      omega
    · rw [List.countP_cons_of_pos ins rest hp,
        List.countP_cons_of_neg (fun p => !ins p) rest (by simp [hp]), List.length_cons]
      omega

/-- C4.  For every `BRep` whose `IsInside` is `ins` on the points and every
non-empty list of points, `BRep::CutStatusOfPoints` returns `CUT` when some
point is inside and some point is not, `IN` when every point is inside and `OUT`
when no point is inside; the two lists it builds hold the points with
`IsInside` true and false respectively. -/
theorem BRep.generic_status_spec (b : BRep ℚ) (ins : Point ℚ → Bool) (pts : List (Point ℚ))
    (hins : ∀ p ∈ pts, b.IsInside p = .ok (ins p)) (hne : pts ≠ []) :
    ((∃ p ∈ pts, ins p = true) ∧ (∃ p ∈ pts, ins p = false) →
        b.CutStatusOfPoints pts = .ok BRep._CUT)
      ∧ ((∀ p ∈ pts, ins p = true) → b.CutStatusOfPoints pts = .ok BRep._IN)
      ∧ ((∀ p ∈ pts, ins p = false) → b.CutStatusOfPoints pts = .ok BRep._OUT)
      ∧ ∃ acc, b.partitionLoop pts 0 ⟨[], []⟩ = .ok acc
          ∧ acc.in_list.length = pts.countP ins
          ∧ acc.out_list.length = pts.countP (fun p => !ins p) := by
  have hlen := countP_add_countP_not ins pts
  have hpos : 0 < pts.length := List.length_pos.mpr hne
  refine ⟨?_, ?_, ?_, ?_⟩
  · rintro ⟨⟨p, hp, hpt⟩, ⟨q, hq, hqf⟩⟩
    rw [b.generic_eq_statusOfSizes ins pts hins, statusOfSizes_cut_iff, Ne, Ne,
      countP_eq_zero_iff_forall_false, countP_not_eq_zero_iff_forall_true]
    constructor
    · intro h; rw [h p hp] at hpt; cases hpt
    · intro h; rw [h q hq] at hqf; cases hqf
  · intro hall
    rw [b.generic_eq_statusOfSizes ins pts hins, statusOfSizes_in_iff]
    have h0 := (countP_not_eq_zero_iff_forall_true ins pts).mpr hall
    exact ⟨by omega, h0⟩
  · intro hall
    rw [b.generic_eq_statusOfSizes ins pts hins, statusOfSizes_out_iff]
    have h0 := (countP_eq_zero_iff_forall_false ins pts).mpr hall
    exact ⟨h0, by omega⟩
  · obtain ⟨acc, e, hi, ho⟩ := b.partitionLoop_sizes ins pts 0 ⟨[], []⟩ hins
    exact ⟨acc, e, by simpa using hi, by simpa using ho⟩

theorem BRep.generic_status_spec_witness :
    [(⟨0, 0, 0⟩ : Point ℚ), ⟨10, 0, 0⟩] ≠ []
      ∧ (CircularLevelSet (0 : ℚ) 0 5 0).toBRep.CutStatusOfPoints [⟨0, 0, 0⟩, ⟨10, 0, 0⟩]
          = .ok BRep._CUT :=
  ⟨by simp,
    (BRep.generic_status_spec (CircularLevelSet (0 : ℚ) 0 5 0).toBRep
      (fun p => decide (circleValue (0 : ℚ) 0 5 p < 0)) [⟨0, 0, 0⟩, ⟨10, 0, 0⟩]
      (fun _ _ => rfl) (by simp)).1
      ⟨⟨⟨0, 0, 0⟩, by simp, by norm_num [circleValue]⟩,
        ⟨⟨10, 0, 0⟩, by simp, by norm_num [circleValue]⟩⟩⟩

theorem statusOfSizes_ok_of_ne (a b : Nat) (h : ¬ (a = 0 ∧ b = 0)) :
    ∃ stat, statusOfSizes a b = .ok stat
      ∧ (stat = BRep._CUT ∨ stat = BRep._IN ∨ stat = BRep._OUT) := by
  by_cases ha : a = 0
  · have hb : b ≠ 0 := fun hb => h ⟨ha, hb⟩
    exact ⟨BRep._OUT, by simp [statusOfSizes, ha, hb], Or.inr (Or.inr rfl)⟩
  · by_cases hb : b = 0
    · exact ⟨BRep._IN, by simp [statusOfSizes, ha, hb], Or.inr (Or.inl rfl)⟩
    · exact ⟨BRep._CUT, by simp [statusOfSizes, ha, hb], Or.inl rfl⟩

/-- C5.  For every `BRep` whose `IsInside` is `ins` on the points,
`BRep::CutStatusOfPoints` throws the degenerate-geometry error exactly when the
inside and the outside list are both empty; every point is in exactly one of
the two lists, so this happens if and only if the list of points is empty, and
for every non-empty list one of the three statuses is returned. -/
theorem BRep.generic_degenerated_iff_nil (b : BRep ℚ) (ins : Point ℚ → Bool)
    (pts : List (Point ℚ)) (hins : ∀ p ∈ pts, b.IsInside p = .ok (ins p)) :
    (∃ acc, b.partitionLoop pts 0 ⟨[], []⟩ = .ok acc
        ∧ acc.in_list.length + acc.out_list.length = pts.length
        ∧ (b.CutStatusOfPoints pts = .error .degenerated
            ↔ acc.in_list = [] ∧ acc.out_list = []))
      ∧ (b.CutStatusOfPoints pts = .error .degenerated ↔ pts = [])
      ∧ (pts ≠ [] → ∃ stat, b.CutStatusOfPoints pts = .ok stat
          ∧ (stat = BRep._CUT ∨ stat = BRep._IN ∨ stat = BRep._OUT)) := by
  have hlen := countP_add_countP_not ins pts
  obtain ⟨acc, e, hi, ho⟩ := b.partitionLoop_sizes ins pts 0 ⟨[], []⟩ hins
  simp only [List.length_nil, Nat.zero_add] at hi ho
  have hiff : b.CutStatusOfPoints pts = .error .degenerated
      ↔ pts.countP ins = 0 ∧ pts.countP (fun p => !ins p) = 0 := by
    rw [b.generic_eq_statusOfSizes ins pts hins, statusOfSizes_error_iff]
  refine ⟨⟨acc, e, by omega, ?_⟩, ?_, ?_⟩
  · rw [hiff, ← hi, ← ho, List.length_eq_zero, List.length_eq_zero]
  · rw [hiff, ← List.length_eq_zero]
    omega
  · intro hne
    have hpos : 0 < pts.length := List.length_pos.mpr hne
    rw [b.generic_eq_statusOfSizes ins pts hins]
    exact statusOfSizes_ok_of_ne _ _ (by omega)

theorem BRep.generic_degenerated_iff_nil_witness :
    ((CircularLevelSet (0 : ℚ) 0 5 0).toBRep.CutStatusOfPoints [⟨5, 0, 0⟩] = .error .degenerated
        ↔ [(⟨5, 0, 0⟩ : Point ℚ)] = [])
      ∧ ([(⟨5, 0, 0⟩ : Point ℚ)] ≠ [] →
          ∃ stat, (CircularLevelSet (0 : ℚ) 0 5 0).toBRep.CutStatusOfPoints [⟨5, 0, 0⟩] = .ok stat
            ∧ (stat = BRep._CUT ∨ stat = BRep._IN ∨ stat = BRep._OUT)) :=
  (BRep.generic_degenerated_iff_nil (CircularLevelSet (0 : ℚ) 0 5 0).toBRep
    (fun p => decide (circleValue (0 : ℚ) 0 5 p < 0)) [⟨5, 0, 0⟩] (fun _ _ => rfl)).2

/-! ## Rounding to binary64 -/

theorem roundHalfEven_intCast (n : ℤ) : roundHalfEven (n : ℚ) = n := by
  simp [roundHalfEven]

theorem floor_le_roundHalfEven (q : ℚ) : ⌊q⌋ ≤ roundHalfEven q := by
  unfold roundHalfEven
  split_ifs <;> omega

theorem roundHalfEven_le_floor_add_one (q : ℚ) : roundHalfEven q ≤ ⌊q⌋ + 1 := by
  unfold roundHalfEven
  split_ifs <;> omega

theorem roundHalfEven_mono {a b : ℚ} (h : a ≤ b) : roundHalfEven a ≤ roundHalfEven b := by
  have hfl : ⌊a⌋ ≤ ⌊b⌋ := Int.floor_mono h
  rcases hfl.lt_or_eq with hlt | heq
  · calc roundHalfEven a ≤ ⌊a⌋ + 1 := roundHalfEven_le_floor_add_one a
      _ ≤ ⌊b⌋ := hlt
      _ ≤ roundHalfEven b := floor_le_roundHalfEven b
  · have hab : a - ⌊a⌋ ≤ b - ⌊b⌋ := by
      rw [heq]; linarith
    unfold roundHalfEven
    rw [heq] at hab ⊢
    split_ifs <;> first | omega | (exfalso; linarith)

theorem roundHalfEven_le_of_le_intCast {q : ℚ} {n : ℤ} (h : q ≤ n) : roundHalfEven q ≤ n := by
  have := roundHalfEven_mono h
  rwa [roundHalfEven_intCast] at this

theorem le_roundHalfEven_of_intCast_le {q : ℚ} {n : ℤ} (h : (n : ℚ) ≤ q) : n ≤ roundHalfEven q := by
  have := roundHalfEven_mono h
  rwa [roundHalfEven_intCast] at this


theorem Binary64.neg_1074_le_ulpExponent (q : ℚ) : -1074 ≤ Binary64.ulpExponent q := by
  unfold Binary64.ulpExponent
  have := le_max_right (Int.log 2 |q|) (-1022)
  omega

theorem Binary64.round_zero : Binary64.round 0 = 0 := by
  simp [Binary64.round, roundHalfEven]

/-- The quotient of a positive `q` by its unit in the last place is below `2^53`. -/
theorem Binary64.div_ulp_lt {q : ℚ} (hq : 0 < q) :
    q / 2 ^ Binary64.ulpExponent q < 2 ^ 53 := by
  have h2 : (0 : ℚ) < 2 ^ Binary64.ulpExponent q := zpow_pos (by norm_num) _
  rw [div_lt_iff₀ h2]
  have h1 : q < (2 : ℚ) ^ (Int.log 2 q + 1) := by
    exact_mod_cast Int.lt_zpow_succ_log_self (by norm_num : 1 < 2) q
  have h3 : Int.log 2 q + 1 ≤ 53 + Binary64.ulpExponent q := by
    unfold Binary64.ulpExponent
    rw [abs_of_pos hq]
    have := le_max_left (Int.log 2 q) (-1022)
    omega
  calc q < (2 : ℚ) ^ (Int.log 2 q + 1) := h1
    _ ≤ (2 : ℚ) ^ (53 + Binary64.ulpExponent q) := zpow_le_zpow_right₀ (by norm_num) h3
    _ = 2 ^ 53 * 2 ^ Binary64.ulpExponent q := by
      rw [zpow_add₀ (by norm_num : (2 : ℚ) ≠ 0)]
      norm_num

theorem Binary64.round_of_representable_lt (m : ℕ) (k : ℤ) (hm : m < 2 ^ 53)
    (hk : -1074 ≤ k) : Binary64.round ((m : ℚ) * 2 ^ k) = (m : ℚ) * 2 ^ k := by
  rcases Nat.eq_zero_or_pos m with h0 | hpos
  · subst h0
    simp [Binary64.round_zero]
  have h2k : (0 : ℚ) < 2 ^ k := zpow_pos (by norm_num) _
  have hq : (0 : ℚ) < (m : ℚ) * 2 ^ k := mul_pos (by exact_mod_cast hpos) h2k
  -- the unit in the last place divides the number
  have hE : Binary64.ulpExponent ((m : ℚ) * 2 ^ k) ≤ k := by
    have hlt : (m : ℚ) * 2 ^ k < (2 : ℚ) ^ (53 + k) := by
      rw [zpow_add₀ (by norm_num : (2 : ℚ) ≠ 0)]
      have : (m : ℚ) < 2 ^ (53 : ℤ) := by
        have : (m : ℚ) < 2 ^ 53 := by exact_mod_cast hm
        norm_num at this ⊢
        linarith
      exact mul_lt_mul_of_pos_right this h2k
    have hlog : Int.log 2 ((m : ℚ) * 2 ^ k) < 53 + k :=
      (Int.lt_zpow_iff_log_lt (by norm_num : 1 < 2) hq).mp (by exact_mod_cast hlt)
    unfold Binary64.ulpExponent
    rw [abs_of_pos hq]
    rcases max_cases (Int.log 2 ((m : ℚ) * 2 ^ k)) (-1022) with ⟨h, _⟩ | ⟨h, _⟩ <;> rw [h] <;> omega
  obtain ⟨d, hd⟩ : ∃ d : ℕ, k = Binary64.ulpExponent ((m : ℚ) * 2 ^ k) + d :=
    ⟨(k - Binary64.ulpExponent ((m : ℚ) * 2 ^ k)).toNat, by omega⟩
  unfold Binary64.round
  generalize Binary64.ulpExponent ((m : ℚ) * 2 ^ k) = E at hd
  have hE0 : (2 : ℚ) ^ E ≠ 0 := (zpow_pos (by norm_num) _).ne'
  have hdiv : (m : ℚ) * 2 ^ k / 2 ^ E = ((m * 2 ^ d : ℤ) : ℚ) := by
    rw [hd, zpow_add₀ (by norm_num : (2 : ℚ) ≠ 0), zpow_natCast]
    push_cast
    field_simp
    ring
  rw [hdiv, roundHalfEven_intCast, hd, zpow_add₀ (by norm_num : (2 : ℚ) ≠ 0), zpow_natCast]
  push_cast
  ring

/-- A binary64 number: an integer of at most 53 bits times a power of two that
is at least `2^(-1074)`; `2^53` itself is allowed as the integer. -/
theorem Binary64.round_of_representable (m : ℕ) (k : ℤ) (hm : m ≤ 2 ^ 53) (hk : -1074 ≤ k) :
    Binary64.round ((m : ℚ) * 2 ^ k) = (m : ℚ) * 2 ^ k := by
  rcases hm.lt_or_eq with hlt | heq
  · exact Binary64.round_of_representable_lt m k hlt hk
  · have h := Binary64.round_of_representable_lt 1 (k + 53) (by norm_num) (by omega)
    have e : (m : ℚ) * 2 ^ k = ((1 : ℕ) : ℚ) * 2 ^ (k + 53) := by
      rw [heq, zpow_add₀ (by norm_num : (2 : ℚ) ≠ 0)]
      push_cast
      ring
    rw [e]
    exact h

/-- The result of rounding a non-negative number is a binary64 number. -/
theorem Binary64.round_eq_representable {q : ℚ} (hq : 0 ≤ q) :
    ∃ (m : ℕ) (k : ℤ), m ≤ 2 ^ 53 ∧ -1074 ≤ k ∧ Binary64.round q = (m : ℚ) * 2 ^ k := by
  rcases hq.eq_or_lt with h0 | hpos
  · exact ⟨0, 0, by norm_num, by norm_num, by rw [← h0, Binary64.round_zero]; simp⟩
  have h2 : (0 : ℚ) < 2 ^ Binary64.ulpExponent q := zpow_pos (by norm_num) _
  have hnn : (0 : ℤ) ≤ roundHalfEven (q / 2 ^ Binary64.ulpExponent q) :=
    le_roundHalfEven_of_intCast_le (by simpa using (div_pos hpos h2).le)
  have hle : roundHalfEven (q / 2 ^ Binary64.ulpExponent q) ≤ 2 ^ 53 :=
    roundHalfEven_le_of_le_intCast (by
      have := (Binary64.div_ulp_lt hpos).le
      push_cast
      exact this)
  refine ⟨(roundHalfEven (q / 2 ^ Binary64.ulpExponent q)).toNat, Binary64.ulpExponent q,
    ?_, Binary64.neg_1074_le_ulpExponent q, ?_⟩
  · have : ((roundHalfEven (q / 2 ^ Binary64.ulpExponent q)).toNat : ℤ) ≤ 2 ^ 53 := by
      rw [Int.toNat_of_nonneg hnn]; exact hle
    exact_mod_cast this
  · unfold Binary64.round
    congr 1
    have : ((roundHalfEven (q / 2 ^ Binary64.ulpExponent q)).toNat : ℤ)
        = roundHalfEven (q / 2 ^ Binary64.ulpExponent q) := Int.toNat_of_nonneg hnn
    exact_mod_cast this.symm

theorem Binary64.round_idem {q : ℚ} (hq : 0 ≤ q) :
    Binary64.round (Binary64.round q) = Binary64.round q := by
  obtain ⟨m, k, hm, hk, e⟩ := Binary64.round_eq_representable hq
  rw [e]
  exact Binary64.round_of_representable m k hm hk

theorem Binary64.round_nonneg {q : ℚ} (hq : 0 ≤ q) : 0 ≤ Binary64.round q := by
  obtain ⟨m, k, _, _, e⟩ := Binary64.round_eq_representable hq
  rw [e]
  positivity

theorem Binary64.round_double {q : ℚ} (hq : 0 ≤ q) (h : Binary64.round q = q) :
    Binary64.round (2 * q) = 2 * q := by
  obtain ⟨m, k, hm, hk, e⟩ := Binary64.round_eq_representable hq
  rw [h] at e
  have e2 : 2 * q = (m : ℚ) * 2 ^ (k + 1) := by
    rw [e, zpow_add₀ (by norm_num : (2 : ℚ) ≠ 0)]
    ring
  rw [e2]
  exact Binary64.round_of_representable m (k + 1) hm (by omega)


theorem Binary64.round_mono {a b : ℚ} (ha : 0 ≤ a) (hab : a ≤ b) :
    Binary64.round a ≤ Binary64.round b := by
  rcases ha.eq_or_lt with h0 | hpos
  · rw [← h0, Binary64.round_zero]
    exact Binary64.round_nonneg (ha.trans hab)
  have hbpos : 0 < b := lt_of_lt_of_le hpos hab
  have hlog : Int.log 2 a ≤ Int.log 2 b := Int.log_mono_right hpos hab
  have hE : Binary64.ulpExponent a ≤ Binary64.ulpExponent b := by
    unfold Binary64.ulpExponent
    rw [abs_of_pos hpos, abs_of_pos hbpos]
    have := max_le_max hlog (le_refl (-1022 : ℤ))
    omega
  have h2a : (0 : ℚ) < 2 ^ Binary64.ulpExponent a := zpow_pos (by norm_num) _
  have h2b : (0 : ℚ) < 2 ^ Binary64.ulpExponent b := zpow_pos (by norm_num) _
  rcases hE.eq_or_lt with heq | hlt
  · unfold Binary64.round
    rw [heq]
    apply mul_le_mul_of_nonneg_right _ h2b.le
    exact_mod_cast roundHalfEven_mono (div_le_div_of_nonneg_right hab h2b.le)
  · -- the results lie in different binades
    have hEb : Binary64.ulpExponent b = Int.log 2 b - 52 := by
      have h1 := Binary64.neg_1074_le_ulpExponent a
      unfold Binary64.ulpExponent at hlt ⊢
      rw [abs_of_pos hbpos] at hlt ⊢
      rcases max_cases (Int.log 2 b) (-1022) with ⟨h, _⟩ | ⟨h, _⟩
      · rw [h]
      · rw [h] at hlt
        unfold Binary64.ulpExponent at h1
        omega
    have hra : Binary64.round a ≤ 2 ^ 53 * 2 ^ Binary64.ulpExponent a := by
      unfold Binary64.round
      apply mul_le_mul_of_nonneg_right _ h2a.le
      have : roundHalfEven (a / 2 ^ Binary64.ulpExponent a) ≤ 2 ^ 53 :=
        roundHalfEven_le_of_le_intCast (by
          have := (Binary64.div_ulp_lt hpos).le
          push_cast
          exact this)
      exact_mod_cast this
    have hrb : (2 : ℚ) ^ 52 * 2 ^ Binary64.ulpExponent b ≤ Binary64.round b := by
      unfold Binary64.round
      apply mul_le_mul_of_nonneg_right _ h2b.le
      have hb52 : ((2 ^ 52 : ℤ) : ℚ) ≤ b / 2 ^ Binary64.ulpExponent b := by
        rw [le_div_iff₀ h2b, hEb]
        have h1 : (2 : ℚ) ^ Int.log 2 b ≤ b := by
          exact_mod_cast Int.zpow_log_le_self (by norm_num : 1 < 2) hbpos
        have h2 : ((2 ^ 52 : ℤ) : ℚ) * 2 ^ (Int.log 2 b - 52) = 2 ^ Int.log 2 b := by
          rw [zpow_sub₀ (by norm_num : (2 : ℚ) ≠ 0), zpow_ofNat]
          push_cast
          field_simp
          norm_num [mul_comm]
        rw [h2]
        exact h1
      have : (2 ^ 52 : ℤ) ≤ roundHalfEven (b / 2 ^ Binary64.ulpExponent b) :=
        le_roundHalfEven_of_intCast_le hb52
      exact_mod_cast this
    have hmid : (2 : ℚ) ^ 53 * 2 ^ Binary64.ulpExponent a
        ≤ 2 ^ 52 * 2 ^ Binary64.ulpExponent b := by
      have h1 : (2 : ℚ) ^ 53 * 2 ^ Binary64.ulpExponent a
          = 2 ^ 52 * 2 ^ (Binary64.ulpExponent a + 1) := by
        rw [zpow_add₀ (by norm_num : (2 : ℚ) ≠ 0)]
        ring
      rw [h1]
      apply mul_le_mul_of_nonneg_left _ (by positivity)
      exact zpow_le_zpow_right₀ (by norm_num) (by omega)
    exact hra.trans (hmid.trans hrb)

theorem roundHalfEven_eq_zero {q : ℚ} (h0 : 0 ≤ q) (h1 : q ≤ 1 / 2) : roundHalfEven q = 0 := by
  have hf : ⌊q⌋ = 0 := by
    rw [Int.floor_eq_iff]
    constructor
    · simpa using h0
    · norm_num
      linarith
  unfold roundHalfEven
  rw [hf]
  norm_num
  intro _
  exact h1

/-- A number of magnitude at most `2^(-1075)`, half the least positive binary64
number, rounds to zero (underflow). -/
theorem Binary64.round_eq_zero_of_le {q : ℚ} (h0 : 0 ≤ q) (h1 : q ≤ 1 / 2 ^ 1075) :
    Binary64.round q = 0 := by
  rcases h0.eq_or_lt with h | hpos
  · rw [← h, Binary64.round_zero]
  have hlog : Int.log 2 q < -1022 := by
    rw [← Int.lt_zpow_iff_log_lt (by norm_num : 1 < 2) hpos]
    have : (1 : ℚ) / 2 ^ 1075 < 2 ^ (-1022 : ℤ) := by
      rw [zpow_neg, zpow_ofNat]
      norm_num
    exact_mod_cast lt_of_le_of_lt h1 this
  have hE : Binary64.ulpExponent q = -1074 := by
    unfold Binary64.ulpExponent
    rw [abs_of_pos hpos, max_eq_right hlog.le]
    norm_num
  unfold Binary64.round
  rw [hE, roundHalfEven_eq_zero]
  · simp
  · positivity
  · rw [zpow_neg, zpow_ofNat, div_inv_eq_mul]
    have : q * 2 ^ 1074 ≤ 1 / 2 ^ 1075 * 2 ^ 1074 := by
      apply mul_le_mul_of_nonneg_right h1 (by positivity)
    norm_num at this ⊢
    linarith

/-- The tie `2 - 2^(-53)`, halfway between the binary64 numbers `2 - 2^(-52)`
and `2`, rounds to `2`, whose last bit is even. -/
theorem Binary64.round_two_sub : Binary64.round (2 - 1 / 2 ^ 53) = 2 := by
  have hq : (0 : ℚ) < 2 - 1 / 2 ^ 53 := by norm_num
  have hlog : Int.log 2 (2 - 1 / 2 ^ 53 : ℚ) = 0 := by
    apply le_antisymm
    · have : Int.log 2 (2 - 1 / 2 ^ 53 : ℚ) < 1 := by
        rw [← Int.lt_zpow_iff_log_lt (by norm_num : 1 < 2) hq]
        norm_num
      omega
    · rw [← Int.zpow_le_iff_le_log (by norm_num : 1 < 2) hq]
      norm_num
  have hE : Binary64.ulpExponent (2 - 1 / 2 ^ 53) = -52 := by
    unfold Binary64.ulpExponent
    rw [abs_of_pos hq, hlog]
    norm_num
  have hf : ⌊((2 : ℚ) - 1 / 2 ^ 53) / 2 ^ (-52 : ℤ)⌋ = 2 ^ 53 - 1 := by
    rw [Int.floor_eq_iff, zpow_neg, zpow_ofNat]
    norm_num
  unfold Binary64.round
  rw [hE]
  unfold roundHalfEven
  rw [hf, zpow_neg, zpow_ofNat]
  norm_num

theorem Binary64.isRounding : IsRounding Binary64.round where
  zero := Binary64.round_zero
  one := by
    have := Binary64.round_of_representable 1 0 (by norm_num) (by norm_num)
    simpa using this
  mono := fun _ _ ha hab => Binary64.round_mono ha hab
  idem := fun _ ha => Binary64.round_idem ha
  double := fun _ ha h => Binary64.round_double ha h

theorem Binary64.roundsExactly : RoundsExactly Binary64.round 53 := by
  intro k m hk hm
  have h := Binary64.round_of_representable m (-(k : ℤ)) hm.le (by omega)
  have e : (m : ℚ) / 2 ^ k = (m : ℚ) * 2 ^ (-(k : ℤ)) := by
    rw [zpow_neg, zpow_natCast, div_eq_mul_inv]
  rw [e]
  exact h

theorem Binary64.round_one : Binary64.round 1 = 1 := Binary64.isRounding.one

theorem LevelSet.BisectLoop_of_converged (L : LevelSet ℚ) (round : ℚ → ℚ) (P1 P2 : Point ℚ)
    (tol : ℚ) (fuel : Nat) (s : LevelSet.BisectState ℚ) (h : s.converged = true) :
    L.BisectLoop round P1 P2 tol fuel s = some (.ok s.P) := by
  unfold LevelSet.BisectLoop
  simp [h]

theorem LevelSet.BisectLoop_zero (L : LevelSet ℚ) (round : ℚ → ℚ) (P1 P2 : Point ℚ)
    (tol : ℚ) (s : LevelSet.BisectState ℚ) (h : s.converged = false) :
    L.BisectLoop round P1 P2 tol 0 s = none := by
  unfold LevelSet.BisectLoop
  simp [h]

theorem LevelSet.BisectLoop_succ (L : LevelSet ℚ) (round : ℚ → ℚ) (P1 P2 : Point ℚ) (tol : ℚ)
    (fuel : Nat) (s s1 : LevelSet.BisectState ℚ) (h : s.converged = false)
    (e : L.BisectBody round P1 P2 tol s = .ok s1) :
    L.BisectLoop round P1 P2 tol (fuel + 1) s = L.BisectLoop round P1 P2 tol fuel s1 := by
  rw [LevelSet.BisectLoop]
  simp [h, e]

/-- More fuel does not change a result that was already reached. -/
theorem LevelSet.BisectLoop_mono (L : LevelSet ℚ) (round : ℚ → ℚ) (P1 P2 : Point ℚ) (tol : ℚ) :
    ∀ (fuel : Nat) (s : LevelSet.BisectState ℚ) (r : Except Error (Point ℚ)),
      L.BisectLoop round P1 P2 tol fuel s = some r →
      ∀ k, L.BisectLoop round P1 P2 tol (fuel + k) s = some r := by
  intro fuel
  induction fuel with
  | zero =>
    intro s r h k
    cases hc : s.converged
    · rw [L.BisectLoop_zero round P1 P2 tol s hc] at h
      cases h
    · rw [L.BisectLoop_of_converged round P1 P2 tol _ s hc] at h
      rw [L.BisectLoop_of_converged round P1 P2 tol _ s hc, h]
  | succ n ih =>
    intro s r h k
    cases hc : s.converged
    · rw [show n + 1 + k = (n + k) + 1 by omega]
      rw [LevelSet.BisectLoop] at h ⊢
      simp only [hc, Bool.false_eq_true, if_false] at h ⊢
      cases hb : L.BisectBody round P1 P2 tol s with
      | error e => simpa [hb] using h
      | ok s1 =>
        simp only [hb] at h ⊢
        exact ih s1 r h k
    · rw [L.BisectLoop_of_converged round P1 P2 tol _ s hc] at h
      rw [L.BisectLoop_of_converged round P1 P2 tol _ s hc, h]

theorem LevelSet.BisectBody_ok (L : LevelSet ℚ) (phi : Point ℚ → ℚ)
    (hphi : ∀ p, L.GetValue p = .ok (phi p)) (round : ℚ → ℚ) (P1 P2 : Point ℚ) (tol : ℚ)
    (s : LevelSet.BisectState ℚ) : ∃ s1, L.BisectBody round P1 P2 tol s = .ok s1 := by
  simp only [LevelSet.BisectBody, hphi]
  split_ifs <;> exact ⟨_, rfl⟩

/-- What one iteration does to the state, by cases on the two tests on the value
`fm` at the midpoint `mid`. -/
theorem LevelSet.BisectBody_cases (L : LevelSet ℚ) (phi : Point ℚ → ℚ)
    (hphi : ∀ p, L.GetValue p = .ok (phi p)) (round : ℚ → ℚ) (P1 P2 : Point ℚ) (tol : ℚ)
    (s s1 : LevelSet.BisectState ℚ) (hs : s.converged = false)
    (e : L.BisectBody round P1 P2 tol s = .ok s1) :
    s1.P = LevelSet.segmentPoint P1 P2 (round (round (s.left + s.right) / 2))
      ∧ ((|phi s1.P| < tol ∧ s1.converged = true ∧ s1.left = s.left ∧ s1.right = s.right
            ∧ s1.f1 = s.f1 ∧ s1.f2 = s.f2)
          ∨ (¬ |phi s1.P| < tol ∧ phi s1.P * s.f1 < 0 ∧ s1.left = s.left
              ∧ s1.right = round (round (s.left + s.right) / 2)
              ∧ s1.f1 = s.f1 ∧ s1.f2 = phi s1.P
              ∧ s1.converged = decide (round (s1.right - s1.left) < tol))
          ∨ (¬ |phi s1.P| < tol ∧ ¬ phi s1.P * s.f1 < 0
              ∧ s1.left = round (round (s.left + s.right) / 2) ∧ s1.right = s.right
              ∧ s1.f1 = phi s1.P ∧ s1.f2 = s.f2
              ∧ s1.converged = decide (round (s1.right - s1.left) < tol))) := by
  simp only [LevelSet.BisectBody, hphi] at e
  split_ifs at e with ha hb hc hc
  all_goals
    simp only [Except.ok.injEq] at e
    subst e
  · exact ⟨rfl, Or.inl ⟨ha, rfl, rfl, rfl, rfl, rfl⟩⟩
  · exact ⟨rfl, Or.inr (Or.inl ⟨ha, hb, rfl, rfl, rfl, rfl, by simpa using hc⟩)⟩
  · exact ⟨rfl, Or.inr (Or.inl ⟨ha, hb, rfl, rfl, rfl, rfl, by simpa [hs] using hc⟩)⟩
  · exact ⟨rfl, Or.inr (Or.inr ⟨ha, hb, rfl, rfl, rfl, rfl, by simpa using hc⟩)⟩
  · exact ⟨rfl, Or.inr (Or.inr ⟨ha, hb, rfl, rfl, rfl, rfl, by simpa [hs] using hc⟩)⟩

/-- With a total `GetValue` the loop of `Bisect` never throws. -/
theorem LevelSet.BisectLoop_ne_error (L : LevelSet ℚ) (phi : Point ℚ → ℚ)
    (hphi : ∀ p, L.GetValue p = .ok (phi p)) (round : ℚ → ℚ) (P1 P2 : Point ℚ) (tol : ℚ) :
    ∀ (fuel : Nat) (s : LevelSet.BisectState ℚ) (e : Error),
      L.BisectLoop round P1 P2 tol fuel s ≠ some (.error e) := by
  intro fuel
  induction fuel with
  | zero =>
    intro s e
    rw [LevelSet.BisectLoop]
    cases hc : s.converged <;> simp
  | succ n ih =>
    intro s e
    cases hc : s.converged
    · obtain ⟨s1, hb⟩ := L.BisectBody_ok phi hphi round P1 P2 tol s
      rw [L.BisectLoop_succ round P1 P2 tol n s s1 hc hb]
      exact ih s1 e
    · rw [L.BisectLoop_of_converged round P1 P2 tol _ s hc]
      simp

theorem LevelSet.BisectIterate_of_converged (L : LevelSet ℚ) (round : ℚ → ℚ) (P1 P2 : Point ℚ)
    (tol : ℚ) (n : Nat) (s : LevelSet.BisectState ℚ) (h : s.converged = true) :
    L.BisectIterate round P1 P2 tol n s = .ok s := by
  cases n with
  | zero => rfl
  | succ n => simp [LevelSet.BisectIterate, h]

theorem LevelSet.BisectIterate_succ (L : LevelSet ℚ) (round : ℚ → ℚ) (P1 P2 : Point ℚ)
    (tol : ℚ) (n : Nat) (s s1 : LevelSet.BisectState ℚ) (h : s.converged = false)
    (e : L.BisectBody round P1 P2 tol s = .ok s1) :
    L.BisectIterate round P1 P2 tol (n + 1) s = L.BisectIterate round P1 P2 tol n s1 := by
  simp [LevelSet.BisectIterate, h, e]

/-- If the iteration reaches a state from which the loop never ends, the loop
never ends. -/
theorem LevelSet.BisectLoop_none_of_iterate (L : LevelSet ℚ) (round : ℚ → ℚ) (P1 P2 : Point ℚ)
    (tol : ℚ) :
    ∀ (n : Nat) (s0 s : LevelSet.BisectState ℚ),
      L.BisectIterate round P1 P2 tol n s0 = .ok s →
      (∀ fuel, L.BisectLoop round P1 P2 tol fuel s = none) →
      ∀ fuel, L.BisectLoop round P1 P2 tol fuel s0 = none := by
  intro n
  induction n with
  | zero =>
    intro s0 s e h
    simp only [LevelSet.BisectIterate, Except.ok.injEq] at e
    subst e
    exact h
  | succ n ih =>
    intro s0 s e h fuel
    cases hc0 : s0.converged
    · cases hb0 : L.BisectBody round P1 P2 tol s0 with
      | error err => simp [LevelSet.BisectIterate, hc0, hb0] at e
      | ok s01 =>
        rw [L.BisectIterate_succ round P1 P2 tol n s0 s01 hc0 hb0] at e
        cases fuel with
        | zero => exact L.BisectLoop_zero round P1 P2 tol s0 hc0
        | succ f =>
          rw [L.BisectLoop_succ round P1 P2 tol f s0 s01 hc0 hb0]
          exact ih s01 s e h f
    · rw [L.BisectIterate_of_converged round P1 P2 tol _ s0 hc0] at e
      simp only [Except.ok.injEq] at e
      subst e
      exact h fuel

/-- The rounded midpoint of two numbers of `[0, 1]` that the rounding keeps lies
between them and is kept by the rounding. -/
theorem IsRounding.mid_mem {round : ℚ → ℚ} (h : IsRounding round) {l r : ℚ}
    (hl : round l = l) (hr : round r = r) (h0 : 0 ≤ l) (hlr : l ≤ r) :
    l ≤ round (round (l + r) / 2) ∧ round (round (l + r) / 2) ≤ r
      ∧ round (round (round (l + r) / 2)) = round (round (l + r) / 2) := by
  have h2l : 2 * l ≤ round (l + r) := by
    have := h.mono (2 * l) (l + r) (by linarith) (by linarith)
    rwa [h.double l h0 hl] at this
  have h2r : round (l + r) ≤ 2 * r := by
    have := h.mono (l + r) (2 * r) (by linarith) (by linarith)
    rwa [h.double r (h0.trans hlr) hr] at this
  refine ⟨?_, ?_, h.idem _ (by linarith)⟩
  · have := h.mono l (round (l + r) / 2) h0 (by linarith)
    rwa [hl] at this
  · have := h.mono (round (l + r) / 2) r (by linarith) (by linarith)
    rwa [hr] at this

theorem IsRounding.nonneg {round : ℚ → ℚ} (h : IsRounding round) {a : ℚ} (ha : 0 ≤ a) :
    0 ≤ round a := by
  have := h.mono 0 a (le_refl _) ha
  rwa [h.zero] at this

theorem BracketInv_init (round : ℚ → ℚ) (h : IsRounding round) (f1 f2 : ℚ) :
    BracketInv round (LevelSet.BisectInit f1 f2) :=
  ⟨h.zero, h.one, le_refl _, zero_le_one, le_refl _⟩

theorem BracketInv_step (L : LevelSet ℚ) (phi : Point ℚ → ℚ)
    (hphi : ∀ p, L.GetValue p = .ok (phi p)) (round : ℚ → ℚ) (h : IsRounding round)
    (P1 P2 : Point ℚ) (tol : ℚ) (s s1 : LevelSet.BisectState ℚ) (hinv : BracketInv round s)
    (hs : s.converged = false)
    (e : L.BisectBody round P1 P2 tol s = .ok s1) : BracketInv round s1 := by
  obtain ⟨hl, hr, h0, hlr, h1⟩ := hinv
  obtain ⟨hm1, hm2, hm3⟩ := h.mid_mem hl hr h0 hlr
  obtain ⟨_, hcase⟩ := L.BisectBody_cases phi hphi round P1 P2 tol s s1 hs e
  rcases hcase with ⟨_, _, e1, e2, _, _⟩ | ⟨_, _, e1, e2, _, _, _⟩ | ⟨_, _, e1, e2, _, _, _⟩
  · rw [BracketInv, e1, e2]; exact ⟨hl, hr, h0, hlr, h1⟩
  · rw [BracketInv, e1, e2]; exact ⟨hl, hm3, h0, hm1, hm2.trans h1⟩
  · rw [BracketInv, e1, e2]; exact ⟨hm3, hr, h0.trans hm1, hm2, h1⟩

theorem RoundsExactly.one_le {round : ℚ → ℚ} {p : Nat} (_ : RoundsExactly round p) {n : Nat}
    (hn : n < p) : (1 : Nat) < 2 ^ p :=
  Nat.one_lt_two_pow (by omega)

/-- While the ends of the bracket are `j/2^n` and `(j+1)/2^n` with `n` below the
precision, the midpoint is computed exactly. -/
theorem RoundsExactly.mid_eq {round : ℚ → ℚ} {p : Nat} (h : RoundsExactly round p) {n j : Nat}
    (hn : n < p) (hj : j < 2 ^ n) :
    round (round ((j : ℚ) / 2 ^ n + ((j : ℚ) + 1) / 2 ^ n) / 2)
      = ((2 * j + 1 : Nat) : ℚ) / 2 ^ (n + 1) := by
  have hm : 2 * j + 1 < 2 ^ p := by
    have h1 : 2 * j + 1 < 2 ^ (n + 1) := by rw [pow_succ]; omega
    exact lt_of_lt_of_le h1 (Nat.pow_le_pow_right (by norm_num) (by omega))
  have e1 : (j : ℚ) / 2 ^ n + ((j : ℚ) + 1) / 2 ^ n = ((2 * j + 1 : Nat) : ℚ) / 2 ^ n := by
    push_cast
    ring
  have e2 : ((2 * j + 1 : Nat) : ℚ) / 2 ^ n / 2 = ((2 * j + 1 : Nat) : ℚ) / 2 ^ (n + 1) := by
    rw [pow_succ, div_div]
  rw [e1, h n (2 * j + 1) hn.le hm, e2, h (n + 1) (2 * j + 1) hn hm]

theorem RoundsExactly.width_eq {round : ℚ → ℚ} {p : Nat} (h : RoundsExactly round p) {n : Nat}
    (hn : n < p) : round (1 / 2 ^ (n + 1)) = 1 / 2 ^ (n + 1) := by
  have := h (n + 1) 1 hn (h.one_le hn)
  simpa using this

theorem ExactLevel.width {n : Nat} {s : LevelSet.BisectState ℚ} (h : ExactLevel n s) :
    s.right - s.left = 1 / 2 ^ n := by
  obtain ⟨j, _, hl, hr⟩ := h
  rw [hl, hr]
  ring

theorem ExactLevel_init (f1 f2 : ℚ) : ExactLevel 0 (LevelSet.BisectInit f1 f2) :=
  ⟨0, by norm_num, by simp [LevelSet.BisectInit], by simp [LevelSet.BisectInit]⟩

/-- One iteration on an exact bracket of level `n` below the precision: it sets
`converged`, or it leaves an exact bracket of level `n + 1`, half as wide, whose
width is not below the tolerance. -/
theorem ExactLevel_step (L : LevelSet ℚ) (phi : Point ℚ → ℚ)
    (hphi : ∀ p, L.GetValue p = .ok (phi p)) (round : ℚ → ℚ) (p : Nat)
    (hexact : RoundsExactly round p) (P1 P2 : Point ℚ) (tol : ℚ) (n : Nat) (hn : n < p)
    (s s1 : LevelSet.BisectState ℚ) (hs : s.converged = false) (hlev : ExactLevel n s)
    (e : L.BisectBody round P1 P2 tol s = .ok s1) :
    s1.converged = true
      ∨ (s1.converged = false ∧ ExactLevel (n + 1) s1 ∧ ¬ (1 : ℚ) / 2 ^ (n + 1) < tol) := by
  obtain ⟨j, hj, hl, hr⟩ := hlev
  have hmid := hexact.mid_eq hn hj
  have hw := hexact.width_eq hn
  obtain ⟨_, hcase⟩ := L.BisectBody_cases phi hphi round P1 P2 tol s s1 hs e
  rw [hl, hr, hmid] at hcase
  rcases hcase with ⟨_, hc, _⟩ | ⟨_, _, e1, e2, _, _, hc⟩ | ⟨_, _, e1, e2, _, _, hc⟩
  · exact Or.inl hc
  · have hlev1 : ExactLevel (n + 1) s1 := by
      refine ⟨2 * j, by rw [pow_succ]; omega, ?_, ?_⟩
      · rw [e1, pow_succ]; push_cast; field_simp; ring
      · rw [e2]; push_cast; ring
    rw [hlev1.width, hw] at hc
    cases hc1 : s1.converged
    · rw [hc1] at hc
      exact Or.inr ⟨rfl, hlev1, by simpa using hc.symm⟩
    · exact Or.inl rfl
  · have hlev1 : ExactLevel (n + 1) s1 := by
      refine ⟨2 * j + 1, by rw [pow_succ]; omega, ?_, ?_⟩
      · rw [e1]
      · rw [e2, pow_succ]; push_cast; field_simp; ring
    rw [hlev1.width, hw] at hc
    cases hc1 : s1.converged
    · rw [hc1] at hc
      exact Or.inr ⟨rfl, hlev1, by simpa using hc.symm⟩
    · exact Or.inl rfl

/-- From an exact bracket of level `k`, the loop ends within `m + 1` iterations
when `k + m + 1` is within the precision and `2^(-(k+m+1))` is below the
tolerance. -/
theorem LevelSet.BisectLoop_exact_terminates (L : LevelSet ℚ) (phi : Point ℚ → ℚ)
    (hphi : ∀ p, L.GetValue p = .ok (phi p)) (round : ℚ → ℚ) (p : Nat)
    (hexact : RoundsExactly round p) (P1 P2 : Point ℚ) (tol : ℚ) :
    ∀ (m k : Nat) (s : LevelSet.BisectState ℚ), ExactLevel k s → s.converged = false →
      k + m + 1 ≤ p → (1 : ℚ) / 2 ^ (k + m + 1) < tol →
      ∃ R, L.BisectLoop round P1 P2 tol (m + 1) s = some (.ok R) := by
  intro m
  induction m with
  | zero =>
    intro k s hlev hs hk hw
    obtain ⟨s1, e⟩ := L.BisectBody_ok phi hphi round P1 P2 tol s
    rw [L.BisectLoop_succ round P1 P2 tol 0 s s1 hs e]
    rcases ExactLevel_step L phi hphi round p hexact P1 P2 tol k (by omega) s s1 hs hlev e
      with hc1 | ⟨_, _, hnot⟩
    · exact ⟨s1.P, L.BisectLoop_of_converged round P1 P2 tol 0 s1 hc1⟩
    · exact absurd hw hnot
  | succ m ih =>
    intro k s hlev hs hk hw
    obtain ⟨s1, e⟩ := L.BisectBody_ok phi hphi round P1 P2 tol s
    rw [L.BisectLoop_succ round P1 P2 tol (m + 1) s s1 hs e]
    rcases ExactLevel_step L phi hphi round p hexact P1 P2 tol k (by omega) s s1 hs hlev e
      with hc1 | ⟨hc1, hlev1, _⟩
    · exact ⟨s1.P, L.BisectLoop_of_converged round P1 P2 tol (m + 1) s1 hc1⟩
    · exact ih (k + 1) s1 hlev1 hc1 (by omega)
        (by rwa [show k + 1 + m + 1 = k + (m + 1) + 1 by omega])

/-- `Bisect` returns within `max 1 n` iterations when `n` is within the
precision of the rounding and `2^(-n)` is below the tolerance. -/
theorem LevelSet.Bisect_returns_within (L : LevelSet ℚ) (phi : Point ℚ → ℚ)
    (hphi : ∀ p, L.GetValue p = .ok (phi p)) (round : ℚ → ℚ) (p : Nat)
    (hexact : RoundsExactly round p) (hp : 1 ≤ p) (P1 P2 : Point ℚ) (tol : ℚ)
    (hsign : ¬ phi P1 * phi P2 > 0) (n : Nat) (hn : n ≤ p) (hw : (1 : ℚ) / 2 ^ n < tol) :
    ∃ R, ∀ fuel, max 1 n ≤ fuel → L.Bisect round fuel P1 P2 tol = some (.ok R) := by
  have hk : ∃ k : Nat, max 1 n = k + 1 ∧ k + 1 ≤ p ∧ (1 : ℚ) / 2 ^ (k + 1) < tol := by
    cases n with
    | zero =>
      refine ⟨0, rfl, hp, ?_⟩
      have h1 : (1 : ℚ) < tol := by simpa using hw
      norm_num
      linarith
    | succ m => exact ⟨m, by simp, hn, hw⟩
  obtain ⟨k, hk1, hk2, hk3⟩ := hk
  obtain ⟨R, hR⟩ := L.BisectLoop_exact_terminates phi hphi round p hexact P1 P2 tol k 0
    (LevelSet.BisectInit (phi P1) (phi P2)) (ExactLevel_init _ _) rfl (by omega)
    (by rwa [show 0 + k + 1 = k + 1 by omega])
  refine ⟨R, ?_⟩
  intro fuel hfuel
  rw [hk1] at hfuel
  obtain ⟨d, rfl⟩ := Nat.exists_eq_add_of_le hfuel
  simp only [LevelSet.Bisect, hphi, hsign, if_false]
  exact L.BisectLoop_mono round P1 P2 tol (k + 1) _ _ hR d

/-! ## The loop and a tolerance that is not positive -/

/-- With `tol ≤ 0` an iteration does not set `converged`. -/
theorem LevelSet.BisectBody_of_tol_nonpos (L : LevelSet ℚ) (phi : Point ℚ → ℚ)
    (hphi : ∀ p, L.GetValue p = .ok (phi p)) (round : ℚ → ℚ) (h : IsRounding round)
    (P1 P2 : Point ℚ) (tol : ℚ) (htol : tol ≤ 0) (s s1 : LevelSet.BisectState ℚ)
    (hs : s.converged = false) (hinv : BracketInv round s)
    (e : L.BisectBody round P1 P2 tol s = .ok s1) :
    s1.converged = false ∧ BracketInv round s1 := by
  have hb1 := BracketInv_step L phi hphi round h P1 P2 tol s s1 hinv hs e
  refine ⟨?_, hb1⟩
  have hnot : ¬ round (s1.right - s1.left) < tol := by
    have := h.nonneg (sub_nonneg.mpr hb1.2.2.2.1)
    intro hlt
    linarith
  obtain ⟨_, hcase⟩ := L.BisectBody_cases phi hphi round P1 P2 tol s s1 hs e
  rcases hcase with ⟨ha, _⟩ | ⟨_, _, _, _, _, _, hc⟩ | ⟨_, _, _, _, _, _, hc⟩
  · exfalso
    have := abs_nonneg (phi s1.P)
    linarith
  · rw [hc]; simpa using hnot
  · rw [hc]; simpa using hnot

/-- With `tol ≤ 0` the loop is still running after any number of iterations. -/
theorem LevelSet.BisectLoop_none_of_tol_nonpos (L : LevelSet ℚ) (phi : Point ℚ → ℚ)
    (hphi : ∀ p, L.GetValue p = .ok (phi p)) (round : ℚ → ℚ) (h : IsRounding round)
    (P1 P2 : Point ℚ) (tol : ℚ) (htol : tol ≤ 0) :
    ∀ (fuel : Nat) (s : LevelSet.BisectState ℚ), s.converged = false → BracketInv round s →
      L.BisectLoop round P1 P2 tol fuel s = none := by
  intro fuel
  induction fuel with
  | zero =>
    intro s hs _
    exact L.BisectLoop_zero round P1 P2 tol s hs
  | succ n ih =>
    intro s hs hinv
    obtain ⟨s1, e⟩ := L.BisectBody_ok phi hphi round P1 P2 tol s
    rw [L.BisectLoop_succ round P1 P2 tol n s s1 hs e]
    obtain ⟨hs1, hinv1⟩ := L.BisectBody_of_tol_nonpos phi hphi round h P1 P2 tol htol s s1 hs hinv e
    exact ih s1 hs1 hinv1

theorem LevelSet.Bisect_none_of_tol_nonpos (L : LevelSet ℚ) (phi : Point ℚ → ℚ)
    (hphi : ∀ p, L.GetValue p = .ok (phi p)) (round : ℚ → ℚ) (h : IsRounding round)
    (P1 P2 : Point ℚ) (tol : ℚ) (htol : tol ≤ 0)
    (hsign : ¬ phi P1 * phi P2 > 0) (fuel : Nat) :
    L.Bisect round fuel P1 P2 tol = none := by
  simp only [LevelSet.Bisect, hphi, hsign, if_false]
  exact L.BisectLoop_none_of_tol_nonpos phi hphi round h P1 P2 tol htol fuel _ rfl
    (BracketInv_init round h _ _)

/-! ## A bracket that stops shrinking -/

theorem LevelSet.segmentPoint_unit (t : ℚ) :
    LevelSet.segmentPoint ⟨0, 0, 0⟩ ⟨1, 0, 0⟩ t = ⟨t, 0, 0⟩ := by
  simp [LevelSet.segmentPoint, Point.add, Point.smul, Point.sub]

theorem stepState_zero : LevelSet.BisectInit (-1 : ℚ) 1 = stepState 0 ⟨0, 0, 0⟩ := by
  simp [LevelSet.BisectInit, stepState]

/-- While `k ≤ 52` an iteration on the bracket `[1 - 2^(-k), 1]` of the step
computes the midpoint `1 - 2^(-(k+1))` exactly and moves `left` to it. -/
theorem stepState_body (k : Nat) (hk : k ≤ 52) (P : Point ℚ) :
    stepLevelSet.BisectBody Binary64.round ⟨0, 0, 0⟩ ⟨1, 0, 0⟩ (1 / 2 ^ 60) (stepState k P)
      = .ok (stepState (k + 1) ⟨1 - 1 / 2 ^ (k + 1), 0, 0⟩) := by
  have hpow : (0 : ℚ) < 2 ^ k := by positivity
  have hpow1 : (0 : ℚ) < 2 ^ (k + 1) := by positivity
  have hj : 2 ^ k - 1 < 2 ^ k := Nat.sub_lt (Nat.one_le_two_pow) (by norm_num)
  have hcast : ((2 ^ k - 1 : Nat) : ℚ) = 2 ^ k - 1 := by
    rw [Nat.cast_sub (Nat.one_le_two_pow)]
    push_cast
    rfl
  have hmid := Binary64.roundsExactly.mid_eq (show k < 53 by omega) hj
  have e1 : ((2 ^ k - 1 : Nat) : ℚ) / 2 ^ k + (((2 ^ k - 1 : Nat) : ℚ) + 1) / 2 ^ k
      = 1 - 1 / 2 ^ k + 1 := by
    rw [hcast]
    field_simp
  have e2 : ((2 * (2 ^ k - 1) + 1 : Nat) : ℚ) / 2 ^ (k + 1) = 1 - 1 / 2 ^ (k + 1) := by
    have : 2 * (2 ^ k - 1) + 1 = 2 ^ (k + 1) - 1 := by
      have := Nat.one_le_two_pow (n := k)
      rw [pow_succ]
      omega
    rw [this, Nat.cast_sub (Nat.one_le_two_pow)]
    push_cast
    field_simp
  rw [e1, e2] at hmid
  have hw : Binary64.round (1 - (1 - 1 / 2 ^ (k + 1))) = 1 / 2 ^ (k + 1) := by
    rw [show (1 : ℚ) - (1 - 1 / 2 ^ (k + 1)) = 1 / 2 ^ (k + 1) by ring]
    exact Binary64.roundsExactly.width_eq (show k < 53 by omega)
  have hlt1 : (1 : ℚ) - 1 / 2 ^ (k + 1) < 1 := by
    have : (0 : ℚ) < 1 / 2 ^ (k + 1) := by positivity
    linarith
  have hnw : ¬ (1 : ℚ) / 2 ^ (k + 1) < 1 / 2 ^ 60 := by
    rw [not_lt]
    apply one_div_le_one_div_of_le hpow1
    exact pow_le_pow_right₀ (by norm_num) (by omega)
  have hnv : ¬ |(-1 : ℚ)| < 1 / 2 ^ 60 := by norm_num
  have hprod : ¬ (-1 : ℚ) * -1 < 0 := by norm_num
  simp only [LevelSet.BisectBody, stepState, hmid, LevelSet.segmentPoint_unit, stepLevelSet,
    if_pos hlt1, hnv, hprod, hw, hnw, if_false]

/-- At `k = 53` the sum `left + right = 2 - 2^(-53)` is a tie and rounds to `2`:
the midpoint is `right` itself and the bracket stays as it is. -/
theorem stepState_body_stagnates (P : Point ℚ) :
    stepLevelSet.BisectBody Binary64.round ⟨0, 0, 0⟩ ⟨1, 0, 0⟩ (1 / 2 ^ 60) (stepState 53 P)
      = .ok (stepState 53 ⟨1, 0, 0⟩) := by
  have hmid : Binary64.round (Binary64.round (1 - 1 / 2 ^ 53 + 1) / 2) = 1 := by
    rw [show (1 : ℚ) - 1 / 2 ^ 53 + 1 = 2 - 1 / 2 ^ 53 by ring, Binary64.round_two_sub]
    norm_num [Binary64.round_one]
  have hw : Binary64.round (1 - (1 - 1 / 2 ^ 53)) = 1 / 2 ^ 53 := by
    rw [show (1 : ℚ) - (1 - 1 / 2 ^ 53) = 1 / 2 ^ (52 + 1) by ring]
    exact Binary64.roundsExactly.width_eq (show 52 < 53 by omega)
  have hnv : ¬ |(1 : ℚ)| < 1 / 2 ^ 60 := by norm_num
  have hprod : (1 : ℚ) * -1 < 0 := by norm_num
  have hnw : ¬ (1 : ℚ) / 2 ^ 53 < 1 / 2 ^ 60 := by norm_num
  have hlt1 : ¬ (1 : ℚ) < 1 := lt_irrefl _
  simp only [LevelSet.BisectBody, stepState, hmid, LevelSet.segmentPoint_unit, stepLevelSet,
    hlt1, hnv, hprod, hw, hnw, if_false, if_true]

theorem stepState_iterate :
    ∀ (m k : Nat) (P : Point ℚ), k + m ≤ 53 →
      ∃ P1, stepLevelSet.BisectIterate Binary64.round ⟨0, 0, 0⟩ ⟨1, 0, 0⟩ (1 / 2 ^ 60) m
        (stepState k P) = .ok (stepState (k + m) P1) := by
  intro m
  induction m with
  | zero => intro k P _; exact ⟨P, rfl⟩
  | succ m ih =>
    intro k P hk
    obtain ⟨P1, h⟩ := ih (k + 1) ⟨1 - 1 / 2 ^ (k + 1), 0, 0⟩ (by omega)
    refine ⟨P1, ?_⟩
    rw [stepLevelSet.BisectIterate_succ Binary64.round _ _ _ m _ _ rfl
      (stepState_body k (by omega) P), h, show k + 1 + m = k + (m + 1) by omega]

theorem stepState_loop_none (fuel : Nat) (P : Point ℚ) :
    stepLevelSet.BisectLoop Binary64.round ⟨0, 0, 0⟩ ⟨1, 0, 0⟩ (1 / 2 ^ 60) fuel (stepState 53 P)
      = none := by
  induction fuel generalizing P with
  | zero => exact stepLevelSet.BisectLoop_zero Binary64.round _ _ _ _ rfl
  | succ f ih =>
    rw [stepLevelSet.BisectLoop_succ Binary64.round _ _ _ f _ _ rfl (stepState_body_stagnates P)]
    exact ih _

/-! ## Bisect: the results -/

/-- C12, as stated, fails: the loop of `Bisect` has no iteration bound and no
non-convergence error.  On the circle of radius 5, from `(0,0,0)` (value `-25`)
to `(15,0,0)` (value `200`) with `tol = 0`, no iteration budget makes the call
finish, neither with a point nor with an error. -/
theorem LevelSet.Bisect_runs_forever_at_zero_tolerance :
    ¬ ∃ fuel r, (CircularLevelSet (0 : ℚ) 0 5 0).Bisect Binary64.round fuel ⟨0, 0, 0⟩ ⟨15, 0, 0⟩ 0
        = some r := by
  rintro ⟨fuel, r, h⟩
  rw [LevelSet.Bisect_none_of_tol_nonpos (CircularLevelSet (0 : ℚ) 0 5 0) (circleValue (0 : ℚ) 0 5)
    (fun _ => rfl) Binary64.round Binary64.isRounding ⟨0, 0, 0⟩ ⟨15, 0, 0⟩ 0 (le_refl _)
    (by norm_num [circleValue]) fuel] at h
  cases h

/-- C12 (amended: there is no iteration bound and no non-convergence error).
For every level set whose `GetValue` is the total field `phi` and every pair of
points whose values do not have the same strict sign, `Bisect` never raises an
error, whatever the iteration budget; and for `tol ≤ 0` the stopping criterion is
never met: the loop is still running after any number of iterations. -/
theorem LevelSet.Bisect_has_no_iteration_bound (L : LevelSet ℚ) (phi : Point ℚ → ℚ)
    (hphi : ∀ p, L.GetValue p = .ok (phi p)) (round : ℚ → ℚ) (hround : IsRounding round)
    (P1 P2 : Point ℚ) (tol : ℚ) (hsign : ¬ phi P1 * phi P2 > 0) :
    (∀ fuel e, L.Bisect round fuel P1 P2 tol ≠ some (.error e))
      ∧ (tol ≤ 0 → ∀ fuel, L.Bisect round fuel P1 P2 tol = none) := by
  refine ⟨?_, ?_⟩
  · intro fuel e
    simp only [LevelSet.Bisect, hphi, hsign, if_false]
    exact L.BisectLoop_ne_error phi hphi round P1 P2 tol fuel _ e
  · intro htol fuel
    exact L.Bisect_none_of_tol_nonpos phi hphi round hround P1 P2 tol htol hsign fuel

theorem LevelSet.Bisect_has_no_iteration_bound_witness :
    ¬ circleValue (0 : ℚ) 0 5 ⟨0, 0, 0⟩ * circleValue (0 : ℚ) 0 5 ⟨15, 0, 0⟩ > 0
      ∧ (∀ e, (CircularLevelSet (0 : ℚ) 0 5 0).Bisect Binary64.round 7 ⟨0, 0, 0⟩ ⟨15, 0, 0⟩ (-1)
          ≠ some (.error e))
      ∧ (CircularLevelSet (0 : ℚ) 0 5 0).Bisect Binary64.round 7 ⟨0, 0, 0⟩ ⟨15, 0, 0⟩ (-1) = none :=
  ⟨by norm_num [circleValue],
    fun e => (LevelSet.Bisect_has_no_iteration_bound (CircularLevelSet (0 : ℚ) 0 5 0)
      (circleValue (0 : ℚ) 0 5) (fun _ => rfl) Binary64.round Binary64.isRounding
      ⟨0, 0, 0⟩ ⟨15, 0, 0⟩ (-1) (by norm_num [circleValue])).1 7 e,
    (LevelSet.Bisect_has_no_iteration_bound (CircularLevelSet (0 : ℚ) 0 5 0)
      (circleValue (0 : ℚ) 0 5) (fun _ => rfl) Binary64.round Binary64.isRounding
      ⟨0, 0, 0⟩ ⟨15, 0, 0⟩ (-1) (by norm_num [circleValue])).2 (by norm_num) 7⟩

/-! ## Bisect: the invariant and the number of iterations -/

/-- C32, as stated, fails for a small tolerance.  On the step level set, whose
`GetValue` is total, between `(0,0,0)` (value `-1`) and `(1,0,0)` (value `1`),
with `tol = 2^(-60) > 0`: the bracket reaches `[1 - 2^(-53), 1]`, two
neighbouring doubles, and stays there; no number of iterations ends the loop. -/
theorem LevelSet.Bisect_never_returns_at_small_tolerance :
    (∀ P, ∃ v, stepLevelSet.GetValue P = .ok v)
      ∧ stepLevelSet.GetValue ⟨0, 0, 0⟩ = .ok (-1) ∧ stepLevelSet.GetValue ⟨1, 0, 0⟩ = .ok 1
      ∧ (-1 : ℚ) * 1 ≤ 0 ∧ (0 : ℚ) < 1 / 2 ^ 60
      ∧ ∀ fuel, stepLevelSet.Bisect Binary64.round fuel ⟨0, 0, 0⟩ ⟨1, 0, 0⟩ (1 / 2 ^ 60) = none := by
  have h0 : stepLevelSet.GetValue ⟨0, 0, 0⟩ = .ok (-1) := by norm_num [stepLevelSet]
  have h1 : stepLevelSet.GetValue ⟨1, 0, 0⟩ = .ok 1 := by norm_num [stepLevelSet]
  refine ⟨fun P => ⟨_, rfl⟩, h0, h1, by norm_num, by norm_num, ?_⟩
  intro fuel
  have hsign : ¬ (-1 : ℚ) * 1 > 0 := by norm_num
  simp only [LevelSet.Bisect, h0, h1, hsign, if_false]
  obtain ⟨P, h⟩ := stepState_iterate 53 0 ⟨0, 0, 0⟩ (by norm_num)
  rw [stepState_zero]
  exact stepLevelSet.BisectLoop_none_of_iterate Binary64.round _ _ _ 53 _ _ h
    (fun f => stepState_loop_none f P) fuel

/-- C32 (amended: the bound holds while the bracket is exact).  For every level
set whose `GetValue` is total (the field `phi`), every pair of points with
`GetValue(P1)*GetValue(P2) ≤ 0` and every tolerance with `2^(-n) < tol` for some
`n` within the precision `p` of the rounding (`53` for binary64, so for every
`tol > 2^(-53)`): there is a least such `n`, the loop of `Bisect` has finished
after at most `max(1, n)` iterations and a point is returned; an iteration on an
exact bracket that does not converge halves the bracket width. -/
theorem LevelSet.Bisect_iteration_bound (L : LevelSet ℚ) (phi : Point ℚ → ℚ)
    (hphi : ∀ p, L.GetValue p = .ok (phi p)) (round : ℚ → ℚ) (p : Nat)
    (hexact : RoundsExactly round p) (hp : 1 ≤ p) (P1 P2 : Point ℚ) (tol : ℚ)
    (hsign : phi P1 * phi P2 ≤ 0) :
    ((1 : ℚ) / 2 ^ p < tol →
        ∃ n : Nat, n ≤ p ∧ (1 : ℚ) / 2 ^ n < tol ∧ ∀ m : Nat, m < n → ¬ (1 : ℚ) / 2 ^ m < tol)
      ∧ (∀ n : Nat, n ≤ p → (1 : ℚ) / 2 ^ n < tol →
          ∃ R, L.Bisect round (max 1 n) P1 P2 tol = some (.ok R)
            ∧ ∀ fuel, max 1 n ≤ fuel → L.Bisect round fuel P1 P2 tol = some (.ok R))
      ∧ (∀ n s s1, n < p → ExactLevel n s → s.converged = false →
          L.BisectBody round P1 P2 tol s = .ok s1 → s1.converged = false →
          s1.right - s1.left = (s.right - s.left) / 2) := by
  refine ⟨?_, ?_, ?_⟩
  · intro hpt
    classical
    have hex : ∃ n : Nat, (1 : ℚ) / 2 ^ n < tol := ⟨p, hpt⟩
    exact ⟨Nat.find hex, Nat.find_min' hex hpt, Nat.find_spec hex,
      fun m hm => Nat.find_min hex hm⟩
  · intro n hn hw
    obtain ⟨R, hR⟩ := L.Bisect_returns_within phi hphi round p hexact hp P1 P2 tol
      (not_lt.mpr hsign) n hn hw
    exact ⟨R, hR _ (le_refl _), hR⟩
  · intro n s s1 hn hlev hc e hc1
    rcases ExactLevel_step L phi hphi round p hexact P1 P2 tol n hn s s1 hc hlev e
      with h | ⟨_, hlev1, _⟩
    · rw [h] at hc1; cases hc1
    · rw [hlev1.width, hlev.width, pow_succ]
      field_simp

theorem LevelSet.Bisect_iteration_bound_witness :
    circleValue (0 : ℚ) 0 5 ⟨0, 0, 0⟩ * circleValue (0 : ℚ) 0 5 ⟨15, 0, 0⟩ ≤ 0
      ∧ (1 : ℚ) / 2 ^ 4 < 1 / 10
      ∧ ∃ R, (CircularLevelSet (0 : ℚ) 0 5 0).Bisect Binary64.round (max 1 4) ⟨0, 0, 0⟩ ⟨15, 0, 0⟩
            (1 / 10) = some (.ok R)
          ∧ ∀ fuel, max 1 4 ≤ fuel →
              (CircularLevelSet (0 : ℚ) 0 5 0).Bisect Binary64.round fuel ⟨0, 0, 0⟩ ⟨15, 0, 0⟩
                (1 / 10) = some (.ok R) :=
  ⟨by norm_num [circleValue], by norm_num,
    (LevelSet.Bisect_iteration_bound (CircularLevelSet (0 : ℚ) 0 5 0) (circleValue (0 : ℚ) 0 5)
      (fun _ => rfl) Binary64.round 53 Binary64.roundsExactly (by norm_num)
      ⟨0, 0, 0⟩ ⟨15, 0, 0⟩ (1 / 10) (by norm_num [circleValue])).2.1 4 (by norm_num)
      (by norm_num)⟩

/-! ## `CutStatus(r_geom, configuration)`: the result -/

/-- C10 (the code departs from the claim).  With `configuration = 2` neither
branch of `LevelSet::CutStatus(r_geom, configuration)` is taken: the body ends
without a `return` and without throwing, so no invalid-argument failure is
raised. -/
theorem LevelSet.CutStatusGeom_configuration_two :
    (CircularLevelSet (0 : ℚ) 0 5 0).CutStatusGeom
        [⟨⟨0, 0, 0⟩, ⟨0, 0, 0⟩⟩, ⟨⟨10, 0, 0⟩, ⟨10, 0, 0⟩⟩] 2 = .noReturn := by
  simp [LevelSet.CutStatusGeom]

/-! ## `CutStatus(r_geom, configuration)`: configurations 0 and 1 -/

theorem Outcome.ofExcept_returned_iff {α : Type} (r : Except Error α) (a : α) :
    Outcome.ofExcept r = .returned a ↔ r = .ok a := by
  cases r <;> simp [Outcome.ofExcept]

theorem Outcome.ofExcept_thrown_iff {α : Type} (r : Except Error α) (e : Error) :
    Outcome.ofExcept r = .thrown e ↔ r = .error e := by
  cases r <;> simp [Outcome.ofExcept]

/-- C11.  For every level set and every geometry, `CutStatus(r_geom, 0)` is the
tolerance-banded classification `CutStatus(points)` (the level set's own
tolerance) of the list of the nodes' initial positions, in node order, and
`CutStatus(r_geom, 1)` is that of the list of the nodes' current positions: the
same status is returned and the same exception is thrown. -/
theorem LevelSet.CutStatusGeom_configurations (L : LevelSet ℚ) (r_geom : GeometryType ℚ) :
    L.CutStatusGeom r_geom 0
        = Outcome.ofExcept (L.CutStatus (r_geom.map Node.GetInitialPosition))
      ∧ L.CutStatusGeom r_geom 1 = Outcome.ofExcept (L.CutStatus (r_geom.map Node.toPoint))
      ∧ (∀ stat, (L.CutStatusGeom r_geom 0 = .returned stat
              ↔ L.CutStatusOfPoints (r_geom.map Node.GetInitialPosition) L.GetTolerance
                  = .ok stat)
            ∧ (L.CutStatusGeom r_geom 1 = .returned stat
              ↔ L.CutStatusOfPoints (r_geom.map Node.toPoint) L.GetTolerance = .ok stat))
      ∧ (∀ e, (L.CutStatusGeom r_geom 0 = .thrown e
              ↔ L.CutStatusOfPoints (r_geom.map Node.GetInitialPosition) L.GetTolerance
                  = .error e)
            ∧ (L.CutStatusGeom r_geom 1 = .thrown e
              ↔ L.CutStatusOfPoints (r_geom.map Node.toPoint) L.GetTolerance = .error e))
      ∧ (∀ i : Nat,
          (r_geom.map Node.GetInitialPosition)[i]? = (r_geom[i]?).map Node.InitialPosition
            ∧ (r_geom.map Node.toPoint)[i]? = (r_geom[i]?).map Node.toPoint) := by
  have h0 : L.CutStatusGeom r_geom 0
      = Outcome.ofExcept (L.CutStatus (r_geom.map Node.GetInitialPosition)) := by
    simp [LevelSet.CutStatusGeom, LevelSet.CutStatus]
  have h1 : L.CutStatusGeom r_geom 1
      = Outcome.ofExcept (L.CutStatus (r_geom.map Node.toPoint)) := by
    simp [LevelSet.CutStatusGeom, LevelSet.CutStatus]
  refine ⟨h0, h1, ?_, ?_, ?_⟩
  · intro stat
    rw [h0, h1, Outcome.ofExcept_returned_iff, Outcome.ofExcept_returned_iff]
    exact ⟨Iff.rfl, Iff.rfl⟩
  · intro e
    rw [h0, h1, Outcome.ofExcept_thrown_iff, Outcome.ofExcept_thrown_iff]
    exact ⟨Iff.rfl, Iff.rfl⟩
  · intro i
    constructor
    · rw [List.getElem?_map]
      rfl
    · rw [List.getElem?_map]

/-! ## `IsInside` and `IsOnBoundary` -/

/-- C13.  For every level set, point `P` and tolerance `tol`: `IsInside(P)` is
true if and only if `GetValue(P)` is a value below `0` and false if and only if
it is a value not below `0`; `IsOnBoundary(P, tol)` is true if and only if
`|GetValue(P)| < tol` and false if and only if it is not; a point with value
exactly `0` is not inside. -/
theorem LevelSet.IsInside_IsOnBoundary_iff (L : LevelSet ℚ) (P : Point ℚ) (tol : ℚ) :
    (L.IsInside P = .ok true ↔ ∃ v, L.GetValue P = .ok v ∧ v < 0)
      ∧ (L.IsInside P = .ok false ↔ ∃ v, L.GetValue P = .ok v ∧ ¬ v < 0)
      ∧ (L.IsOnBoundary P tol = .ok true ↔ ∃ v, L.GetValue P = .ok v ∧ |v| < tol)
      ∧ (L.IsOnBoundary P tol = .ok false ↔ ∃ v, L.GetValue P = .ok v ∧ ¬ |v| < tol)
      ∧ (L.GetValue P = .ok 0 → L.IsInside P = .ok false) := by
  unfold LevelSet.IsInside LevelSet.IsOnBoundary
  cases h : L.GetValue P with
  | error e => simp
  | ok v =>
    refine ⟨by simp, by simp, by simp, by simp, ?_⟩
    intro h0
    simp only [Except.ok.injEq] at h0
    subst h0
    simp

/-- The strict comparison of `IsOnBoundary` at a point of value `0`: the answer
is `true` exactly for a positive tolerance. -/
theorem LevelSet.IsOnBoundary_of_value_zero (L : LevelSet ℚ) (P : Point ℚ) (tol : ℚ)
    (h : L.GetValue P = .ok 0) : L.IsOnBoundary P tol = .ok (decide (0 < tol)) := by
  simp [LevelSet.IsOnBoundary, h]

/-- C14, as stated, fails at `tol = 0`: on the circle of radius 5 the point
`(5,0,0)` has value exactly `0` and `IsOnBoundary((5,0,0), 0)` is false, because
the comparison `|0| < 0` is strict. -/
theorem LevelSet.IsOnBoundary_false_at_zero_tolerance :
    (CircularLevelSet (0 : ℚ) 0 5 0).GetValue ⟨5, 0, 0⟩ = .ok 0 ∧ (0 : ℚ) ≥ 0
      ∧ (CircularLevelSet (0 : ℚ) 0 5 0).IsOnBoundary ⟨5, 0, 0⟩ 0 = .ok false := by
  have h : (CircularLevelSet (0 : ℚ) 0 5 0).GetValue ⟨5, 0, 0⟩ = .ok 0 := by
    norm_num [CircularLevelSet]
  exact ⟨h, le_refl _, by
    rw [LevelSet.IsOnBoundary_of_value_zero _ _ _ h]
    simp⟩

/-- C14 (amended: positive tolerance).  For every shape (circular, spherical,
inverse of any level set, and any other level set), every point `P` whose
`GetValue` is exactly `0` and every tolerance `tol > 0`, `IsOnBoundary(P, tol)`
is true. -/
theorem LevelSet.IsOnBoundary_true_of_value_zero (P : Point ℚ) (tol : ℚ) (htol : 0 < tol) :
    (∀ cX cY R TOL, (CircularLevelSet cX cY R TOL).GetValue P = .ok 0 →
        (CircularLevelSet cX cY R TOL).IsOnBoundary P tol = .ok true)
      ∧ (∀ cX cY cZ R TOL, (SphericalLevelSet cX cY cZ R TOL).GetValue P = .ok 0 →
        (SphericalLevelSet cX cY cZ R TOL).IsOnBoundary P tol = .ok true)
      ∧ (∀ (inner : LevelSet ℚ) TOL, (InverseLevelSet inner TOL).GetValue P = .ok 0 →
        (InverseLevelSet inner TOL).IsOnBoundary P tol = .ok true)
      ∧ (∀ L : (LevelSet ℚ), L.GetValue P = .ok 0 → L.IsOnBoundary P tol = .ok true) := by
  have hgen : ∀ L : (LevelSet ℚ), L.GetValue P = .ok 0 → L.IsOnBoundary P tol = .ok true := by
    intro L h
    rw [LevelSet.IsOnBoundary_of_value_zero L P tol h]
    simp [htol]
  exact ⟨fun _ _ _ _ => hgen _, fun _ _ _ _ _ => hgen _, fun _ _ => hgen _, hgen⟩

theorem LevelSet.IsOnBoundary_true_of_value_zero_witness :
    (0 : ℚ) < 1 / 1000
      ∧ (CircularLevelSet (0 : ℚ) 0 5 0).IsOnBoundary ⟨3, 4, 7⟩ (1 / 1000) = .ok true
      ∧ (SphericalLevelSet (0 : ℚ) 0 0 3 0).IsOnBoundary ⟨1, 2, 2⟩ (1 / 1000) = .ok true
      ∧ (InverseLevelSet (CircularLevelSet (0 : ℚ) 0 5 0) 0).IsOnBoundary ⟨3, 4, 7⟩ (1 / 1000)
          = .ok true :=
  ⟨by norm_num,
    (LevelSet.IsOnBoundary_true_of_value_zero ⟨3, 4, 7⟩ (1 / 1000) (by norm_num)).1 0 0 5 0
      (by norm_num [CircularLevelSet]),
    (LevelSet.IsOnBoundary_true_of_value_zero ⟨1, 2, 2⟩ (1 / 1000) (by norm_num)).2.1 0 0 0 3 0
      (by norm_num [SphericalLevelSet]),
    (LevelSet.IsOnBoundary_true_of_value_zero ⟨3, 4, 7⟩ (1 / 1000) (by norm_num)).2.2.1
      (CircularLevelSet (0 : ℚ) 0 5 0) 0 (by norm_num [InverseLevelSet, CircularLevelSet])⟩

/-! ## The values of the analytic shapes -/

/-- C15.  For every centre, radius and point `(x,y,z)`:
`CircularLevelSet(cX,cY,R).GetValue` is `(x-cX)^2 + (y-cY)^2 - R^2`, whatever `z`
is, and `SphericalLevelSet(cX,cY,cZ,R).GetValue` is
`(x-cX)^2 + (y-cY)^2 + (z-cZ)^2 - R^2`.  The circle of centre `(0,0)` and radius
5 has value `0` at `(5,0,0)`; the sphere of centre `(0,0,0)` and radius 2 has
value `-4` at `(0,0,0)`. -/
theorem GetValue_circular_spherical (cX cY cZ R TOL x y z : ℚ) :
    (CircularLevelSet cX cY R TOL).GetValue ⟨x, y, z⟩
        = .ok ((x - cX) ^ 2 + (y - cY) ^ 2 - R ^ 2)
      ∧ (∀ z1 : ℚ, (CircularLevelSet cX cY R TOL).GetValue ⟨x, y, z1⟩
          = (CircularLevelSet cX cY R TOL).GetValue ⟨x, y, z⟩)
      ∧ (SphericalLevelSet cX cY cZ R TOL).GetValue ⟨x, y, z⟩
        = .ok ((x - cX) ^ 2 + (y - cY) ^ 2 + (z - cZ) ^ 2 - R ^ 2)
      ∧ (CircularLevelSet (0 : ℚ) 0 5 TOL).GetValue ⟨5, 0, 0⟩ = .ok 0
      ∧ (SphericalLevelSet (0 : ℚ) 0 0 2 TOL).GetValue ⟨0, 0, 0⟩ = .ok (-4) := by
  refine ⟨rfl, fun _ => rfl, rfl, ?_, ?_⟩
  · norm_num [CircularLevelSet]
  · norm_num [SphericalLevelSet]

/-! ## The projections of the analytic shapes -/

theorem sq_add_sq_eq_zero_iff (a b : K) : a ^ 2 + b ^ 2 = 0 ↔ a = 0 ∧ b = 0 := by
  constructor
  · intro h
    have ha := sq_nonneg a
    have hb := sq_nonneg b
    exact ⟨pow_eq_zero_iff (two_ne_zero) |>.mp (by linarith),
      pow_eq_zero_iff (two_ne_zero) |>.mp (by linarith)⟩
  · rintro ⟨rfl, rfl⟩
    norm_num

theorem sq_add_sq_add_sq_eq_zero_iff (a b c : K) :
    a ^ 2 + b ^ 2 + c ^ 2 = 0 ↔ a = 0 ∧ b = 0 ∧ c = 0 := by
  constructor
  · intro h
    have ha := sq_nonneg a
    have hb := sq_nonneg b
    have hc := sq_nonneg c
    exact ⟨pow_eq_zero_iff (two_ne_zero) |>.mp (by linarith),
      pow_eq_zero_iff (two_ne_zero) |>.mp (by linarith),
      pow_eq_zero_iff (two_ne_zero) |>.mp (by linarith)⟩
  · rintro ⟨rfl, rfl, rfl⟩
    norm_num

/-- An exact square root vanishes only at `0`. -/
theorem ExactSqrtAt.eq_zero_iff {sqrt : K → K} {s : K} (h : ExactSqrtAt sqrt s) :
    sqrt s = 0 ↔ s = 0 := by
  constructor
  · intro h0
    rw [← h.2, h0, mul_zero]
  · intro h0
    have h2 := h.2
    rw [h0] at h2 ⊢
    exact mul_self_eq_zero.mp h2

theorem ExactSqrtAt.pos {sqrt : K → K} {s : K} (h : ExactSqrtAt sqrt s) (hs : s ≠ 0) :
    0 < sqrt s :=
  lt_of_le_of_ne h.1 (fun h0 => hs (h.eq_zero_iff.mp h0.symm))

theorem ExactSqrtAt.sqrt_keeps_zero {sqrt : K → K} {s : K} (h : ExactSqrtAt sqrt s) :
    SqrtKeepsZeroAt sqrt s := h.eq_zero_iff

theorem ExactSquareAt.square_keeps_zero {pow : K → Nat → K} {d : K} (h : ExactSquareAt pow d) :
    SquareKeepsZeroAt pow d := by
  unfold SquareKeepsZeroAt
  rw [h]
  exact ⟨sq_nonneg d, pow_eq_zero_iff two_ne_zero⟩

theorem exactSquareAt_exactPow (d : K) : ExactSquareAt exactPow d := rfl

/-- The rational square root `Rat.sqrt` is exact at the square of a
non-negative rational. -/
theorem exactSqrtAt_ratSqrt (q s : ℚ) (hq : 0 ≤ q) (hs : s = q * q) :
    Rat.sqrt s = q ∧ ExactSqrtAt Rat.sqrt s := by
  have h : Rat.sqrt s = q := by rw [hs, Rat.sqrt_eq, abs_of_nonneg hq]
  exact ⟨h, by rw [ExactSqrtAt, h]; exact ⟨hq, hs.symm⟩⟩

/-- The real square root is exact at every non-negative real. -/
theorem exactSqrtAt_realSqrt (s : ℝ) (hs : 0 ≤ s) : ExactSqrtAt Real.sqrt s :=
  ⟨Real.sqrt_nonneg s, Real.mul_self_sqrt hs⟩

omit [LinearOrderedField K] in
theorem Point.eq_iff (P : Point K) (a b c : K) : P = ⟨a, b, c⟩ ↔ P.x = a ∧ P.y = b ∧ P.z = c := by
  cases P
  simp

/-- The square of a natural number that fits in 53 bits is computed exactly. -/
theorem Binary64.pow_natCast (m : Nat) (hm : m ^ 2 ≤ 2 ^ 53) :
    Binary64.pow (m : ℚ) 2 = (m : ℚ) ^ 2 := by
  have h := Binary64.round_of_representable (m ^ 2) 0 hm (by norm_num)
  simp only [zpow_zero, mul_one] at h
  unfold Binary64.pow
  exact_mod_cast h

theorem Binary64.pow_zero_two : Binary64.pow 0 2 = 0 := by
  have := Binary64.pow_natCast 0 (by norm_num)
  simpa using this

/-- The square of `2^(-600)` is `2^(-1200)`, below half the least positive
binary64 number: it underflows to `0`. -/
theorem Binary64.pow_underflow : Binary64.pow (1 / 2 ^ 600) 2 = 0 := by
  unfold Binary64.pow
  apply Binary64.round_eq_zero_of_le
  · positivity
  · rw [div_pow, one_pow, ← pow_mul]
    apply one_div_le_one_div_of_le (by positivity)
    exact pow_le_pow_right₀ (by norm_num) (by norm_num)

theorem CircularLevelSet.circle_ProjectOnSurface_eq_error_iff (pow : K → Nat → K) (sqrt : K → K)
    (cX cY R : K) (P : Point K) :
    CircularLevelSet.ProjectOnSurface pow sqrt cX cY R P = .error .invalidArgument
      ↔ sqrt (pow (P.x - cX) 2 + pow (P.y - cY) 2) = 0 := by
  simp only [CircularLevelSet.ProjectOnSurface]
  split_ifs with h0 <;> simp [h0]

theorem SphericalLevelSet.sphere_ProjectOnSurface_eq_error_iff (pow : K → Nat → K) (sqrt : K → K)
    (cX cY cZ R : K) (P : Point K) :
    SphericalLevelSet.ProjectOnSurface pow sqrt cX cY cZ R P = .error .invalidArgument
      ↔ sqrt (pow (P.x - cX) 2 + pow (P.y - cY) 2 + pow (P.z - cZ) 2) = 0 := by
  simp only [SphericalLevelSet.ProjectOnSurface]
  split_ifs with h0 <;> simp [h0]

theorem CircularLevelSet.circle_ProjectOnSurface_of_ne_zero (pow : K → Nat → K) (sqrt : K → K)
    (cX cY R : K) (P : Point K) (h : sqrt (pow (P.x - cX) 2 + pow (P.y - cY) 2) ≠ 0) :
    CircularLevelSet.ProjectOnSurface pow sqrt cX cY R P
      = .ok ⟨(P.x - cX) * R / sqrt (pow (P.x - cX) 2 + pow (P.y - cY) 2) + cX,
          (P.y - cY) * R / sqrt (pow (P.x - cX) 2 + pow (P.y - cY) 2) + cY, 0⟩ := by
  simp only [CircularLevelSet.ProjectOnSurface, h, if_false]

theorem SphericalLevelSet.sphere_ProjectOnSurface_of_ne_zero (pow : K → Nat → K) (sqrt : K → K)
    (cX cY cZ R : K) (P : Point K)
    (h : sqrt (pow (P.x - cX) 2 + pow (P.y - cY) 2 + pow (P.z - cZ) 2) ≠ 0) :
    SphericalLevelSet.ProjectOnSurface pow sqrt cX cY cZ R P
      = .ok ⟨(P.x - cX) * R / sqrt (pow (P.x - cX) 2 + pow (P.y - cY) 2 + pow (P.z - cZ) 2) + cX,
          (P.y - cY) * R / sqrt (pow (P.x - cX) 2 + pow (P.y - cY) 2 + pow (P.z - cZ) 2) + cY,
          (P.z - cZ) * R / sqrt (pow (P.x - cX) 2 + pow (P.y - cY) 2 + pow (P.z - cZ) 2) + cZ⟩ := by
  simp only [SphericalLevelSet.ProjectOnSurface, h, if_false]

/-- Where the squares and the square root keep zero, the computed length of the
circle is `0` exactly at the centre. -/
theorem circle_length_eq_zero_iff (pow : K → Nat → K) (sqrt : K → K) (a b : K)
    (ha : SquareKeepsZeroAt pow a) (hb : SquareKeepsZeroAt pow b)
    (hs : SqrtKeepsZeroAt sqrt (pow a 2 + pow b 2)) :
    sqrt (pow a 2 + pow b 2) = 0 ↔ a = 0 ∧ b = 0 := by
  unfold SqrtKeepsZeroAt at hs
  rw [hs]
  constructor
  · intro h
    exact ⟨ha.2.mp (by linarith [ha.1, hb.1]), hb.2.mp (by linarith [ha.1, hb.1])⟩
  · rintro ⟨h1, h2⟩
    rw [ha.2.mpr h1, hb.2.mpr h2, add_zero]

theorem sphere_length_eq_zero_iff (pow : K → Nat → K) (sqrt : K → K) (a b c : K)
    (ha : SquareKeepsZeroAt pow a) (hb : SquareKeepsZeroAt pow b) (hc : SquareKeepsZeroAt pow c)
    (hs : SqrtKeepsZeroAt sqrt (pow a 2 + pow b 2 + pow c 2)) :
    sqrt (pow a 2 + pow b 2 + pow c 2) = 0 ↔ a = 0 ∧ b = 0 ∧ c = 0 := by
  unfold SqrtKeepsZeroAt at hs
  rw [hs]
  constructor
  · intro h
    exact ⟨ha.2.mp (by linarith [ha.1, hb.1, hc.1]), hb.2.mp (by linarith [ha.1, hb.1, hc.1]),
      hc.2.mp (by linarith [ha.1, hb.1, hc.1])⟩
  · rintro ⟨h1, h2, h3⟩
    rw [ha.2.mpr h1, hb.2.mpr h2, hc.2.mpr h3, add_zero, add_zero]

/-- The radial projection on the circle where the squares and the square root
are exact. -/
theorem CircularLevelSet.circle_ProjectOnSurface_of_exact (pow : K → Nat → K) (sqrt : K → K)
    (cX cY R : K) (P : Point K)
    (hx : ExactSquareAt pow (P.x - cX)) (hy : ExactSquareAt pow (P.y - cY))
    (hs : ExactSqrtAt sqrt ((P.x - cX) ^ 2 + (P.y - cY) ^ 2)) (hne : ¬ (P.x = cX ∧ P.y = cY)) :
    0 < sqrt ((P.x - cX) ^ 2 + (P.y - cY) ^ 2)
      ∧ CircularLevelSet.ProjectOnSurface pow sqrt cX cY R P
        = .ok ⟨cX + R * (P.x - cX) / sqrt ((P.x - cX) ^ 2 + (P.y - cY) ^ 2),
            cY + R * (P.y - cY) / sqrt ((P.x - cX) ^ 2 + (P.y - cY) ^ 2), 0⟩ := by
  have hs0 : (P.x - cX) ^ 2 + (P.y - cY) ^ 2 ≠ 0 := by
    intro h0
    rw [sq_add_sq_eq_zero_iff] at h0
    exact hne ⟨sub_eq_zero.mp h0.1, sub_eq_zero.mp h0.2⟩
  have hpos := hs.pos hs0
  refine ⟨hpos, ?_⟩
  unfold ExactSquareAt at hx hy
  simp only [CircularLevelSet.ProjectOnSurface, hx, hy, hpos.ne', if_false]
  congr 2 <;> ring

/-- The radial projection on the sphere where the squares and the square root
are exact. -/
theorem SphericalLevelSet.sphere_ProjectOnSurface_of_exact (pow : K → Nat → K) (sqrt : K → K)
    (cX cY cZ R : K) (P : Point K)
    (hx : ExactSquareAt pow (P.x - cX)) (hy : ExactSquareAt pow (P.y - cY))
    (hz : ExactSquareAt pow (P.z - cZ))
    (hs : ExactSqrtAt sqrt ((P.x - cX) ^ 2 + (P.y - cY) ^ 2 + (P.z - cZ) ^ 2))
    (hne : P ≠ ⟨cX, cY, cZ⟩) :
    0 < sqrt ((P.x - cX) ^ 2 + (P.y - cY) ^ 2 + (P.z - cZ) ^ 2)
      ∧ SphericalLevelSet.ProjectOnSurface pow sqrt cX cY cZ R P
        = .ok ⟨cX + R * (P.x - cX) / sqrt ((P.x - cX) ^ 2 + (P.y - cY) ^ 2 + (P.z - cZ) ^ 2),
            cY + R * (P.y - cY) / sqrt ((P.x - cX) ^ 2 + (P.y - cY) ^ 2 + (P.z - cZ) ^ 2),
            cZ + R * (P.z - cZ) / sqrt ((P.x - cX) ^ 2 + (P.y - cY) ^ 2 + (P.z - cZ) ^ 2)⟩ := by
  have hs0 : (P.x - cX) ^ 2 + (P.y - cY) ^ 2 + (P.z - cZ) ^ 2 ≠ 0 := by
    intro h0
    rw [sq_add_sq_add_sq_eq_zero_iff] at h0
    exact hne ((Point.eq_iff P cX cY cZ).mpr
      ⟨sub_eq_zero.mp h0.1, sub_eq_zero.mp h0.2.1, sub_eq_zero.mp h0.2.2⟩)
  have hpos := hs.pos hs0
  refine ⟨hpos, ?_⟩
  unfold ExactSquareAt at hx hy hz
  simp only [SphericalLevelSet.ProjectOnSurface, hx, hy, hz, hpos.ne', if_false]
  congr 2 <;> ring

/-- C16, as stated, fails at points so close to the centre that the squares
underflow.  For the sphere of centre `(0,0,0)` and radius 2, the point
`(0, 2^(-600), 0)` is not the centre; the square of `2^(-600)` underflows to `0`
in binary64, the computed length is `sqrt(0) = 0`, and `ProjectOnSurface` throws
instead of returning the radial projection `(0, 2, 0)`. -/
theorem SphericalLevelSet.ProjectOnSurface_fails_off_centre_of_sphere :
    (⟨0, 1 / 2 ^ 600, 0⟩ : Point ℚ) ≠ ⟨0, 0, 0⟩
      ∧ ∀ sqrt : ℚ → ℚ, sqrt 0 = 0 →
          SphericalLevelSet.ProjectOnSurface Binary64.pow sqrt 0 0 0 2 ⟨0, 1 / 2 ^ 600, 0⟩
            = .error .invalidArgument := by
  refine ⟨by simp [Point.eq_iff], ?_⟩
  intro sqrt h0
  simp only [SphericalLevelSet.ProjectOnSurface, sub_zero, Binary64.pow_underflow,
    Binary64.pow_zero_two, add_zero, h0, if_true]

/-- C16 (amended: in exact arithmetic).  For every point `P` that is not at the
centre and at which the squares and `sqrt` are computed exactly,
`ProjectOnSurface(P)` returns `center + R*(P - center)/L` with
`L = |P - center|` (the positive number whose square is the squared distance):
for `CircularLevelSet` the distance is taken over `x` and `y` and the third
coordinate of the result is `0`; for `SphericalLevelSet` it is the distance in
all three coordinates.  Over the reals, with the real square root, this is so at
every point that is not at the centre.  The circle of centre `(0,0)` and radius
5 projects `(10,0,0)` to `(5,0,0)`. -/
theorem ProjectOnSurface_radial (pow : K → Nat → K) (sqrt : K → K) (cX cY cZ R : K)
    (P : Point K) :
    (ExactSquareAt pow (P.x - cX) → ExactSquareAt pow (P.y - cY) →
        ExactSqrtAt sqrt ((P.x - cX) ^ 2 + (P.y - cY) ^ 2) → ¬ (P.x = cX ∧ P.y = cY) →
        ∃ L, 0 < L ∧ L * L = (P.x - cX) ^ 2 + (P.y - cY) ^ 2
          ∧ CircularLevelSet.ProjectOnSurface pow sqrt cX cY R P
              = .ok ⟨cX + R * (P.x - cX) / L, cY + R * (P.y - cY) / L, 0⟩)
      ∧ (ExactSquareAt pow (P.x - cX) → ExactSquareAt pow (P.y - cY) →
          ExactSquareAt pow (P.z - cZ) →
          ExactSqrtAt sqrt ((P.x - cX) ^ 2 + (P.y - cY) ^ 2 + (P.z - cZ) ^ 2) →
          P ≠ ⟨cX, cY, cZ⟩ →
          ∃ L, 0 < L ∧ L * L = (P.x - cX) ^ 2 + (P.y - cY) ^ 2 + (P.z - cZ) ^ 2
            ∧ SphericalLevelSet.ProjectOnSurface pow sqrt cX cY cZ R P
                = .ok ⟨cX + R * (P.x - cX) / L, cY + R * (P.y - cY) / L,
                    cZ + R * (P.z - cZ) / L⟩)
      ∧ (∀ (c1 c2 c3 r : ℝ) (Q : Point ℝ),
          (¬ (Q.x = c1 ∧ Q.y = c2) →
              ∃ L, 0 < L ∧ L * L = (Q.x - c1) ^ 2 + (Q.y - c2) ^ 2
                ∧ CircularLevelSet.ProjectOnSurface exactPow Real.sqrt c1 c2 r Q
                    = .ok ⟨c1 + r * (Q.x - c1) / L, c2 + r * (Q.y - c2) / L, 0⟩)
            ∧ (Q ≠ ⟨c1, c2, c3⟩ →
                ∃ L, 0 < L ∧ L * L = (Q.x - c1) ^ 2 + (Q.y - c2) ^ 2 + (Q.z - c3) ^ 2
                  ∧ SphericalLevelSet.ProjectOnSurface exactPow Real.sqrt c1 c2 c3 r Q
                      = .ok ⟨c1 + r * (Q.x - c1) / L, c2 + r * (Q.y - c2) / L,
                          c3 + r * (Q.z - c3) / L⟩))
      ∧ CircularLevelSet.ProjectOnSurface Binary64.pow Rat.sqrt 0 0 5 ⟨10, 0, 0⟩
          = .ok ⟨5, 0, 0⟩ := by
  refine ⟨?_, ?_, ?_, ?_⟩
  · intro hx hy hs hne
    obtain ⟨hpos, h⟩ := CircularLevelSet.circle_ProjectOnSurface_of_exact pow sqrt cX cY R P hx hy hs hne
    exact ⟨_, hpos, hs.2, h⟩
  · intro hx hy hz hs hne
    obtain ⟨hpos, h⟩ :=
      SphericalLevelSet.sphere_ProjectOnSurface_of_exact pow sqrt cX cY cZ R P hx hy hz hs hne
    exact ⟨_, hpos, hs.2, h⟩
  · intro c1 c2 c3 r Q
    constructor
    · intro hne
      have hs := exactSqrtAt_realSqrt ((Q.x - c1) ^ 2 + (Q.y - c2) ^ 2) (by positivity)
      obtain ⟨hpos, h⟩ := CircularLevelSet.circle_ProjectOnSurface_of_exact exactPow Real.sqrt c1 c2 r Q
        (exactSquareAt_exactPow _) (exactSquareAt_exactPow _) hs hne
      exact ⟨_, hpos, hs.2, h⟩
    · intro hne
      have hs := exactSqrtAt_realSqrt ((Q.x - c1) ^ 2 + (Q.y - c2) ^ 2 + (Q.z - c3) ^ 2)
        (by positivity)
      obtain ⟨hpos, h⟩ := SphericalLevelSet.sphere_ProjectOnSurface_of_exact exactPow Real.sqrt c1 c2 c3
        r Q (exactSquareAt_exactPow _) (exactSquareAt_exactPow _) (exactSquareAt_exactPow _) hs hne
      exact ⟨_, hpos, hs.2, h⟩
  · have hp := Binary64.pow_natCast 10 (by norm_num)
    have h := (exactSqrtAt_ratSqrt 10 ((10 : ℚ) ^ 2 + 0) (by norm_num) (by norm_num)).1
    simp only [Nat.cast_ofNat] at hp
    simp only [CircularLevelSet.ProjectOnSurface, sub_zero, hp, Binary64.pow_zero_two, h]
    norm_num

theorem ProjectOnSurface_radial_witness :
    ∃ L : ℝ, 0 < L ∧ L * L = ((1 : ℝ) - 0) ^ 2 + ((1 : ℝ) - 0) ^ 2
      ∧ CircularLevelSet.ProjectOnSurface exactPow Real.sqrt 0 0 5 ⟨1, 1, 0⟩
          = .ok ⟨0 + 5 * (1 - 0) / L, 0 + 5 * (1 - 0) / L, 0⟩ :=
  (ProjectOnSurface_radial exactPow Real.sqrt 0 0 0 5 ⟨1, 1, 0⟩).1
    (exactSquareAt_exactPow _) (exactSquareAt_exactPow _)
    (exactSqrtAt_realSqrt _ (by norm_num)) (by norm_num)

/-- C17, as stated, fails at points so close to the centre that the squares
underflow.  For the circle of centre `(0,0)` and radius 5, the point
`(2^(-600), 0, 0)` has `(x,y) ≠ (0,0)`; the square of `2^(-600)` underflows to
`0` in binary64, the computed length is `sqrt(0) = 0`, and `ProjectOnSurface`
throws the invalid-argument error although `|P - center| ≠ 0`. -/
theorem CircularLevelSet.ProjectOnSurface_fails_off_centre_of_circle :
    ¬ ((1 : ℚ) / 2 ^ 600 = 0 ∧ (0 : ℚ) = 0)
      ∧ ∀ sqrt : ℚ → ℚ, sqrt 0 = 0 →
          CircularLevelSet.ProjectOnSurface Binary64.pow sqrt 0 0 5 ⟨1 / 2 ^ 600, 0, 0⟩
            = .error .invalidArgument := by
  refine ⟨by norm_num, ?_⟩
  intro sqrt h0
  simp only [CircularLevelSet.ProjectOnSurface, sub_zero, Binary64.pow_underflow,
    Binary64.pow_zero_two, add_zero, h0, if_true]

/-- C17 (amended: the guard is on the computed length).  `ProjectOnSurface(P)`
throws the invalid-argument error, and gives no projected point, if and only if
the computed length `sqrt(pow(..,2) + ..)` is `0`; otherwise a point is
returned.  Where the computed squares and `sqrt` keep zero (no underflow), that
is if and only if `P` is at the centre: for `CircularLevelSet` exactly when
`(x,y) = (cX,cY)`, whatever `z` is, and for `SphericalLevelSet` exactly when `P`
equals the centre.  The sphere of centre `(0,0,0)` and radius 2 fails at
`(0,0,0)`. -/
theorem ProjectOnSurface_fails_iff (pow : K → Nat → K) (sqrt : K → K) (cX cY cZ R : K)
    (P : Point K) :
    ((CircularLevelSet.ProjectOnSurface pow sqrt cX cY R P = .error .invalidArgument
          ↔ sqrt (pow (P.x - cX) 2 + pow (P.y - cY) 2) = 0)
        ∧ (sqrt (pow (P.x - cX) 2 + pow (P.y - cY) 2) ≠ 0 →
            ∃ Proj, CircularLevelSet.ProjectOnSurface pow sqrt cX cY R P = .ok Proj)
        ∧ (SquareKeepsZeroAt pow (P.x - cX) → SquareKeepsZeroAt pow (P.y - cY) →
            SqrtKeepsZeroAt sqrt (pow (P.x - cX) 2 + pow (P.y - cY) 2) →
            ((CircularLevelSet.ProjectOnSurface pow sqrt cX cY R P = .error .invalidArgument
                ↔ P.x = cX ∧ P.y = cY)
              ∧ (¬ (P.x = cX ∧ P.y = cY) →
                  ∃ Proj, CircularLevelSet.ProjectOnSurface pow sqrt cX cY R P = .ok Proj))))
      ∧ ((SphericalLevelSet.ProjectOnSurface pow sqrt cX cY cZ R P = .error .invalidArgument
            ↔ sqrt (pow (P.x - cX) 2 + pow (P.y - cY) 2 + pow (P.z - cZ) 2) = 0)
          ∧ (sqrt (pow (P.x - cX) 2 + pow (P.y - cY) 2 + pow (P.z - cZ) 2) ≠ 0 →
              ∃ Proj, SphericalLevelSet.ProjectOnSurface pow sqrt cX cY cZ R P = .ok Proj)
          ∧ (SquareKeepsZeroAt pow (P.x - cX) → SquareKeepsZeroAt pow (P.y - cY) →
              SquareKeepsZeroAt pow (P.z - cZ) →
              SqrtKeepsZeroAt sqrt (pow (P.x - cX) 2 + pow (P.y - cY) 2 + pow (P.z - cZ) 2) →
              ((SphericalLevelSet.ProjectOnSurface pow sqrt cX cY cZ R P
                    = .error .invalidArgument ↔ P = ⟨cX, cY, cZ⟩)
                ∧ (P ≠ ⟨cX, cY, cZ⟩ →
                    ∃ Proj, SphericalLevelSet.ProjectOnSurface pow sqrt cX cY cZ R P
                      = .ok Proj))))
      ∧ SphericalLevelSet.ProjectOnSurface Binary64.pow Rat.sqrt 0 0 0 2 ⟨0, 0, 0⟩
          = .error .invalidArgument := by
  refine ⟨⟨CircularLevelSet.circle_ProjectOnSurface_eq_error_iff pow sqrt cX cY R P, ?_, ?_⟩,
    ⟨SphericalLevelSet.sphere_ProjectOnSurface_eq_error_iff pow sqrt cX cY cZ R P, ?_, ?_⟩, ?_⟩
  · intro h
    exact ⟨_, CircularLevelSet.circle_ProjectOnSurface_of_ne_zero pow sqrt cX cY R P h⟩
  · intro hx hy hs
    have hz := circle_length_eq_zero_iff pow sqrt _ _ hx hy hs
    rw [sub_eq_zero, sub_eq_zero] at hz
    refine ⟨by rw [CircularLevelSet.circle_ProjectOnSurface_eq_error_iff, hz], ?_⟩
    intro hne
    exact ⟨_, CircularLevelSet.circle_ProjectOnSurface_of_ne_zero pow sqrt cX cY R P
      (fun h0 => hne (hz.mp h0))⟩
  · intro h
    exact ⟨_, SphericalLevelSet.sphere_ProjectOnSurface_of_ne_zero pow sqrt cX cY cZ R P h⟩
  · intro hx hy hz hs
    have hzero := sphere_length_eq_zero_iff pow sqrt _ _ _ hx hy hz hs
    rw [sub_eq_zero, sub_eq_zero, sub_eq_zero, ← Point.eq_iff] at hzero
    refine ⟨by rw [SphericalLevelSet.sphere_ProjectOnSurface_eq_error_iff, hzero], ?_⟩
    intro hne
    exact ⟨_, SphericalLevelSet.sphere_ProjectOnSurface_of_ne_zero pow sqrt cX cY cZ R P
      (fun h0 => hne (hzero.mp h0))⟩
  · have h : Rat.sqrt 0 = 0 := (exactSqrtAt_ratSqrt 0 0 (le_refl _) (by norm_num)).1
    simp only [SphericalLevelSet.ProjectOnSurface, sub_zero, Binary64.pow_zero_two, add_zero, h,
      if_true]

theorem ProjectOnSurface_fails_iff_witness :
    (CircularLevelSet.ProjectOnSurface Binary64.pow Rat.sqrt 0 0 5 ⟨3, 4, 9⟩
          = .error .invalidArgument ↔ (3 : ℚ) = 0 ∧ (4 : ℚ) = 0)
      ∧ (¬ ((3 : ℚ) = 0 ∧ (4 : ℚ) = 0) →
          ∃ Proj, CircularLevelSet.ProjectOnSurface Binary64.pow Rat.sqrt 0 0 5 ⟨3, 4, 9⟩
            = .ok Proj) := by
  have h3 : Binary64.pow ((3 : ℚ) - 0) 2 = 9 := by
    have := Binary64.pow_natCast 3 (by norm_num)
    rw [sub_zero]
    norm_num at this ⊢
    exact this
  have h4 : Binary64.pow ((4 : ℚ) - 0) 2 = 16 := by
    have := Binary64.pow_natCast 4 (by norm_num)
    rw [sub_zero]
    norm_num at this ⊢
    exact this
  have hs : Rat.sqrt ((9 : ℚ) + 16) = 5 := (exactSqrtAt_ratSqrt 5 _ (by norm_num) (by norm_num)).1
  exact (ProjectOnSurface_fails_iff Binary64.pow Rat.sqrt 0 0 0 5 ⟨3, 4, 9⟩).1.2.2
    ⟨by rw [h3]; norm_num, by rw [h3]; norm_num⟩
    ⟨by rw [h4]; norm_num, by rw [h4]; norm_num⟩
    (by unfold SqrtKeepsZeroAt; rw [h3, h4, hs]; norm_num)

/-- C18, as stated, fails at points so close to the centre that the squares
underflow.  For the circle of centre `(0,0)` and radius 5, the point
`(0, 2^(-600), 3)` has `(x,y) ≠ (0,0)`; the square of `2^(-600)` underflows to
`0` in binary64, the computed length is `sqrt(0) = 0`, and
`ProjectionDerivatives` throws instead of producing a matrix. -/
theorem CircularLevelSet.ProjectionDerivatives_fails_off_centre :
    ¬ ((0 : ℚ) = 0 ∧ (1 : ℚ) / 2 ^ 600 = 0)
      ∧ ∀ sqrt : ℚ → ℚ, sqrt 0 = 0 →
          CircularLevelSet.ProjectionDerivatives Binary64.pow sqrt 0 0 5 ⟨0, 1 / 2 ^ 600, 3⟩
            = .error .invalidArgument := by
  refine ⟨by norm_num, ?_⟩
  intro sqrt h0
  simp only [CircularLevelSet.ProjectionDerivatives, sub_zero, Binary64.pow_underflow,
    Binary64.pow_zero_two, zero_add, h0, if_true]

/-- C18 (amended: the guard is on the computed length).  For every
`CircularLevelSet` and every point `P`, with `L = sqrt(pow(x-cX,2) + pow(y-cY,2))`
the computed length: if `L ≠ 0`, `ProjectionDerivatives(P)` produces the 3x3
matrix `D` with `D(i,j) = R*delta_ij/L - d_i*R*dL_j/pow(L,2)` for `i, j` in
`{0,1}`, where `d = (x-cX, y-cY)` and `dL_j = 2*d_j`, and with every entry of the
third row and of the third column `0`; `pow(L,2)` is `L^2` where `pow` is exact;
if `L = 0` it throws the invalid-argument error.  Where the computed squares and
`sqrt` keep zero (no underflow), `L = 0` exactly when `(x,y) = (cX,cY)`. -/
theorem CircularLevelSet.ProjectionDerivatives_closed_form (pow : K → Nat → K) (sqrt : K → K)
    (cX cY R : K) (P : Point K) :
    (sqrt (pow (P.x - cX) 2 + pow (P.y - cY) 2) ≠ 0 →
        ∃ (L : K) (D : Matrix (Fin 3) (Fin 3) K),
          L = sqrt (pow (P.x - cX) 2 + pow (P.y - cY) 2)
            ∧ CircularLevelSet.ProjectionDerivatives pow sqrt cX cY R P = .ok D
            ∧ (∀ i j : Fin 2, D i.castSucc j.castSucc
                = R * (if i = j then 1 else 0) / L
                  - ![P.x - cX, P.y - cY] i * R * (2 * ![P.x - cX, P.y - cY] j) / pow L 2)
            ∧ (ExactSquareAt pow L → ∀ i j : Fin 2, D i.castSucc j.castSucc
                = R * (if i = j then 1 else 0) / L
                  - ![P.x - cX, P.y - cY] i * R * (2 * ![P.x - cX, P.y - cY] j) / L ^ 2)
            ∧ (∀ k : Fin 3, D k 2 = 0 ∧ D 2 k = 0))
      ∧ (sqrt (pow (P.x - cX) 2 + pow (P.y - cY) 2) = 0 →
          CircularLevelSet.ProjectionDerivatives pow sqrt cX cY R P = .error .invalidArgument)
      ∧ (SquareKeepsZeroAt pow (P.x - cX) → SquareKeepsZeroAt pow (P.y - cY) →
          SqrtKeepsZeroAt sqrt (pow (P.x - cX) 2 + pow (P.y - cY) 2) →
          (sqrt (pow (P.x - cX) 2 + pow (P.y - cY) 2) = 0 ↔ P.x = cX ∧ P.y = cY)) := by
  refine ⟨?_, ?_, ?_⟩
  · intro hne
    have hD : CircularLevelSet.ProjectionDerivatives pow sqrt cX cY R P
        = .ok !![R / sqrt (pow (P.x - cX) 2 + pow (P.y - cY) 2)
                  - (P.x - cX) * R * (2 * (P.x - cX))
                    / pow (sqrt (pow (P.x - cX) 2 + pow (P.y - cY) 2)) 2,
                -(P.x - cX) * R * (2 * (P.y - cY))
                    / pow (sqrt (pow (P.x - cX) 2 + pow (P.y - cY) 2)) 2, 0;
               -(P.y - cY) * R * (2 * (P.x - cX))
                    / pow (sqrt (pow (P.x - cX) 2 + pow (P.y - cY) 2)) 2,
                R / sqrt (pow (P.x - cX) 2 + pow (P.y - cY) 2)
                  - (P.y - cY) * R * (2 * (P.y - cY))
                    / pow (sqrt (pow (P.x - cX) 2 + pow (P.y - cY) 2)) 2, 0;
               0, 0, 0] := by
      simp only [CircularLevelSet.ProjectionDerivatives, hne, if_false]
    have hentries : ∀ i j : Fin 2,
        (!![R / sqrt (pow (P.x - cX) 2 + pow (P.y - cY) 2)
                  - (P.x - cX) * R * (2 * (P.x - cX))
                    / pow (sqrt (pow (P.x - cX) 2 + pow (P.y - cY) 2)) 2,
                -(P.x - cX) * R * (2 * (P.y - cY))
                    / pow (sqrt (pow (P.x - cX) 2 + pow (P.y - cY) 2)) 2, 0;
               -(P.y - cY) * R * (2 * (P.x - cX))
                    / pow (sqrt (pow (P.x - cX) 2 + pow (P.y - cY) 2)) 2,
                R / sqrt (pow (P.x - cX) 2 + pow (P.y - cY) 2)
                  - (P.y - cY) * R * (2 * (P.y - cY))
                    / pow (sqrt (pow (P.x - cX) 2 + pow (P.y - cY) 2)) 2, 0;
               0, 0, 0] : Matrix (Fin 3) (Fin 3) K) i.castSucc j.castSucc
          = R * (if i = j then 1 else 0) / sqrt (pow (P.x - cX) 2 + pow (P.y - cY) 2)
            - ![P.x - cX, P.y - cY] i * R * (2 * ![P.x - cX, P.y - cY] j)
                / pow (sqrt (pow (P.x - cX) 2 + pow (P.y - cY) 2)) 2 := by
      intro i j
      fin_cases i <;> fin_cases j <;> simp <;> ring
    refine ⟨sqrt (pow (P.x - cX) 2 + pow (P.y - cY) 2), _, rfl, hD, hentries, ?_, ?_⟩
    · intro hex i j
      rw [hentries i j, hex]
    · intro k
      fin_cases k <;> exact ⟨rfl, rfl⟩
  · intro hc
    simp only [CircularLevelSet.ProjectionDerivatives, hc, if_true]
  · intro hx hy hs
    have hz := circle_length_eq_zero_iff pow sqrt _ _ hx hy hs
    rw [sub_eq_zero, sub_eq_zero] at hz
    exact hz

theorem CircularLevelSet.ProjectionDerivatives_closed_form_witness :
    ∃ (L : ℝ) (D : Matrix (Fin 3) (Fin 3) ℝ),
      L = Real.sqrt (exactPow ((1 : ℝ) - 0) 2 + exactPow ((1 : ℝ) - 0) 2)
        ∧ CircularLevelSet.ProjectionDerivatives exactPow Real.sqrt 0 0 5 ⟨1, 1, 0⟩ = .ok D
        ∧ (∀ i j : Fin 2, D i.castSucc j.castSucc
            = 5 * (if i = j then 1 else 0) / L
              - ![(1 : ℝ) - 0, (1 : ℝ) - 0] i * 5 * (2 * ![(1 : ℝ) - 0, (1 : ℝ) - 0] j)
                  / exactPow L 2)
        ∧ (ExactSquareAt exactPow L → ∀ i j : Fin 2, D i.castSucc j.castSucc
            = 5 * (if i = j then 1 else 0) / L
              - ![(1 : ℝ) - 0, (1 : ℝ) - 0] i * 5 * (2 * ![(1 : ℝ) - 0, (1 : ℝ) - 0] j) / L ^ 2)
        ∧ (∀ k : Fin 3, D k 2 = 0 ∧ D 2 k = 0) :=
  (CircularLevelSet.ProjectionDerivatives_closed_form exactPow Real.sqrt 0 0 5 ⟨1, 1, 0⟩).1
    (by
      have h : (0 : ℝ) < exactPow ((1 : ℝ) - 0) 2 + exactPow ((1 : ℝ) - 0) 2 := by
        norm_num [exactPow]
      exact (Real.sqrt_pos.mpr h).ne')

/-- C19 (the code departs from the claim).  For the circle of centre `(0,0)` and
radius 5 at `P = (10,0,0)`, where `L = 10` and `d = (10,0)`:
`ProjectionDerivatives` gives `D(0,0) = -19/2`, while the derivative of the
first coordinate of the projection is `R/L - R*d_0*d_0/L^3 = 0`; the matrix sends
the radial direction `d` to `(-95, 0, 0)`, not to `0`, although
`ProjectOnSurface` is constant along the ray: it gives `(5,0,0)` at `(10,0,0)`
and at `(20,0,0)`. -/
theorem CircularLevelSet.ProjectionDerivatives_differs_from_jacobian :
    CircularLevelSet.ProjectionDerivatives Binary64.pow Rat.sqrt 0 0 5 ⟨10, 0, 0⟩
        = .ok !![-19 / 2, 0, 0; 0, 1 / 2, 0; 0, 0, 0]
      ∧ ((5 : ℚ) * 1 / 10 - 5 * 10 * 10 / 10 ^ 3) = 0
      ∧ (!![-19 / 2, 0, 0; 0, 1 / 2, 0; 0, 0, 0] : Matrix (Fin 3) (Fin 3) ℚ).mulVec ![10, 0, 0]
          = ![-95, 0, 0]
      ∧ CircularLevelSet.ProjectOnSurface Binary64.pow Rat.sqrt 0 0 5 ⟨10, 0, 0⟩ = .ok ⟨5, 0, 0⟩
      ∧ CircularLevelSet.ProjectOnSurface Binary64.pow Rat.sqrt 0 0 5 ⟨20, 0, 0⟩ = .ok ⟨5, 0, 0⟩ := by
  have hp10 := Binary64.pow_natCast 10 (by norm_num)
  have hp20 := Binary64.pow_natCast 20 (by norm_num)
  simp only [Nat.cast_ofNat] at hp10 hp20
  have h10 := (exactSqrtAt_ratSqrt 10 ((10 : ℚ) ^ 2 + 0) (by norm_num) (by norm_num)).1
  have h20 := (exactSqrtAt_ratSqrt 20 ((20 : ℚ) ^ 2 + 0) (by norm_num) (by norm_num)).1
  refine ⟨?_, by norm_num, ?_, ?_, ?_⟩
  · simp only [CircularLevelSet.ProjectionDerivatives, sub_zero, hp10, Binary64.pow_zero_two, h10]
    norm_num
  · funext i
    fin_cases i <;> norm_num [Matrix.mulVec, Matrix.dotProduct, Fin.sum_univ_three]
  · simp only [CircularLevelSet.ProjectOnSurface, sub_zero, hp10, Binary64.pow_zero_two, h10]
    norm_num
  · simp only [CircularLevelSet.ProjectOnSurface, sub_zero, hp20, Binary64.pow_zero_two, h20]
    norm_num

/-! ## The projection and the zero level set -/

theorem CircularLevelSet.circle_ProjectOnSurface_eq_ok (pow : K → Nat → K) (sqrt : K → K)
    (cX cY R : K) (P Proj : Point K)
    (h : CircularLevelSet.ProjectOnSurface pow sqrt cX cY R P = .ok Proj) :
    sqrt (pow (P.x - cX) 2 + pow (P.y - cY) 2) ≠ 0
      ∧ Proj = ⟨(P.x - cX) * R / sqrt (pow (P.x - cX) 2 + pow (P.y - cY) 2) + cX,
          (P.y - cY) * R / sqrt (pow (P.x - cX) 2 + pow (P.y - cY) 2) + cY, 0⟩ := by
  by_cases h0 : sqrt (pow (P.x - cX) 2 + pow (P.y - cY) 2) = 0
  · simp [CircularLevelSet.ProjectOnSurface, h0] at h
  · rw [CircularLevelSet.circle_ProjectOnSurface_of_ne_zero pow sqrt cX cY R P h0] at h
    simp only [Except.ok.injEq] at h
    exact ⟨h0, h.symm⟩

theorem SphericalLevelSet.sphere_ProjectOnSurface_eq_ok (pow : K → Nat → K) (sqrt : K → K)
    (cX cY cZ R : K) (P Proj : Point K)
    (h : SphericalLevelSet.ProjectOnSurface pow sqrt cX cY cZ R P = .ok Proj) :
    sqrt (pow (P.x - cX) 2 + pow (P.y - cY) 2 + pow (P.z - cZ) 2) ≠ 0
      ∧ Proj = ⟨(P.x - cX) * R / sqrt (pow (P.x - cX) 2 + pow (P.y - cY) 2 + pow (P.z - cZ) 2)
            + cX,
          (P.y - cY) * R / sqrt (pow (P.x - cX) 2 + pow (P.y - cY) 2 + pow (P.z - cZ) 2) + cY,
          (P.z - cZ) * R / sqrt (pow (P.x - cX) 2 + pow (P.y - cY) 2 + pow (P.z - cZ) 2)
            + cZ⟩ := by
  by_cases h0 : sqrt (pow (P.x - cX) 2 + pow (P.y - cY) 2 + pow (P.z - cZ) 2) = 0
  · simp [SphericalLevelSet.ProjectOnSurface, h0] at h
  · rw [SphericalLevelSet.sphere_ProjectOnSurface_of_ne_zero pow sqrt cX cY cZ R P h0] at h
    simp only [Except.ok.injEq] at h
    exact ⟨h0, h.symm⟩

theorem radial_sq_two (a b R l : K) (hl : l ≠ 0) (h : l * l = a ^ 2 + b ^ 2) :
    (a * R / l) ^ 2 + (b * R / l) ^ 2 = R ^ 2 := by
  have h2 : l ^ 2 ≠ 0 := pow_ne_zero 2 hl
  have e : (a * R / l) ^ 2 + (b * R / l) ^ 2
      = R ^ 2 * (a ^ 2 + b ^ 2) / l ^ 2 := by
    field_simp
    ring
  rw [e, ← h, ← sq, mul_div_assoc, div_self h2, mul_one]

theorem radial_sq_three (a b c R l : K) (hl : l ≠ 0) (h : l * l = a ^ 2 + b ^ 2 + c ^ 2) :
    (a * R / l) ^ 2 + (b * R / l) ^ 2 + (c * R / l) ^ 2 = R ^ 2 := by
  have h2 : l ^ 2 ≠ 0 := pow_ne_zero 2 hl
  have e : (a * R / l) ^ 2 + (b * R / l) ^ 2 + (c * R / l) ^ 2
      = R ^ 2 * (a ^ 2 + b ^ 2 + c ^ 2) / l ^ 2 := by
    field_simp
    ring
  rw [e, ← h, ← sq, mul_div_assoc, div_self h2, mul_one]

/-- Where the squares and `sqrt` are exact, a point projected on the circle is at
squared distance `R^2` from the centre, in the plane `z = 0`. -/
theorem CircularLevelSet.circle_ProjectOnSurface_sq_dist (pow : K → Nat → K) (sqrt : K → K)
    (cX cY R : K) (P Proj : Point K)
    (hx : ExactSquareAt pow (P.x - cX)) (hy : ExactSquareAt pow (P.y - cY))
    (hs : ExactSqrtAt sqrt ((P.x - cX) ^ 2 + (P.y - cY) ^ 2))
    (h : CircularLevelSet.ProjectOnSurface pow sqrt cX cY R P = .ok Proj) :
    (Proj.x - cX) ^ 2 + (Proj.y - cY) ^ 2 = R ^ 2 ∧ Proj.z = 0 := by
  obtain ⟨h0, rfl⟩ := CircularLevelSet.circle_ProjectOnSurface_eq_ok pow sqrt cX cY R P Proj h
  unfold ExactSquareAt at hx hy
  rw [hx, hy] at h0 ⊢
  refine ⟨?_, rfl⟩
  have := radial_sq_two (P.x - cX) (P.y - cY) R _ h0 hs.2
  simpa using this

/-- Where the squares and `sqrt` are exact, a point projected on the sphere is at
squared distance `R^2` from the centre. -/
theorem SphericalLevelSet.sphere_ProjectOnSurface_sq_dist (pow : K → Nat → K) (sqrt : K → K)
    (cX cY cZ R : K) (P Proj : Point K)
    (hx : ExactSquareAt pow (P.x - cX)) (hy : ExactSquareAt pow (P.y - cY))
    (hz : ExactSquareAt pow (P.z - cZ))
    (hs : ExactSqrtAt sqrt ((P.x - cX) ^ 2 + (P.y - cY) ^ 2 + (P.z - cZ) ^ 2))
    (h : SphericalLevelSet.ProjectOnSurface pow sqrt cX cY cZ R P = .ok Proj) :
    (Proj.x - cX) ^ 2 + (Proj.y - cY) ^ 2 + (Proj.z - cZ) ^ 2 = R ^ 2 := by
  obtain ⟨h0, rfl⟩ := SphericalLevelSet.sphere_ProjectOnSurface_eq_ok pow sqrt cX cY cZ R P Proj h
  unfold ExactSquareAt at hx hy hz
  rw [hx, hy, hz] at h0 ⊢
  have := radial_sq_three (P.x - cX) (P.y - cY) (P.z - cZ) R _ h0 hs.2
  simpa using this

/-- C33.  For every `CircularLevelSet` and `SphericalLevelSet`, every radius and
every point `P` at which the squares and `sqrt` are computed exactly and
`ProjectOnSurface` succeeds, the projected point has `GetValue` exactly `0`.
Over the reals, with the real square root, this is so at every point at which
`ProjectOnSurface` succeeds. -/
theorem ProjectOnSurface_on_zero_level_set (pow : K → Nat → K) (sqrt : K → K)
    (cX cY cZ R TOL : K) (P : Point K) :
    (ExactSquareAt pow (P.x - cX) → ExactSquareAt pow (P.y - cY) →
        ExactSqrtAt sqrt ((P.x - cX) ^ 2 + (P.y - cY) ^ 2) →
        ∀ Proj, CircularLevelSet.ProjectOnSurface pow sqrt cX cY R P = .ok Proj →
          (CircularLevelSet cX cY R TOL).GetValue Proj = .ok 0)
      ∧ (ExactSquareAt pow (P.x - cX) → ExactSquareAt pow (P.y - cY) →
          ExactSquareAt pow (P.z - cZ) →
          ExactSqrtAt sqrt ((P.x - cX) ^ 2 + (P.y - cY) ^ 2 + (P.z - cZ) ^ 2) →
          ∀ Proj, SphericalLevelSet.ProjectOnSurface pow sqrt cX cY cZ R P = .ok Proj →
            (SphericalLevelSet cX cY cZ R TOL).GetValue Proj = .ok 0)
      ∧ (∀ (c1 c2 c3 r tol : ℝ) (Q Proj : Point ℝ),
          (CircularLevelSet.ProjectOnSurface exactPow Real.sqrt c1 c2 r Q = .ok Proj →
              (CircularLevelSet c1 c2 r tol).GetValue Proj = .ok 0)
            ∧ (SphericalLevelSet.ProjectOnSurface exactPow Real.sqrt c1 c2 c3 r Q = .ok Proj →
                (SphericalLevelSet c1 c2 c3 r tol).GetValue Proj = .ok 0)) := by
  refine ⟨?_, ?_, ?_⟩
  · intro hx hy hs Proj h
    have hd := (CircularLevelSet.circle_ProjectOnSurface_sq_dist pow sqrt cX cY R P Proj
      hx hy hs h).1
    show Except.ok ((Proj.x - cX) ^ 2 + (Proj.y - cY) ^ 2 - R ^ 2) = Except.ok 0
    rw [hd, sub_self]
  · intro hx hy hz hs Proj h
    have hd := SphericalLevelSet.sphere_ProjectOnSurface_sq_dist pow sqrt cX cY cZ R P Proj
      hx hy hz hs h
    show Except.ok ((Proj.x - cX) ^ 2 + (Proj.y - cY) ^ 2 + (Proj.z - cZ) ^ 2 - R ^ 2)
      = Except.ok 0
    rw [hd, sub_self]
  · intro c1 c2 c3 r tol Q Proj
    constructor
    · intro h
      have hd := (CircularLevelSet.circle_ProjectOnSurface_sq_dist exactPow Real.sqrt c1 c2 r Q
        Proj (exactSquareAt_exactPow _) (exactSquareAt_exactPow _)
        (exactSqrtAt_realSqrt _ (by positivity)) h).1
      show Except.ok ((Proj.x - c1) ^ 2 + (Proj.y - c2) ^ 2 - r ^ 2) = Except.ok 0
      rw [hd, sub_self]
    · intro h
      have hd := SphericalLevelSet.sphere_ProjectOnSurface_sq_dist exactPow Real.sqrt c1 c2 c3 r
        Q Proj (exactSquareAt_exactPow _) (exactSquareAt_exactPow _) (exactSquareAt_exactPow _)
        (exactSqrtAt_realSqrt _ (by positivity)) h
      show Except.ok ((Proj.x - c1) ^ 2 + (Proj.y - c2) ^ 2 + (Proj.z - c3) ^ 2 - r ^ 2)
        = Except.ok 0
      rw [hd, sub_self]

theorem ProjectOnSurface_on_zero_level_set_witness :
    CircularLevelSet.ProjectOnSurface Binary64.pow Rat.sqrt 1 2 5 ⟨4, 6, 7⟩ = .ok ⟨4, 6, 0⟩
      ∧ (CircularLevelSet (1 : ℚ) 2 5 0).GetValue ⟨4, 6, 0⟩ = .ok 0 := by
  have h3 : Binary64.pow ((4 : ℚ) - 1) 2 = ((4 : ℚ) - 1) ^ 2 := by
    have := Binary64.pow_natCast 3 (by norm_num)
    norm_num at this ⊢
    exact this
  have h4 : Binary64.pow ((6 : ℚ) - 2) 2 = ((6 : ℚ) - 2) ^ 2 := by
    have := Binary64.pow_natCast 4 (by norm_num)
    norm_num at this ⊢
    exact this
  have hsq := exactSqrtAt_ratSqrt 5 (((4 : ℚ) - 1) ^ 2 + ((6 : ℚ) - 2) ^ 2)
    (by norm_num) (by norm_num)
  have hp : CircularLevelSet.ProjectOnSurface Binary64.pow Rat.sqrt 1 2 5 ⟨4, 6, 7⟩
      = .ok ⟨4, 6, 0⟩ := by
    simp only [CircularLevelSet.ProjectOnSurface, h3, h4, hsq.1]
    norm_num
  exact ⟨hp, (ProjectOnSurface_on_zero_level_set Binary64.pow Rat.sqrt 1 2 0 5 0 ⟨4, 6, 7⟩).1
    h3 h4 hsq.2 _ hp⟩

/-- Where it is exact, the square root of `R^2` is `R` for a positive `R`. -/
theorem ExactSqrtAt.sqrt_sq_of_pos {sqrt : K → K} {R : K} (h : ExactSqrtAt sqrt (R ^ 2))
    (hR : 0 < R) : sqrt (R ^ 2) = R := by
  have h1 := h.1
  have h2 : (sqrt (R ^ 2) - R) * (sqrt (R ^ 2) + R) = 0 := by
    have := h.2
    ring_nf
    ring_nf at this
    linarith
  rcases mul_eq_zero.mp h2 with h3 | h3
  · linarith
  · linarith

/-- Idempotence of the projection on the circle where the squares are exact and
`sqrt` is exact at the squared distance of `P` and at `R^2`. -/
theorem CircularLevelSet.circle_ProjectOnSurface_twice (pow : K → Nat → K) (sqrt : K → K)
    (cX cY R : K) (P : Point K) (hR : 0 < R) (hpow : ∀ d, ExactSquareAt pow d)
    (hRR : ExactSqrtAt sqrt (R ^ 2))
    (hs : ExactSqrtAt sqrt ((P.x - cX) ^ 2 + (P.y - cY) ^ 2)) (hne : ¬ (P.x = cX ∧ P.y = cY)) :
    ∃ Proj, CircularLevelSet.ProjectOnSurface pow sqrt cX cY R P = .ok Proj
      ∧ CircularLevelSet.ProjectOnSurface pow sqrt cX cY R Proj = .ok Proj := by
  have hsqrtR := hRR.sqrt_sq_of_pos hR
  have hR0 : R ≠ 0 := hR.ne'
  obtain ⟨_, hProj⟩ := CircularLevelSet.circle_ProjectOnSurface_of_exact pow sqrt cX cY R P
    (hpow _) (hpow _) hs hne
  obtain ⟨hd, hz0⟩ := CircularLevelSet.circle_ProjectOnSurface_sq_dist pow sqrt cX cY R P _
    (hpow _) (hpow _) hs hProj
  refine ⟨_, hProj, ?_⟩
  generalize (⟨cX + R * (P.x - cX) / sqrt ((P.x - cX) ^ 2 + (P.y - cY) ^ 2),
    cY + R * (P.y - cY) / sqrt ((P.x - cX) ^ 2 + (P.y - cY) ^ 2), 0⟩ : Point K) = Proj at hd hz0
  have e1 : pow (Proj.x - cX) 2 = (Proj.x - cX) ^ 2 := hpow _
  have e2 : pow (Proj.y - cY) 2 = (Proj.y - cY) ^ 2 := hpow _
  simp only [CircularLevelSet.ProjectOnSurface, e1, e2, hd, hsqrtR, hR0, if_false]
  cases Proj with
  | mk x y z =>
    simp only at hz0
    subst hz0
    congr 2 <;> field_simp

/-- Idempotence of the projection on the sphere where the squares are exact and
`sqrt` is exact at the squared distance of `P` and at `R^2`. -/
theorem SphericalLevelSet.sphere_ProjectOnSurface_twice (pow : K → Nat → K) (sqrt : K → K)
    (cX cY cZ R : K) (P : Point K) (hR : 0 < R) (hpow : ∀ d, ExactSquareAt pow d)
    (hRR : ExactSqrtAt sqrt (R ^ 2))
    (hs : ExactSqrtAt sqrt ((P.x - cX) ^ 2 + (P.y - cY) ^ 2 + (P.z - cZ) ^ 2))
    (hne : P ≠ ⟨cX, cY, cZ⟩) :
    ∃ Proj, SphericalLevelSet.ProjectOnSurface pow sqrt cX cY cZ R P = .ok Proj
      ∧ SphericalLevelSet.ProjectOnSurface pow sqrt cX cY cZ R Proj = .ok Proj := by
  have hsqrtR := hRR.sqrt_sq_of_pos hR
  have hR0 : R ≠ 0 := hR.ne'
  obtain ⟨_, hProj⟩ := SphericalLevelSet.sphere_ProjectOnSurface_of_exact pow sqrt cX cY cZ R P
    (hpow _) (hpow _) (hpow _) hs hne
  have hd := SphericalLevelSet.sphere_ProjectOnSurface_sq_dist pow sqrt cX cY cZ R P _
    (hpow _) (hpow _) (hpow _) hs hProj
  refine ⟨_, hProj, ?_⟩
  generalize (⟨cX + R * (P.x - cX) / sqrt ((P.x - cX) ^ 2 + (P.y - cY) ^ 2 + (P.z - cZ) ^ 2),
    cY + R * (P.y - cY) / sqrt ((P.x - cX) ^ 2 + (P.y - cY) ^ 2 + (P.z - cZ) ^ 2),
    cZ + R * (P.z - cZ) / sqrt ((P.x - cX) ^ 2 + (P.y - cY) ^ 2 + (P.z - cZ) ^ 2)⟩ : Point K)
    = Proj at hd
  have e1 : pow (Proj.x - cX) 2 = (Proj.x - cX) ^ 2 := hpow _
  have e2 : pow (Proj.y - cY) 2 = (Proj.y - cY) ^ 2 := hpow _
  have e3 : pow (Proj.z - cZ) 2 = (Proj.z - cZ) ^ 2 := hpow _
  simp only [SphericalLevelSet.ProjectOnSurface, e1, e2, e3, hd, hsqrtR, hR0, if_false]
  cases Proj with
  | mk x y z =>
    congr 2 <;> field_simp

/-- C34, as stated, fails at points so close to the centre that the squares
underflow.  For the sphere of centre `(0,0,0)` and radius `1 > 0`, the point
`(2^(-600), 0, 0)` is not the centre; the square of `2^(-600)` underflows to `0`
in binary64 and `ProjectOnSurface(P)` throws: there is no projected point to
project again. -/
theorem SphericalLevelSet.ProjectOnSurface_not_idempotent_off_centre :
    (0 : ℚ) < 1 ∧ (⟨1 / 2 ^ 600, 0, 0⟩ : Point ℚ) ≠ ⟨0, 0, 0⟩
      ∧ ∀ sqrt : ℚ → ℚ, sqrt 0 = 0 →
          SphericalLevelSet.ProjectOnSurface Binary64.pow sqrt 0 0 0 1 ⟨1 / 2 ^ 600, 0, 0⟩
              = .error .invalidArgument
            ∧ ¬ ∃ Proj, SphericalLevelSet.ProjectOnSurface Binary64.pow sqrt 0 0 0 1
                ⟨1 / 2 ^ 600, 0, 0⟩ = .ok Proj := by
  refine ⟨by norm_num, by simp [Point.eq_iff], ?_⟩
  intro sqrt h0
  have h : SphericalLevelSet.ProjectOnSurface Binary64.pow sqrt 0 0 0 1 ⟨1 / 2 ^ 600, 0, 0⟩
      = .error .invalidArgument := by
    simp only [SphericalLevelSet.ProjectOnSurface, sub_zero, Binary64.pow_underflow,
      Binary64.pow_zero_two, add_zero, h0, if_true]
  refine ⟨h, ?_⟩
  rintro ⟨Proj, hP⟩
  rw [h] at hP
  cases hP

/-- C34 (amended: in exact arithmetic).  For every `CircularLevelSet` and
`SphericalLevelSet` with `R > 0` and every point `P` not at the centre, where the
squares are computed exactly and `sqrt` is exact at the squared distance of `P`
and at `R^2`: `ProjectOnSurface(P)` succeeds, and `ProjectOnSurface` of the
projected point succeeds and returns the projected point again.  Over the reals,
with the real square root, this is so at every point that is not at the
centre. -/
theorem ProjectOnSurface_idempotent (pow : K → Nat → K) (sqrt : K → K) (cX cY cZ R : K)
    (P : Point K) (hR : 0 < R) (hpow : ∀ d, ExactSquareAt pow d)
    (hRR : ExactSqrtAt sqrt (R ^ 2)) :
    (ExactSqrtAt sqrt ((P.x - cX) ^ 2 + (P.y - cY) ^ 2) → ¬ (P.x = cX ∧ P.y = cY) →
        ∃ Proj, CircularLevelSet.ProjectOnSurface pow sqrt cX cY R P = .ok Proj
          ∧ CircularLevelSet.ProjectOnSurface pow sqrt cX cY R Proj = .ok Proj)
      ∧ (ExactSqrtAt sqrt ((P.x - cX) ^ 2 + (P.y - cY) ^ 2 + (P.z - cZ) ^ 2) →
          P ≠ ⟨cX, cY, cZ⟩ →
          ∃ Proj, SphericalLevelSet.ProjectOnSurface pow sqrt cX cY cZ R P = .ok Proj
            ∧ SphericalLevelSet.ProjectOnSurface pow sqrt cX cY cZ R Proj = .ok Proj)
      ∧ (∀ (c1 c2 c3 r : ℝ) (Q : Point ℝ), 0 < r →
          (¬ (Q.x = c1 ∧ Q.y = c2) →
              ∃ Proj, CircularLevelSet.ProjectOnSurface exactPow Real.sqrt c1 c2 r Q = .ok Proj
                ∧ CircularLevelSet.ProjectOnSurface exactPow Real.sqrt c1 c2 r Proj = .ok Proj)
            ∧ (Q ≠ ⟨c1, c2, c3⟩ →
                ∃ Proj, SphericalLevelSet.ProjectOnSurface exactPow Real.sqrt c1 c2 c3 r Q
                    = .ok Proj
                  ∧ SphericalLevelSet.ProjectOnSurface exactPow Real.sqrt c1 c2 c3 r Proj
                    = .ok Proj)) := by
  refine ⟨?_, ?_, ?_⟩
  · intro hs hne
    exact CircularLevelSet.circle_ProjectOnSurface_twice pow sqrt cX cY R P hR hpow hRR hs hne
  · intro hs hne
    exact SphericalLevelSet.sphere_ProjectOnSurface_twice pow sqrt cX cY cZ R P hR hpow hRR hs hne
  · intro c1 c2 c3 r Q hr
    constructor
    · intro hne
      exact CircularLevelSet.circle_ProjectOnSurface_twice exactPow Real.sqrt c1 c2 r Q hr
        exactSquareAt_exactPow (exactSqrtAt_realSqrt _ (by positivity))
        (exactSqrtAt_realSqrt _ (by positivity)) hne
    · intro hne
      exact SphericalLevelSet.sphere_ProjectOnSurface_twice exactPow Real.sqrt c1 c2 c3 r Q hr
        exactSquareAt_exactPow (exactSqrtAt_realSqrt _ (by positivity))
        (exactSqrtAt_realSqrt _ (by positivity)) hne

theorem ProjectOnSurface_idempotent_witness :
    (0 : ℝ) < 5 ∧ (∀ d : ℝ, ExactSquareAt exactPow d) ∧ ExactSqrtAt Real.sqrt ((5 : ℝ) ^ 2)
      ∧ ∃ Proj, CircularLevelSet.ProjectOnSurface exactPow Real.sqrt 0 0 5 ⟨1, 1, 7⟩ = .ok Proj
          ∧ CircularLevelSet.ProjectOnSurface exactPow Real.sqrt 0 0 5 Proj = .ok Proj :=
  ⟨by norm_num, exactSquareAt_exactPow, exactSqrtAt_realSqrt _ (by norm_num),
    (ProjectOnSurface_idempotent exactPow Real.sqrt 0 0 0 5 ⟨1, 1, 7⟩ (by norm_num)
      exactSquareAt_exactPow (exactSqrtAt_realSqrt _ (by norm_num))).1
      (exactSqrtAt_realSqrt _ (by norm_num)) (by norm_num)⟩

/-! ## `InverseLevelSet` -/

/-- C20.  For every inner level set `L` and every point `P`:
`InverseLevelSet(L).GetValue(P)` is `-L.GetValue(P)`,
`InverseLevelSet(L).GetGradient(P)` is `-L.GetGradient(P)` entry by entry, and
`InverseLevelSet(L).WorkingSpaceDimension()` is `L.WorkingSpaceDimension()`;
each throws exactly when the inner call throws, and then the same exception. -/
theorem InverseLevelSet_delegates (L : LevelSet ℚ) (TOL : ℚ) (P : Point ℚ) :
    (∀ v, L.GetValue P = .ok v → (InverseLevelSet L TOL).GetValue P = .ok (-v))
      ∧ (∀ e, L.GetValue P = .error e → (InverseLevelSet L TOL).GetValue P = .error e)
      ∧ ((∃ e, (InverseLevelSet L TOL).GetValue P = .error e) ↔ ∃ e, L.GetValue P = .error e)
      ∧ (∀ g, L.GetGradient P = .ok g →
          ∃ h, (InverseLevelSet L TOL).GetGradient P = .ok h ∧ h.length = g.length
            ∧ ∀ i : Nat, h[i]? = (g[i]?).map (fun a => -a))
      ∧ (∀ e, L.GetGradient P = .error e →
          (InverseLevelSet L TOL).GetGradient P = .error e)
      ∧ ((∃ e, (InverseLevelSet L TOL).GetGradient P = .error e)
          ↔ ∃ e, L.GetGradient P = .error e)
      ∧ (InverseLevelSet L TOL).WorkingSpaceDimension = L.WorkingSpaceDimension := by
  refine ⟨?_, ?_, ?_, ?_, ?_, ?_, rfl⟩
  · intro v hv
    simp [InverseLevelSet, hv]
  · intro e he
    simp [InverseLevelSet, he]
  · cases hv : L.GetValue P <;> simp [InverseLevelSet, hv]
  · intro g hg
    refine ⟨g.map (fun a => -a), by simp [InverseLevelSet, hg], by simp, ?_⟩
    intro i
    rw [List.getElem?_map]
  · intro e he
    simp [InverseLevelSet, he]
  · cases hg : L.GetGradient P <;> simp [InverseLevelSet, hg]

/-! ## `InverseLevelSet` and the classification -/

theorem InverseLevelSet_GetValue_of (L : LevelSet ℚ) (TOL : ℚ) (phi : Point ℚ → ℚ)
    (pts : List (Point ℚ)) (hphi : ∀ p ∈ pts, L.GetValue p = .ok (phi p)) :
    ∀ p ∈ pts, (InverseLevelSet L TOL).GetValue p = .ok ((fun q => -phi q) p) := by
  intro p hp
  simp [InverseLevelSet, hphi p hp]

/-- C21, as stated, fails for a negative tolerance: on the circle of radius 5
with tolerance `-1` the single point `(5,0,0)` (value `0`) is `IN` under the
circle and `IN` again under its inverse, which holds the same tolerance. -/
theorem InverseLevelSet_CutStatus_no_flip_at_negative_tolerance :
    (CircularLevelSet (0 : ℚ) 0 5 (-1)).CutStatus [⟨5, 0, 0⟩] = .ok BRep._IN
      ∧ (InverseLevelSet (CircularLevelSet (0 : ℚ) 0 5 (-1)) (-1)).CutStatus [⟨5, 0, 0⟩]
          = .ok BRep._IN
      ∧ ¬ ((InverseLevelSet (CircularLevelSet (0 : ℚ) 0 5 (-1)) (-1)).CutStatus [⟨5, 0, 0⟩]
              = .ok BRep._IN
            ↔ (CircularLevelSet (0 : ℚ) 0 5 (-1)).CutStatus [⟨5, 0, 0⟩] = .ok BRep._OUT) := by
  have h1 : (CircularLevelSet (0 : ℚ) 0 5 (-1)).CutStatus [⟨5, 0, 0⟩] = .ok BRep._IN := by
    norm_num [CircularLevelSet, LevelSet.CutStatus, LevelSet.CutStatusOfPoints,
      LevelSet.bucketLoop, LevelSet.GetTolerance, BRep._IN]
  have h2 : (InverseLevelSet (CircularLevelSet (0 : ℚ) 0 5 (-1)) (-1)).CutStatus [⟨5, 0, 0⟩]
      = .ok BRep._IN := by
    norm_num [InverseLevelSet, CircularLevelSet, LevelSet.CutStatus,
      LevelSet.CutStatusOfPoints, LevelSet.bucketLoop, LevelSet.GetTolerance, BRep._IN]
  refine ⟨h1, h2, ?_⟩
  rw [h1, h2]
  intro hiff
  have := hiff.mp rfl
  simp [BRep._IN, BRep._OUT] at this

/-- C21 (amended: non-negative tolerance).  For every level set `L` whose
`GetValue` is `phi` on the points, every list of points and every tolerance
`tol ≥ 0` used for both: the tolerance-banded status under `InverseLevelSet(L)`
is `IN` exactly when it is `OUT` under `L`, `OUT` exactly when it is `IN` under
`L`, `CUT` exactly when it is `CUT` under `L`, and the degenerate error is thrown
under one exactly when it is thrown under the other. -/
theorem InverseLevelSet_CutStatus_flips (L : LevelSet ℚ) (TOL : ℚ) (phi : Point ℚ → ℚ) (tol : ℚ)
    (pts : List (Point ℚ)) (hphi : ∀ p ∈ pts, L.GetValue p = .ok (phi p)) (htol : 0 ≤ tol) :
    ((InverseLevelSet L TOL).CutStatusOfPoints pts tol = .ok BRep._IN
        ↔ L.CutStatusOfPoints pts tol = .ok BRep._OUT)
      ∧ ((InverseLevelSet L TOL).CutStatusOfPoints pts tol = .ok BRep._OUT
        ↔ L.CutStatusOfPoints pts tol = .ok BRep._IN)
      ∧ ((InverseLevelSet L TOL).CutStatusOfPoints pts tol = .ok BRep._CUT
        ↔ L.CutStatusOfPoints pts tol = .ok BRep._CUT)
      ∧ ((InverseLevelSet L TOL).CutStatusOfPoints pts tol = .error .degenerated
        ↔ L.CutStatusOfPoints pts tol = .error .degenerated)
      ∧ (InverseLevelSet L tol).CutStatus pts
          = (InverseLevelSet L tol).CutStatusOfPoints pts tol := by
  have hinv := InverseLevelSet_GetValue_of L TOL phi pts hphi
  have e1 : ∀ p : (Point ℚ), (-phi p < -tol) ↔ phi p > tol := fun p => neg_lt_neg_iff
  have e2 : ∀ p : (Point ℚ), (-phi p > tol) ↔ phi p < -tol := fun p => lt_neg
  refine ⟨?_, ?_, ?_, ?_, rfl⟩
  · rw [LevelSet.in_iff_of_nonneg _ _ tol pts hinv htol, L.out_iff phi tol pts hphi]
    simp only [e1, e2]
    exact And.comm
  · rw [LevelSet.out_iff _ _ tol pts hinv, L.in_iff_of_nonneg phi tol pts hphi htol]
    simp only [e1, e2]
    exact And.comm
  · rw [LevelSet.cut_iff_of_nonneg _ _ tol pts hinv htol,
      L.cut_iff_of_nonneg phi tol pts hphi htol]
    simp only [e1, e2]
    exact And.comm
  · rw [LevelSet.degenerated_iff _ _ tol pts hinv, L.degenerated_iff phi tol pts hphi]
    simp only [e1, e2]
    exact And.comm

theorem InverseLevelSet_CutStatus_flips_witness :
    (0 : ℚ) ≤ 1
      ∧ ((InverseLevelSet (CircularLevelSet (0 : ℚ) 0 5 1) 1).CutStatusOfPoints
            [⟨0, 0, 0⟩, ⟨1, 0, 0⟩] 1 = .ok BRep._OUT
          ↔ (CircularLevelSet (0 : ℚ) 0 5 1).CutStatusOfPoints [⟨0, 0, 0⟩, ⟨1, 0, 0⟩] 1
              = .ok BRep._IN) :=
  ⟨by norm_num,
    (InverseLevelSet_CutStatus_flips (CircularLevelSet (0 : ℚ) 0 5 1) 1 (circleValue (0 : ℚ) 0 5) 1
      [⟨0, 0, 0⟩, ⟨1, 0, 0⟩] (fun _ _ => rfl) (by norm_num)).2.1⟩

/-- C22, as stated, fails on the zero set: on the circle of radius 5 the point
`(5,0,0)` has value `0`, so `IsInside` is false for the circle and false for its
inverse as well. -/
theorem InverseLevelSet_IsInside_no_flip_on_boundary :
    (CircularLevelSet (0 : ℚ) 0 5 0).IsInside ⟨5, 0, 0⟩ = .ok false
      ∧ (InverseLevelSet (CircularLevelSet (0 : ℚ) 0 5 0) 0).IsInside ⟨5, 0, 0⟩ = .ok false
      ∧ ¬ ((InverseLevelSet (CircularLevelSet (0 : ℚ) 0 5 0) 0).IsInside ⟨5, 0, 0⟩ = .ok true
            ↔ (CircularLevelSet (0 : ℚ) 0 5 0).IsInside ⟨5, 0, 0⟩ = .ok false) := by
  have h1 : (CircularLevelSet (0 : ℚ) 0 5 0).IsInside ⟨5, 0, 0⟩ = .ok false := by
    norm_num [CircularLevelSet, LevelSet.IsInside]
  have h2 : (InverseLevelSet (CircularLevelSet (0 : ℚ) 0 5 0) 0).IsInside ⟨5, 0, 0⟩ = .ok false := by
    norm_num [InverseLevelSet, CircularLevelSet, LevelSet.IsInside]
  refine ⟨h1, h2, ?_⟩
  rw [h1, h2]
  intro hiff
  have := hiff.mpr rfl
  simp at this

/-- C22 (amended: off the zero set).  For every level set `L` and every point
`P`, `InverseLevelSet(L).IsInside(P)` is true exactly when `L.IsInside(P)` is
false and `L.GetValue(P)` is not `0`, that is exactly when `L.GetValue(P) > 0`;
where `L.GetValue(P)` is `0` both are false. -/
theorem InverseLevelSet_IsInside_iff (L : LevelSet ℚ) (TOL : ℚ) (P : Point ℚ) :
    ((InverseLevelSet L TOL).IsInside P = .ok true
        ↔ L.IsInside P = .ok false ∧ L.GetValue P ≠ .ok 0)
      ∧ ((InverseLevelSet L TOL).IsInside P = .ok true ↔ ∃ v, L.GetValue P = .ok v ∧ 0 < v)
      ∧ (L.GetValue P = .ok 0 →
          (InverseLevelSet L TOL).IsInside P = .ok false ∧ L.IsInside P = .ok false) := by
  cases hv : L.GetValue P with
  | error e => simp [InverseLevelSet, LevelSet.IsInside, hv]
  | ok v =>
    simp only [InverseLevelSet, LevelSet.IsInside, hv, Except.ok.injEq, decide_eq_true_eq,
      decide_eq_false_iff_not, ne_eq, exists_eq_left', neg_lt_zero, not_lt]
    refine ⟨?_, trivial, ?_⟩
    · constructor
      · intro h
        exact ⟨h.le, h.ne'⟩
      · rintro ⟨h1, h2⟩
        exact lt_of_le_of_ne h1 (Ne.symm h2)
    · intro h0
      subst h0
      simp

/-! ## Normals and their derivatives -/

/-- C23.  For every point `(x,y,z)`, `GetNormal` returns exactly the entries of
`GetGradient`, not renormalised: `(2(x-cX), 2(y-cY), 2(z-cZ))` for
`SphericalLevelSet` and `(2(x-cX), 2(y-cY), 0)` for `CircularLevelSet`.  Its
squared length is four times the squared distance to the centre, so its length
is `2*L` for the distance `L`; it is not `1` in general: at `(1,0,0)` the sphere
of centre `(0,0,0)` has the normal `(2,0,0)`. -/
theorem GetNormal_circular_spherical (cX cY cZ R TOL x y z : ℚ) :
    (SphericalLevelSet cX cY cZ R TOL).GetGradient ⟨x, y, z⟩
        = .ok [2 * (x - cX), 2 * (y - cY), 2 * (z - cZ)]
      ∧ (SphericalLevelSet cX cY cZ R TOL).GetNormal ⟨x, y, z⟩
        = .ok (some ⟨2 * (x - cX), 2 * (y - cY), 2 * (z - cZ)⟩)
      ∧ (CircularLevelSet cX cY R TOL).GetGradient ⟨x, y, z⟩
        = .ok [2 * (x - cX), 2 * (y - cY), 0]
      ∧ (CircularLevelSet cX cY R TOL).GetNormal ⟨x, y, z⟩
        = .ok (some ⟨2 * (x - cX), 2 * (y - cY), 0⟩)
      ∧ (∀ L : ℚ, 0 ≤ L → L * L = (x - cX) ^ 2 + (y - cY) ^ 2 + (z - cZ) ^ 2 →
          0 ≤ 2 * L
            ∧ (2 * L) * (2 * L)
                = (2 * (x - cX)) ^ 2 + (2 * (y - cY)) ^ 2 + (2 * (z - cZ)) ^ 2)
      ∧ (∀ L : ℚ, 0 ≤ L → L * L = (x - cX) ^ 2 + (y - cY) ^ 2 →
          0 ≤ 2 * L
            ∧ (2 * L) * (2 * L) = (2 * (x - cX)) ^ 2 + (2 * (y - cY)) ^ 2 + (0 : ℚ) ^ 2)
      ∧ (SphericalLevelSet (0 : ℚ) 0 0 R TOL).GetNormal ⟨1, 0, 0⟩ = .ok (some ⟨2, 0, 0⟩)
      ∧ ((2 : ℚ) ^ 2 + 0 ^ 2 + 0 ^ 2 ≠ 1) := by
  refine ⟨rfl, rfl, rfl, rfl, ?_, ?_, ?_, by norm_num⟩
  · intro L hL hsq
    exact ⟨by linarith, by linarith⟩
  · intro L hL hsq
    exact ⟨by linarith, by linarith⟩
  · norm_num [SphericalLevelSet, LevelSet.GetNormal, LevelSet.writeNormal]

/-- C24.  For the shapes that do not override `GetGradientDerivatives`, that is
`SphericalLevelSet` and `InverseLevelSet` whatever its inner level set is (a
`CircularLevelSet` included), `GetNormalDerivatives(P)` throws the "Calling the
base class" error for every point `P`, so it yields no matrix. -/
theorem GetNormalDerivatives_calls_base_class (cX cY cZ R TOL : ℚ) (inner : LevelSet ℚ)
    (P : Point ℚ) :
    (SphericalLevelSet cX cY cZ R TOL).GetNormalDerivatives P = .error .callingBaseClass
      ∧ (InverseLevelSet inner TOL).GetNormalDerivatives P = .error .callingBaseClass
      ∧ (InverseLevelSet (CircularLevelSet cX cY R TOL) TOL).GetNormalDerivatives P
          = .error .callingBaseClass
      ∧ (∀ D, (SphericalLevelSet cX cY cZ R TOL).GetNormalDerivatives P ≠ .ok D)
      ∧ (∀ D, (InverseLevelSet inner TOL).GetNormalDerivatives P ≠ .ok D) := by
  refine ⟨rfl, rfl, rfl, ?_, ?_⟩
  · intro D h
    have h1 : (SphericalLevelSet cX cY cZ R TOL).GetNormalDerivatives P
        = .error .callingBaseClass := rfl
    rw [h1] at h
    cases h
  · intro D h
    have h1 : (InverseLevelSet inner TOL).GetNormalDerivatives P
        = .error .callingBaseClass := rfl
    rw [h1] at h
    cases h

/-- C25.  For `CircularLevelSet` and `SphericalLevelSet`, every point `P`, every
coordinate `i` and every step `h ≠ 0`, the central finite difference
`(GetValue(P + h*e_i) - GetValue(P - h*e_i)) / (2h)` is exactly the entry `i` of
`GetGradient(P)`. -/
theorem GetGradient_central_difference (cX cY cZ R TOL : ℚ) (P : Point ℚ) (i : Fin 3) (h : ℚ)
    (hh : h ≠ 0) :
    (∃ vp vm g,
        (CircularLevelSet cX cY R TOL).GetValue (Point.add P (Point.smul h (Point.axis i)))
            = .ok vp
          ∧ (CircularLevelSet cX cY R TOL).GetValue
              (Point.sub P (Point.smul h (Point.axis i))) = .ok vm
          ∧ (CircularLevelSet cX cY R TOL).GetGradient P = .ok g
          ∧ g[i.val]? = some ((vp - vm) / (2 * h)))
      ∧ (∃ vp vm g,
          (SphericalLevelSet cX cY cZ R TOL).GetValue
              (Point.add P (Point.smul h (Point.axis i))) = .ok vp
            ∧ (SphericalLevelSet cX cY cZ R TOL).GetValue
                (Point.sub P (Point.smul h (Point.axis i))) = .ok vm
            ∧ (SphericalLevelSet cX cY cZ R TOL).GetGradient P = .ok g
            ∧ g[i.val]? = some ((vp - vm) / (2 * h))) := by
  constructor
  · refine ⟨_, _, _, rfl, rfl, rfl, ?_⟩
    fin_cases i <;>
      simp [Point.add, Point.sub, Point.smul, Point.axis] <;> field_simp <;> ring
  · refine ⟨_, _, _, rfl, rfl, rfl, ?_⟩
    fin_cases i <;>
      simp [Point.add, Point.sub, Point.smul, Point.axis] <;> field_simp <;> ring

theorem GetGradient_central_difference_witness :
    (1 / 3 : ℚ) ≠ 0
      ∧ ∃ vp vm g,
          (CircularLevelSet (1 : ℚ) 2 5 0).GetValue
              (Point.add ⟨4, 6, 7⟩ (Point.smul (1 / 3) (Point.axis 0))) = .ok vp
            ∧ (CircularLevelSet (1 : ℚ) 2 5 0).GetValue
                (Point.sub ⟨4, 6, 7⟩ (Point.smul (1 / 3) (Point.axis 0))) = .ok vm
            ∧ (CircularLevelSet (1 : ℚ) 2 5 0).GetGradient ⟨4, 6, 7⟩ = .ok g
            ∧ g[(0 : Fin 3).val]? = some ((vp - vm) / (2 * (1 / 3))) :=
  ⟨by norm_num,
    (GetGradient_central_difference 1 2 0 5 0 ⟨4, 6, 7⟩ 0 (1 / 3) (by norm_num)).1⟩

/-- C30.  For every `CircularLevelSet` and every point `P`,
`GetNormalDerivatives(P)` is `GetGradientDerivatives(P)`, the constant matrix
`diag(2, 2, 0)`, and this matrix is the Jacobian of `GetGradient`: for every
step `h ≠ 0` the difference quotient of the entry `i` of the gradient along
the coordinate `j` is the entry `(i, j)`. -/
theorem CircularLevelSet_GetNormalDerivatives (cX cY R TOL : ℚ) (P : Point ℚ) :
    (CircularLevelSet cX cY R TOL).GetNormalDerivatives P
        = (CircularLevelSet cX cY R TOL).GetGradientDerivatives P
      ∧ (CircularLevelSet cX cY R TOL).GetGradientDerivatives P
        = .ok !![2, 0, 0; 0, 2, 0; 0, 0, 0]
      ∧ (!![2, 0, 0; 0, 2, 0; 0, 0, 0] : Matrix (Fin 3) (Fin 3) ℚ)
        = Matrix.diagonal ![2, 2, 0]
      ∧ (∀ (i j : Fin 3) (h : ℚ), h ≠ 0 →
          ∃ g0 gh a b,
            (CircularLevelSet cX cY R TOL).GetGradient P = .ok g0
              ∧ (CircularLevelSet cX cY R TOL).GetGradient
                  (Point.add P (Point.smul h (Point.axis j))) = .ok gh
              ∧ g0[i.val]? = some a ∧ gh[i.val]? = some b
              ∧ (b - a) / h = (!![2, 0, 0; 0, 2, 0; 0, 0, 0] : Matrix (Fin 3) (Fin 3) ℚ) i j) := by
  refine ⟨rfl, rfl, ?_, ?_⟩
  · ext i j
    fin_cases i <;> fin_cases j <;> simp [Matrix.diagonal] <;> rfl
  · intro i j h hh
    fin_cases i <;> fin_cases j <;>
      exact ⟨_, _, _, _, rfl, rfl, rfl, rfl, by
        simp [Point.add, Point.smul, Point.axis]
        first
          | rfl
          | (field_simp; ring)
          | done⟩

/-! ## `GeneratePoints` -/

/-- What the loop of `GeneratePoints` leaves at index `i`: the entries from `j`
to `j + remaining - 1` that exist have been assigned, the others are kept. -/
theorem CircularLevelSet.GeneratePointsLoop_getElem? (cos sin : ℚ → ℚ)
    (cX cY R start_angle small_angle : ℚ) :
    ∀ (remaining j : Nat) (radial_points : List (Point ℚ)) (i : Nat),
      (CircularLevelSet.GeneratePointsLoop cos sin cX cY R start_angle small_angle
          remaining j radial_points)[i]?
        = if j ≤ i ∧ i < j + remaining ∧ i < radial_points.length then
            some ⟨cX + R * cos (start_angle + i * small_angle),
              cY + R * sin (start_angle + i * small_angle), 0⟩
          else radial_points[i]? := by
  intro remaining
  induction remaining with
  | zero =>
    intro j radial_points i
    have hno : ¬ (j ≤ i ∧ i < j + 0 ∧ i < radial_points.length) := by omega
    simp only [CircularLevelSet.GeneratePointsLoop, hno, if_false]
  | succ k ih =>
    intro j radial_points i
    simp only [CircularLevelSet.GeneratePointsLoop]
    rw [ih, List.length_set, List.getElem?_set]
    by_cases hji : j = i
    · subst hji
      by_cases hlen : j < radial_points.length
      · have h1 : ¬ (j + 1 ≤ j ∧ j < j + 1 + k ∧ j < radial_points.length) := by omega
        have h2 : j ≤ j ∧ j < j + (k + 1) ∧ j < radial_points.length := by omega
        rw [if_neg h1, if_pos rfl, if_pos hlen, if_pos h2]
      · have h1 : ¬ (j + 1 ≤ j ∧ j < j + 1 + k ∧ j < radial_points.length) := by omega
        have h2 : ¬ (j ≤ j ∧ j < j + (k + 1) ∧ j < radial_points.length) := by omega
        have h3 : radial_points[j]? = none := List.getElem?_eq_none (by omega)
        rw [if_neg h1, if_pos rfl, if_neg hlen, if_neg h2, h3]
    · by_cases hc : j + 1 ≤ i ∧ i < j + 1 + k ∧ i < radial_points.length
      · have h2 : j ≤ i ∧ i < j + (k + 1) ∧ i < radial_points.length := by omega
        rw [if_pos hc, if_pos h2]
      · have h2 : ¬ (j ≤ i ∧ i < j + (k + 1) ∧ i < radial_points.length) := by omega
        rw [if_neg hc, if_neg hji, if_neg h2]

theorem CircularLevelSet.GeneratePoints_eq_map (cos sin : ℚ → ℚ)
    (cX cY R start_angle end_angle : ℚ) (N : Nat) :
    CircularLevelSet.GeneratePoints cos sin cX cY R start_angle end_angle N
      = (List.range N).map (fun j : Nat =>
          (⟨cX + R * cos (start_angle + j * (end_angle - start_angle) / N),
            cY + R * sin (start_angle + j * (end_angle - start_angle) / N), 0⟩ : Point ℚ)) := by
  apply List.ext_getElem?
  intro i
  simp only [CircularLevelSet.GeneratePoints]
  rw [CircularLevelSet.GeneratePointsLoop_getElem?, List.length_replicate, List.getElem?_map]
  by_cases hi : i < N
  · have h1 : 0 ≤ i ∧ i < 0 + N ∧ i < N := by omega
    rw [if_pos h1, List.getElem?_range hi]
    simp only [Option.map_some', mul_div_assoc]
  · have h1 : ¬ (0 ≤ i ∧ i < 0 + N ∧ i < N) := by omega
    rw [if_neg h1, List.getElem?_eq_none (by simpa using hi),
      List.getElem?_eq_none (by simpa using hi)]
    rfl

/-- C26, as stated, fails when the two angles coincide: with
`start_angle = end_angle = 0` and one point, the angle that is sampled is
`a_0 = 0`, which is `end_angle`. -/
theorem CircularLevelSet.GeneratePoints_samples_end_angle_when_equal :
    (1 : Nat) ≥ 1
      ∧ (0 : ℚ) + (0 : Nat) * ((0 : ℚ) - 0) / (1 : Nat) = 0
      ∧ CircularLevelSet.GeneratePoints (fun a => 1 - a ^ 2 / 2) (fun a => a) 0 0 5 0 0 1
          = [⟨0 + 5 * (fun a : ℚ => 1 - a ^ 2 / 2) 0, 0 + 5 * (fun a : ℚ => a) 0, 0⟩] := by
  refine ⟨le_refl _, by norm_num, ?_⟩
  norm_num [CircularLevelSet.GeneratePoints, CircularLevelSet.GeneratePointsLoop]

/-- C26 (amended: `end_angle` is left out when it differs from `start_angle`).
For every `CircularLevelSet`, angles `start_angle`, `end_angle` and count
`N ≥ 1`, `GeneratePoints(start_angle, end_angle, N)` returns exactly `N` points,
the `j`-th being `(cX + R*cos(a_j), cY + R*sin(a_j), 0)` with
`a_j = start_angle + j*(end_angle - start_angle)/N`: consecutive angles differ
by `(end_angle - start_angle)/N`, `a_0 = start_angle`, `end_angle` would be the
angle of index `N`, and no `a_j` with `j < N` is `end_angle` when
`end_angle ≠ start_angle`.  The result is the same list whenever the arguments
and the circle parameters are the same. -/
theorem CircularLevelSet.GeneratePoints_spec (cos sin : ℚ → ℚ)
    (cX cY R start_angle end_angle : ℚ) (N : Nat) (hN : 1 ≤ N) :
    (CircularLevelSet.GeneratePoints cos sin cX cY R start_angle end_angle N).length = N
      ∧ (∀ j : Nat, j < N →
          (CircularLevelSet.GeneratePoints cos sin cX cY R start_angle end_angle N)[j]?
            = some ⟨cX + R * cos (start_angle + j * (end_angle - start_angle) / N),
                cY + R * sin (start_angle + j * (end_angle - start_angle) / N), 0⟩)
      ∧ (∀ j : Nat,
          (start_angle + (j + 1 : Nat) * (end_angle - start_angle) / N)
              - (start_angle + j * (end_angle - start_angle) / N)
            = (end_angle - start_angle) / N)
      ∧ start_angle + (0 : Nat) * (end_angle - start_angle) / N = start_angle
      ∧ start_angle + (N : Nat) * (end_angle - start_angle) / N = end_angle
      ∧ (end_angle ≠ start_angle →
          ∀ j : Nat, j < N → start_angle + j * (end_angle - start_angle) / N ≠ end_angle) := by
  have hN0 : (N : ℚ) ≠ 0 := by
    have : (0 : ℚ) < N := by exact_mod_cast hN
    exact this.ne'
  refine ⟨?_, ?_, ?_, ?_, ?_, ?_⟩
  · rw [CircularLevelSet.GeneratePoints_eq_map]
    simp
  · intro j hj
    rw [CircularLevelSet.GeneratePoints_eq_map, List.getElem?_map, List.getElem?_range hj]
    rfl
  · intro j
    push_cast
    field_simp
    ring
  · simp
  · field_simp
  · intro hne j hj heq
    have hjN : (j : ℚ) < N := by exact_mod_cast hj
    have h1 : (j : ℚ) * (end_angle - start_angle) = N * (end_angle - start_angle) := by
      field_simp at heq
      linarith
    have h2 : ((j : ℚ) - N) * (end_angle - start_angle) = 0 := by linarith
    rcases mul_eq_zero.mp h2 with h3 | h3
    · linarith
    · exact hne (by linarith)

theorem CircularLevelSet.GeneratePoints_spec_witness :
    (1 : Nat) ≤ 4
      ∧ (CircularLevelSet.GeneratePoints (fun a : ℚ => 1 - a ^ 2 / 2) (fun a => a) 0 0 5 0 2 4).length
          = 4 :=
  ⟨by norm_num,
    (CircularLevelSet.GeneratePoints_spec (fun a : ℚ => 1 - a ^ 2 / 2) (fun a => a) 0 0 5 0 2 4
      (by norm_num)).1⟩

/-! ## The tolerance of a `BRep` -/

theorem getElem?_append_singleton_length {α : Type} (l : List α) (x : α) :
    (l ++ [x])[l.length]? = some x := by
  rw [List.getElem?_append_right (le_refl _)]
  simp

/-- The tolerance of a clone made by `CloneLevelSet`: the default one for an
object of class `LevelSet` itself, the tolerance of the original for the other
classes. -/
theorem Heap.CloneLevelSet_tolerance (defaultTOL : ℚ) (fuel : Nat) (h h1 : Heap ℚ) (a k : Nat)
    (e : Heap.CloneLevelSet defaultTOL fuel h a = some (h1, k)) :
    ∃ o, h[a]? = some o
      ∧ ((∃ t, o = .levelSet t) → Heap.GetTolerance h1 k = some defaultTOL)
      ∧ ((¬ ∃ t, o = .levelSet t) → Heap.GetTolerance h1 k = some o.getTOL) := by
  cases fuel with
  | zero => simp [Heap.CloneLevelSet] at e
  | succ n =>
    rw [Heap.CloneLevelSet] at e
    cases ho : h[a]? with
    | none => simp [ho] at e
    | some o =>
      refine ⟨o, rfl, ?_⟩
      cases o with
      | levelSet t =>
        simp only [ho, Heap.alloc, Option.some.injEq, Prod.mk.injEq] at e
        obtain ⟨rfl, rfl⟩ := e
        refine ⟨fun _ => ?_, fun hn => absurd ⟨t, rfl⟩ hn⟩
        simp [Heap.GetTolerance, getElem?_append_singleton_length, LevelSetObject.getTOL]
      | circular t x y r =>
        simp only [ho, Heap.alloc, Option.some.injEq, Prod.mk.injEq] at e
        obtain ⟨rfl, rfl⟩ := e
        refine ⟨?_, fun _ => ?_⟩
        · rintro ⟨t0, h0⟩
          cases h0
        · simp [Heap.GetTolerance, getElem?_append_singleton_length, LevelSetObject.getTOL]
      | spherical t x y z r =>
        simp only [ho, Heap.alloc, Option.some.injEq, Prod.mk.injEq] at e
        obtain ⟨rfl, rfl⟩ := e
        refine ⟨?_, fun _ => ?_⟩
        · rintro ⟨t0, h0⟩
          cases h0
        · simp [Heap.GetTolerance, getElem?_append_singleton_length, LevelSetObject.getTOL]
      | inverse t p =>
        simp only [ho] at e
        cases hr : Heap.CloneLevelSet defaultTOL n h p with
        | none => simp [hr] at e
        | some res =>
          obtain ⟨h2, p1⟩ := res
          simp only [hr, Heap.alloc, Option.some.injEq, Prod.mk.injEq] at e
          obtain ⟨rfl, rfl⟩ := e
          refine ⟨?_, fun _ => ?_⟩
          · rintro ⟨t0, h0⟩
            cases h0
          · simp [Heap.GetTolerance, getElem?_append_singleton_length, LevelSetObject.getTOL]

theorem Heap.GetTolerance_SetTolerance (h : Heap ℚ) (a : Nat) (TOL t0 : ℚ)
    (h0 : Heap.GetTolerance h a = some t0) :
    Heap.GetTolerance (Heap.SetTolerance h a TOL) a = some TOL := by
  unfold Heap.GetTolerance at h0
  cases ho : h[a]? with
  | none => simp [ho] at h0
  | some o =>
    have hlt : a < h.length := by
      by_contra hlt
      rw [List.getElem?_eq_none (by omega)] at ho
      cases ho
    simp only [Heap.GetTolerance, Heap.SetTolerance, ho, List.getElem?_set_self hlt,
      Option.map_some']
    cases o <;> rfl

/-- The tolerance of the object a pointer points to after `SetTolerance(TOL)` is
`TOL`. -/
theorem BRepRef.ref_GetTolerance_SetTolerance (h : Heap ℚ) (r : BRepRef ℚ) (TOL t0 : ℚ)
    (h0 : r.GetTolerance h = some t0) :
    (r.SetTolerance h TOL).2.GetTolerance (r.SetTolerance h TOL).1 = some TOL := by
  cases r with
  | brep b => rfl
  | levelSet a => exact Heap.GetTolerance_SetTolerance h a TOL t0 h0

/-- The tolerance of a clone is the tolerance of the original, except for an
object of class `LevelSet` itself, whose clone has the default tolerance. -/
theorem BRepRef.GetTolerance_CloneBRep (defaultTOL : ℚ) (fuel : Nat) (h h1 : Heap ℚ)
    (r r1 : BRepRef ℚ) (t0 : ℚ) (h0 : r.GetTolerance h = some t0)
    (e : r.CloneBRep defaultTOL fuel h = some (h1, r1)) :
    ((∀ a t, r = .levelSet a → h[a]? ≠ some (.levelSet t)) → r1.GetTolerance h1 = some t0)
      ∧ (∀ a t, r = .levelSet a → h[a]? = some (.levelSet t) →
          r1.GetTolerance h1 = some defaultTOL) := by
  cases r with
  | brep b =>
    simp only [BRepRef.CloneBRep, Option.some.injEq, Prod.mk.injEq] at e
    obtain ⟨rfl, rfl⟩ := e
    refine ⟨fun _ => h0, fun a t ha => by cases ha⟩
  | levelSet a =>
    simp only [BRepRef.CloneBRep] at e
    cases hr : Heap.CloneLevelSet defaultTOL fuel h a with
    | none => simp [hr] at e
    | some res =>
      obtain ⟨h2, k⟩ := res
      simp only [hr, Option.some.injEq, Prod.mk.injEq] at e
      obtain ⟨rfl, rfl⟩ := e
      obtain ⟨o, ho, hls, hother⟩ := Heap.CloneLevelSet_tolerance defaultTOL fuel h h2 a k hr
      have hto : o.getTOL = t0 := by
        simp only [BRepRef.GetTolerance, Heap.GetTolerance, ho, Option.map_some',
          Option.some.injEq] at h0
        exact h0
      constructor
      · intro hnot
        show Heap.GetTolerance h2 k = some t0
        rw [← hto]
        apply hother
        rintro ⟨t, rfl⟩
        exact hnot a t rfl ho
      · intro a1 t ha hat
        cases ha
        show Heap.GetTolerance h2 k = some defaultTOL
        apply hls
        rw [ho] at hat
        exact ⟨t, Option.some.inj hat⟩

theorem BRepOp.run_tolerance_nonneg (defaultTOL : ℚ) (fuel : Nat) (hd : 0 ≤ defaultTOL) :
    ∀ (ops : List (BRepOp ℚ)) (h : Heap ℚ) (r : BRepRef ℚ) (t0 : ℚ),
      r.GetTolerance h = some t0 → 0 ≤ t0 →
      (∀ TOL, BRepOp.setTolerance TOL ∈ ops → 0 ≤ TOL) →
      ∀ h1 r1, BRepOp.run defaultTOL fuel (h, r) ops = some (h1, r1) →
        ∃ t, r1.GetTolerance h1 = some t ∧ 0 ≤ t := by
  intro ops
  induction ops with
  | nil =>
    intro h r t0 h0 ht0 _ h1 r1 e
    simp only [BRepOp.run, Option.some.injEq, Prod.mk.injEq] at e
    obtain ⟨rfl, rfl⟩ := e
    exact ⟨t0, h0, ht0⟩
  | cons op rest ih =>
    intro h r t0 h0 ht0 hops h1 r1 e
    cases op with
    | setTolerance TOL =>
      simp only [BRepOp.run] at e
      exact ih _ _ TOL (BRepRef.ref_GetTolerance_SetTolerance h r TOL t0 h0)
        (hops TOL (List.mem_cons_self _ _))
        (fun T hT => hops T (List.mem_cons_of_mem _ hT)) h1 r1 e
    | clone =>
      simp only [BRepOp.run] at e
      cases hc : r.CloneBRep defaultTOL fuel h with
      | none => simp [hc] at e
      | some s1 =>
        obtain ⟨h2, r2⟩ := s1
        simp only [hc] at e
        obtain ⟨hkeep, hdef⟩ := BRepRef.GetTolerance_CloneBRep defaultTOL fuel h h2 r r2 t0 h0 hc
        by_cases hls : ∃ a t, r = .levelSet a ∧ h[a]? = some (.levelSet t)
        · obtain ⟨a, t, ha, hat⟩ := hls
          exact ih h2 r2 defaultTOL (hdef a t ha hat) hd
            (fun T hT => hops T (List.mem_cons_of_mem _ hT)) h1 r1 e
        · exact ih h2 r2 t0 (hkeep (fun a t ha hat => hls ⟨a, t, ha, hat⟩)) ht0
            (fun T hT => hops T (List.mem_cons_of_mem _ hT)) h1 r1 e

/-- The class of an object is not changed by `SetTolerance`: an object that is not
of class `InverseLevelSet` stays so. -/
theorem LevelSetObject.setTOL_ne_inverse (o : LevelSetObject ℚ) (TOL : ℚ)
    (ho : ∀ t p, o ≠ .inverse t p) : ∀ t p, o.setTOL TOL ≠ .inverse t p := by
  intro t p
  cases o with
  | levelSet t0 => simp [LevelSetObject.setTOL]
  | circular t0 x y r => simp [LevelSetObject.setTOL]
  | spherical t0 x y z r => simp [LevelSetObject.setTOL]
  | inverse t0 p0 => exact absurd rfl (ho t0 p0)

/-- A sequence of `SetTolerance` calls and clones that starts from an object of
class `LevelSet`, `CircularLevelSet` or `SphericalLevelSet` runs to its end. -/
theorem BRepOp.run_levelSet_returns (defaultTOL : ℚ) (fuel : Nat) :
    ∀ (ops : List (BRepOp ℚ)) (h : Heap ℚ) (a : Nat) (o : LevelSetObject ℚ),
      h[a]? = some o → (∀ t p, o ≠ .inverse t p) →
      ∃ h1 r1, BRepOp.run defaultTOL (fuel + 1) (h, .levelSet a) ops = some (h1, r1) := by
  intro ops
  induction ops with
  | nil =>
    intro h a o _ _
    exact ⟨h, .levelSet a, rfl⟩
  | cons op rest ih =>
    intro h a o ho hno
    cases op with
    | setTolerance TOL =>
      simp only [BRepOp.run, BRepRef.SetTolerance]
      have hlt : a < h.length := by
        by_contra hlt
        rw [List.getElem?_eq_none (by omega)] at ho
        cases ho
      exact ih _ a (o.setTOL TOL)
        (by simp only [Heap.SetTolerance, ho, List.getElem?_set_self hlt])
        (LevelSetObject.setTOL_ne_inverse o TOL hno)
    | clone =>
      cases o with
      | levelSet t0 =>
        simp only [BRepOp.run, BRepRef.CloneBRep, Heap.CloneLevelSet, ho, Heap.alloc]
        exact ih _ _ (.levelSet defaultTOL) (by simp) (by simp)
      | circular t0 x y r =>
        simp only [BRepOp.run, BRepRef.CloneBRep, Heap.CloneLevelSet, ho, Heap.alloc]
        exact ih _ _ (.circular t0 x y r) (by simp) (by simp)
      | spherical t0 x y z r =>
        simp only [BRepOp.run, BRepRef.CloneBRep, Heap.CloneLevelSet, ho, Heap.alloc]
        exact ih _ _ (.spherical t0 x y z r) (by simp) (by simp)
      | inverse t0 p0 => exact absurd rfl (hno t0 p0)

/-- A sequence of `SetTolerance` calls and clones that starts from an object of
class `BRep` itself runs to its end. -/
theorem BRepOp.run_brep_returns (defaultTOL : ℚ) (fuel : Nat) :
    ∀ (ops : List (BRepOp ℚ)) (h : Heap ℚ) (b : BRep ℚ),
      ∃ h1 r1, BRepOp.run defaultTOL fuel (h, .brep b) ops = some (h1, r1) := by
  intro ops
  induction ops with
  | nil =>
    intro h b
    exact ⟨h, .brep b, rfl⟩
  | cons op rest ih =>
    intro h b
    cases op with
    | setTolerance TOL =>
      simp only [BRepOp.run, BRepRef.SetTolerance]
      exact ih _ _
    | clone =>
      simp only [BRepOp.run, BRepRef.CloneBRep]
      exact ih _ _

/-- C29, as stated, fails: `SetTolerance` stores any value.  From a `BRep` of
tolerance `0`, the call `SetTolerance(-1)` followed by a clone leaves the
tolerance `-1`. -/
theorem BRep.tolerance_negative_after_SetTolerance :
    0 ≤ (BRep.base (0 : ℚ)).GetTolerance
      ∧ ∃ h1 r1, BRepOp.run (0 : ℚ) 1 ([], .brep (BRep.base 0)) [.setTolerance (-1), .clone]
            = some (h1, r1)
          ∧ r1.GetTolerance h1 = some (-1) ∧ ¬ (0 : ℚ) ≤ -1 :=
  ⟨le_refl _, [], .brep ((BRep.base (0 : ℚ)).SetTolerance (-1)).CloneBRep, rfl, rfl, by norm_num⟩

/-- C29 (amended: the arguments of `SetTolerance` are not checked, and the clone
of an object of class `LevelSet` is default-constructed).  `GetTolerance()`
returns the value given to `SetTolerance`; a clone holds the tolerance of its
original, except that the clone of an object of class `LevelSet` itself is
`new LevelSet()` and holds the tolerance that the default constructor of `BRep`
sets.  So, when that default tolerance is `≥ 0`, starting from an object whose
tolerance is `≥ 0`, after any sequence of clones and of `SetTolerance` calls
whose arguments are all `≥ 0`, `GetTolerance() ≥ 0`.  The sequence runs to its
end when it starts from an object of class `BRep`, `LevelSet`,
`CircularLevelSet` or `SphericalLevelSet`. -/
theorem BRep.tolerance_nonneg_of_nonneg_arguments (defaultTOL : ℚ) (fuel : Nat) (h : Heap ℚ)
    (r : BRepRef ℚ) (t0 : ℚ) (ops : List (BRepOp ℚ)) (hd : 0 ≤ defaultTOL)
    (h0 : r.GetTolerance h = some t0) (ht0 : 0 ≤ t0)
    (hops : ∀ TOL, BRepOp.setTolerance TOL ∈ ops → 0 ≤ TOL) :
    (∀ h1 r1, BRepOp.run defaultTOL fuel (h, r) ops = some (h1, r1) →
        ∃ t, r1.GetTolerance h1 = some t ∧ 0 ≤ t)
      ∧ (∀ TOL, (r.SetTolerance h TOL).2.GetTolerance (r.SetTolerance h TOL).1 = some TOL)
      ∧ (∀ h1 r1, r.CloneBRep defaultTOL fuel h = some (h1, r1) →
          ((∀ a t, r = .levelSet a → h[a]? ≠ some (.levelSet t)) →
              r1.GetTolerance h1 = some t0)
            ∧ (∀ a t, r = .levelSet a → h[a]? = some (.levelSet t) →
                r1.GetTolerance h1 = some defaultTOL))
      ∧ (∀ b, r = .brep b → ∃ h1 r1, BRepOp.run defaultTOL fuel (h, r) ops = some (h1, r1))
      ∧ (∀ a o, r = .levelSet a → h[a]? = some o → (∀ t p, o ≠ .inverse t p) →
          ∃ h1 r1, BRepOp.run defaultTOL (fuel + 1) (h, r) ops = some (h1, r1)) :=
  ⟨BRepOp.run_tolerance_nonneg defaultTOL fuel hd ops h r t0 h0 ht0 hops,
    fun TOL => BRepRef.ref_GetTolerance_SetTolerance h r TOL t0 h0,
    fun h1 r1 e => BRepRef.GetTolerance_CloneBRep defaultTOL fuel h h1 r r1 t0 h0 e,
    fun b hb => hb ▸ BRepOp.run_brep_returns defaultTOL fuel ops h b,
    fun a o ha ho hno => ha ▸ BRepOp.run_levelSet_returns defaultTOL fuel ops h a o ho hno⟩

theorem BRep.tolerance_nonneg_of_nonneg_arguments_witness :
    BRepOp.run (1 / 100 : ℚ) 1 ([.levelSet 0], .levelSet 0)
        [.setTolerance 3, .clone, .setTolerance (1 / 2)]
        = some ([.levelSet 3, .levelSet (1 / 2)], .levelSet 1)
      ∧ ∃ t, (BRepRef.levelSet 1 : BRepRef ℚ).GetTolerance [.levelSet 3, .levelSet (1 / 2)] = some t
          ∧ 0 ≤ t := by
  have hrun : BRepOp.run (1 / 100 : ℚ) 1 ([.levelSet 0], .levelSet 0)
      [.setTolerance 3, .clone, .setTolerance (1 / 2)]
      = some ([.levelSet 3, .levelSet (1 / 2)], .levelSet 1) := by
    simp [BRepOp.run, BRepRef.SetTolerance, BRepRef.CloneBRep, Heap.SetTolerance,
      Heap.CloneLevelSet, Heap.alloc, LevelSetObject.setTOL]
  exact ⟨hrun, (BRep.tolerance_nonneg_of_nonneg_arguments (1 / 100) 1 [.levelSet 0] (.levelSet 0)
    0 [.setTolerance 3, .clone, .setTolerance (1 / 2)] (by norm_num) rfl (le_refl _) (by
      intro TOL hT
      simp only [List.mem_cons, BRepOp.setTolerance.injEq, List.mem_singleton,
        List.not_mem_nil, or_false, false_or] at hT
      rcases hT with rfl | hT | rfl
      · norm_num
      · cases hT
      · norm_num)).1 _ _ hrun⟩

/-! ## Clones and aliasing -/

theorem Heap.lt_length_of_getElem? (h : Heap ℚ) (a : Nat) (o : LevelSetObject ℚ)
    (ho : h[a]? = some o) : a < h.length := by
  by_contra hlt
  rw [List.getElem?_eq_none (by omega)] at ho
  cases ho

theorem Heap.SetTolerance_getElem?_ne (h : Heap ℚ) (a : Nat) (TOL : ℚ) (c : Nat) (hc : a ≠ c) :
    (Heap.SetTolerance h a TOL)[c]? = h[c]? := by
  unfold Heap.SetTolerance
  cases ho : h[a]? with
  | none => rfl
  | some o => exact List.getElem?_set_ne hc

theorem Heap.pSetLevelSet_getElem?_ne (h : Heap ℚ) (a q : Nat) (c : Nat) (hc : a ≠ c) :
    (Heap.pSetLevelSet h a q)[c]? = h[c]? := by
  unfold Heap.pSetLevelSet
  cases ho : h[a]? with
  | none => rfl
  | some o =>
    cases o with
    | inverse t p => exact List.getElem?_set_ne hc
    | levelSet t => rfl
    | circular t x y r => rfl
    | spherical t x y z r => rfl

/-- The level set at an address depends only on the objects of the store it was
computed in: a store that agrees with it on its addresses gives the same. -/
theorem Heap.toLevelSet_congr :
    ∀ (fuel : Nat) (h h2 : Heap ℚ) (a : Nat) (L : LevelSet ℚ),
      Heap.toLevelSet fuel h a = some L → (∀ c, c < h.length → h2[c]? = h[c]?) →
      Heap.toLevelSet fuel h2 a = some L := by
  intro fuel
  induction fuel with
  | zero =>
    intro h h2 a L hL _
    simp [Heap.toLevelSet] at hL
  | succ n ih =>
    intro h h2 a L hL hag
    rw [Heap.toLevelSet] at hL ⊢
    cases ho : h[a]? with
    | none => simp [ho] at hL
    | some o =>
      have ho2 : h2[a]? = some o := by
        rw [hag a (Heap.lt_length_of_getElem? h a o ho), ho]
      rw [ho] at hL
      rw [ho2]
      cases o with
      | levelSet t => exact hL
      | circular t x y r => exact hL
      | spherical t x y z r => exact hL
      | inverse t p =>
        cases hp : Heap.toLevelSet n h p with
        | none => simp [hp] at hL
        | some Lp =>
          simp only [hp] at hL
          simp only [ih h h2 p Lp hp hag]
          exact hL

/-- What `CloneLevelSet` does: it only appends objects, the clone is one of
them, and the level set that the clone is has the values of the original; this
holds in every store that agrees with the new one on the appended objects. -/
theorem Heap.CloneLevelSet_fresh (defaultTOL : ℚ) :
    ∀ (fuel : Nat) (h : Heap ℚ) (a : Nat) (L : LevelSet ℚ),
      Heap.toLevelSet fuel h a = some L →
      ∃ ext k, Heap.CloneLevelSet defaultTOL fuel h a = some (h ++ ext, k)
        ∧ h.length ≤ k ∧ k < (h ++ ext).length
        ∧ ∀ h2 : (Heap ℚ), (∀ c, h.length ≤ c → c < (h ++ ext).length → h2[c]? = (h ++ ext)[c]?) →
            ∃ L1, Heap.toLevelSet fuel h2 k = some L1
              ∧ ∀ P, L1.GetValue P = L.GetValue P := by
  intro fuel
  induction fuel with
  | zero =>
    intro h a L hL
    simp [Heap.toLevelSet] at hL
  | succ n ih =>
    intro h a L hL
    rw [Heap.toLevelSet] at hL
    cases ho : h[a]? with
    | none => simp [ho] at hL
    | some o =>
      rw [ho] at hL
      cases o with
      | levelSet t =>
        simp only [Option.some.injEq] at hL
        subst hL
        refine ⟨[.levelSet defaultTOL], h.length, by simp [Heap.CloneLevelSet, ho, Heap.alloc],
          le_refl _, by simp, ?_⟩
        intro h2 hag
        have hk : h2[h.length]? = some (.levelSet defaultTOL) := by
          rw [hag h.length (le_refl _) (by simp)]
          simp
        exact ⟨LevelSet.base defaultTOL, by simp [Heap.toLevelSet, hk], fun _ => rfl⟩
      | circular t x y r =>
        simp only [Option.some.injEq] at hL
        subst hL
        refine ⟨[.circular t x y r], h.length, by simp [Heap.CloneLevelSet, ho, Heap.alloc],
          le_refl _, by simp, ?_⟩
        intro h2 hag
        have hk : h2[h.length]? = some (.circular t x y r) := by
          rw [hag h.length (le_refl _) (by simp)]
          simp
        exact ⟨CircularLevelSet x y r t, by simp [Heap.toLevelSet, hk], fun _ => rfl⟩
      | spherical t x y z r =>
        simp only [Option.some.injEq] at hL
        subst hL
        refine ⟨[.spherical t x y z r], h.length,
          by simp [Heap.CloneLevelSet, ho, Heap.alloc], le_refl _, by simp, ?_⟩
        intro h2 hag
        have hk : h2[h.length]? = some (.spherical t x y z r) := by
          rw [hag h.length (le_refl _) (by simp)]
          simp
        exact ⟨SphericalLevelSet x y z r t, by simp [Heap.toLevelSet, hk], fun _ => rfl⟩
      | inverse t p =>
        cases hp : Heap.toLevelSet n h p with
        | none => simp [hp] at hL
        | some Lp =>
          simp only [hp, Option.some.injEq] at hL
          subst hL
          obtain ⟨ext1, p1, e1, f1, f2, v1⟩ := ih h p Lp hp
          refine ⟨ext1 ++ [.inverse t p1], (h ++ ext1).length,
            by simp [Heap.CloneLevelSet, ho, e1, Heap.alloc], by simp, by simp, ?_⟩
          intro h2 hag
          have hk : h2[(h ++ ext1).length]? = some (.inverse t p1) := by
            rw [hag (h ++ ext1).length (by simp) (by simp), ← List.append_assoc]
            exact getElem?_append_singleton_length (h ++ ext1) _
          have hag1 : ∀ c, h.length ≤ c → c < (h ++ ext1).length →
              h2[c]? = (h ++ ext1)[c]? := by
            intro c hc1 hc2
            rw [hag c hc1 (by simp at hc2 ⊢; omega), ← List.append_assoc,
              List.getElem?_append_left hc2]
          obtain ⟨Lp1, e2, g2⟩ := v1 h2 hag1
          refine ⟨InverseLevelSet Lp1 t, by rw [Heap.toLevelSet, hk]; simp only [e2], ?_⟩
          intro P
          simp [InverseLevelSet, g2 P]

theorem Heap.lt_length_of_toLevelSet (fuel : Nat) (h : Heap ℚ) (a : Nat) (L : LevelSet ℚ)
    (hL : Heap.toLevelSet fuel h a = some L) : a < h.length := by
  cases fuel with
  | zero => simp [Heap.toLevelSet] at hL
  | succ n =>
    rw [Heap.toLevelSet] at hL
    cases ho : h[a]? with
    | none => simp [ho] at hL
    | some o => exact Heap.lt_length_of_getElem? h a o ho

/-- C27.  For every circular or spherical object `c` of a store, the clone
`k = c.CloneLevelSet()` is a new object with the same members: `k.GetValue(P)`
is `c.GetValue(P)` for every point `P` and `k.GetTolerance()` is
`c.GetTolerance()`; and after `k.SetTolerance(t)`, for any `t`, the object `c`,
its tolerance and its `GetValue` are unchanged. -/
theorem Heap.clone_of_shape_independent (defaultTOL : ℚ) (h : Heap ℚ) (c : Nat)
    (o : LevelSetObject ℚ) (fuel : Nat) (hc : h[c]? = some o)
    (ho : (∃ t x y r, o = .circular t x y r) ∨ (∃ t x y z r, o = .spherical t x y z r)) :
    ∃ h1 k L, Heap.CloneLevelSet defaultTOL (fuel + 1) h c = some (h1, k) ∧ k ≠ c
      ∧ h1[k]? = some o ∧ h1[c]? = some o
      ∧ Heap.toLevelSet (fuel + 1) h c = some L
      ∧ (∀ P, Heap.GetValue (fuel + 1) h1 k P = some (L.GetValue P)
          ∧ Heap.GetValue (fuel + 1) h c P = some (L.GetValue P))
      ∧ Heap.GetTolerance h1 k = Heap.GetTolerance h c
      ∧ ∀ t, Heap.GetTolerance (Heap.SetTolerance h1 k t) k = some t
          ∧ Heap.GetTolerance (Heap.SetTolerance h1 k t) c = Heap.GetTolerance h c
          ∧ (Heap.SetTolerance h1 k t)[c]? = h[c]?
          ∧ ∀ P, Heap.GetValue (fuel + 1) (Heap.SetTolerance h1 k t) c P
              = Heap.GetValue (fuel + 1) h c P := by
  have hlt : c < h.length := Heap.lt_length_of_getElem? h c o hc
  have hkc : h.length ≠ c := by omega
  have hk : (h ++ [o])[h.length]? = some o := getElem?_append_singleton_length h o
  have hc1 : (h ++ [o])[c]? = some o := by rw [List.getElem?_append_left hlt, hc]
  have hset : ∀ t, Heap.SetTolerance (h ++ [o]) h.length t
      = (h ++ [o]).set h.length (o.setTOL t) := by
    intro t
    simp only [Heap.SetTolerance, hk]
  have hsetc : ∀ t, (Heap.SetTolerance (h ++ [o]) h.length t)[c]? = some o := by
    intro t
    rw [Heap.SetTolerance_getElem?_ne _ _ _ _ hkc, hc1]
  have hsetk : ∀ t, (Heap.SetTolerance (h ++ [o]) h.length t)[h.length]? = some (o.setTOL t) := by
    intro t
    rw [hset, List.getElem?_set_self (by simp)]
  rcases ho with ⟨t0, x, y, r, rfl⟩ | ⟨t0, x, y, z, r, rfl⟩
  · refine ⟨h ++ [.circular t0 x y r], h.length, CircularLevelSet x y r t0,
      by simp [Heap.CloneLevelSet, hc, Heap.alloc], hkc, hk, hc1,
      by simp [Heap.toLevelSet, hc], ?_, ?_, ?_⟩
    · intro P
      exact ⟨by simp [Heap.GetValue, Heap.toLevelSet, hk],
        by simp [Heap.GetValue, Heap.toLevelSet, hc]⟩
    · simp [Heap.GetTolerance, hk, hc]
    · intro t
      refine ⟨by simp [Heap.GetTolerance, hsetk, LevelSetObject.setTOL, LevelSetObject.getTOL],
        by simp [Heap.GetTolerance, hsetc, hc], by rw [hsetc, hc], ?_⟩
      intro P
      simp [Heap.GetValue, Heap.toLevelSet, hsetc, hc]
  · refine ⟨h ++ [.spherical t0 x y z r], h.length, SphericalLevelSet x y z r t0,
      by simp [Heap.CloneLevelSet, hc, Heap.alloc], hkc, hk, hc1,
      by simp [Heap.toLevelSet, hc], ?_, ?_, ?_⟩
    · intro P
      exact ⟨by simp [Heap.GetValue, Heap.toLevelSet, hk],
        by simp [Heap.GetValue, Heap.toLevelSet, hc]⟩
    · simp [Heap.GetTolerance, hk, hc]
    · intro t
      refine ⟨by simp [Heap.GetTolerance, hsetk, LevelSetObject.setTOL, LevelSetObject.getTOL],
        by simp [Heap.GetTolerance, hsetc, hc], by rw [hsetc, hc], ?_⟩
      intro P
      simp [Heap.GetValue, Heap.toLevelSet, hsetc, hc]

theorem Heap.clone_of_shape_independent_witness :
    ∃ (h1 : Heap ℚ) (k : Nat) (L : LevelSet ℚ),
      Heap.CloneLevelSet 0 1 [.circular (1 / 10) 0 0 5] 0 = some (h1, k) ∧ k ≠ 0
        ∧ h1[k]? = some (.circular (1 / 10) 0 0 5) ∧ h1[0]? = some (.circular (1 / 10) 0 0 5)
        ∧ Heap.toLevelSet 1 [.circular (1 / 10) 0 0 5] 0 = some L
        ∧ (∀ P, Heap.GetValue 1 h1 k P = some (L.GetValue P)
            ∧ Heap.GetValue 1 [.circular (1 / 10) 0 0 5] 0 P = some (L.GetValue P))
        ∧ Heap.GetTolerance h1 k = Heap.GetTolerance [.circular (1 / 10) 0 0 5] 0
        ∧ ∀ t, Heap.GetTolerance (Heap.SetTolerance h1 k t) k = some t
            ∧ Heap.GetTolerance (Heap.SetTolerance h1 k t) 0
                = Heap.GetTolerance [.circular (1 / 10) 0 0 5] 0
            ∧ (Heap.SetTolerance h1 k t)[0]? = [LevelSetObject.circular (1 / 10 : ℚ) 0 0 5][0]?
            ∧ ∀ P, Heap.GetValue 1 (Heap.SetTolerance h1 k t) 0 P
                = Heap.GetValue 1 [.circular (1 / 10) 0 0 5] 0 P :=
  Heap.clone_of_shape_independent 0 [.circular (1 / 10) 0 0 5] 0 (.circular (1 / 10) 0 0 5) 0
    rfl (Or.inl ⟨_, _, _, _, rfl⟩)

/-- C28.  For every `InverseLevelSet` object `d` of a store, with inner level
set at `p`, whose chain of inner level sets is well formed: the clone
`k = d.CloneLevelSet()` is a new inverse object with the tolerance of `d`, whose
inner level set `p1` is a new object too, the one that `CloneLevelSet` makes of
the inner level set of `d` (a member-wise copy of a circular or spherical
object, an inverse object with the same tolerance and an inner clone of its
own, and for an object of the class `LevelSet` itself the `new LevelSet()` of
`LevelSet::CloneLevelSet`); `k.GetValue(P)` is `d.GetValue(P)` for
every point `P`; the objects that existed are unchanged; and re-pointing `k` or
`d` with `pSetLevelSet`, or changing the tolerance of the inner level set of
`k` or of `d`, leaves the `GetValue`, the pointer and the inner object of the
other unchanged. -/
theorem Heap.clone_of_inverse_independent (defaultTOL : ℚ) (h : Heap ℚ) (d p : Nat) (t : ℚ)
    (fuel : Nat) (L : LevelSet ℚ) (hd : h[d]? = some (.inverse t p))
    (hL : Heap.toLevelSet fuel h d = some L) :
    ∃ h1 k p1,
      Heap.CloneLevelSet defaultTOL fuel h d = some (h1, k)
        ∧ h1[k]? = some (.inverse t p1)
        ∧ Heap.pLeveSet h1 k = some p1 ∧ Heap.pLeveSet h1 d = some p
        ∧ k ≠ d ∧ p1 ≠ p ∧ p1 ≠ d ∧ k ≠ p ∧ h.length ≤ k ∧ h.length ≤ p1
        ∧ (∀ c, c < h.length → h1[c]? = h[c]?)
        ∧ (∀ o, h[p]? = some o →
            (((∃ t0 x y r, o = .circular t0 x y r)
                ∨ (∃ t0 x y z r, o = .spherical t0 x y z r)) → h1[p1]? = some o)
              ∧ (∀ t0 q, o = .inverse t0 q →
                  ∃ q1, h1[p1]? = some (.inverse t0 q1) ∧ h.length ≤ q1)
              ∧ (∀ t0, o = .levelSet t0 → h1[p1]? = some (.levelSet defaultTOL)))
        ∧ (∀ P, Heap.GetValue fuel h1 k P = some (L.GetValue P)
            ∧ Heap.GetValue fuel h1 d P = some (L.GetValue P)
            ∧ Heap.GetValue fuel h d P = some (L.GetValue P))
        ∧ (∀ q, (∀ P, Heap.GetValue fuel (Heap.pSetLevelSet h1 k q) d P = some (L.GetValue P))
            ∧ (Heap.pSetLevelSet h1 k q)[d]? = h[d]?
            ∧ (Heap.pSetLevelSet h1 k q)[p]? = h[p]?)
        ∧ (∀ q, (∀ P, Heap.GetValue fuel (Heap.pSetLevelSet h1 d q) k P = some (L.GetValue P))
            ∧ (Heap.pSetLevelSet h1 d q)[k]? = h1[k]?
            ∧ (Heap.pSetLevelSet h1 d q)[p1]? = h1[p1]?)
        ∧ (∀ t1, (∀ P, Heap.GetValue fuel (Heap.SetTolerance h1 p1 t1) d P
                = some (L.GetValue P))
            ∧ (Heap.SetTolerance h1 p1 t1)[d]? = h[d]?
            ∧ (Heap.SetTolerance h1 p1 t1)[p]? = h[p]?)
        ∧ (∀ t1, (∀ P, Heap.GetValue fuel (Heap.SetTolerance h1 p t1) k P
                = some (L.GetValue P))
            ∧ (Heap.SetTolerance h1 p t1)[k]? = h1[k]?
            ∧ (Heap.SetTolerance h1 p t1)[p1]? = h1[p1]?) := by
  cases fuel with
  | zero => simp [Heap.toLevelSet] at hL
  | succ n =>
    have hdlt : d < h.length := Heap.lt_length_of_getElem? h d _ hd
    -- the inner level set
    have hL1 := hL
    rw [Heap.toLevelSet, hd] at hL1
    cases hp : Heap.toLevelSet n h p with
    | none => simp [hp] at hL1
    | some Lp =>
      have hplt : p < h.length := Heap.lt_length_of_toLevelSet n h p Lp hp
      obtain ⟨ext1, p1, e1, f1, f2, _⟩ := Heap.CloneLevelSet_fresh defaultTOL n h p Lp hp
      obtain ⟨ext, k, e, fk1, fk2, vk⟩ := Heap.CloneLevelSet_fresh defaultTOL (n + 1) h d L hL
      have e2 : Heap.CloneLevelSet defaultTOL (n + 1) h d
          = some ((h ++ ext1) ++ [.inverse t p1], (h ++ ext1).length) := by
        simp [Heap.CloneLevelSet, hd, e1, Heap.alloc]
      rw [e2] at e
      simp only [Option.some.injEq, Prod.mk.injEq] at e
      obtain ⟨eh, ek⟩ := e
      have hcell : (h ++ ext)[k]? = some (.inverse t p1) := by
        rw [← eh, ← ek]
        exact getElem?_append_singleton_length (h ++ ext1) _
      have hold : ∀ c, c < h.length → (h ++ ext)[c]? = h[c]? :=
        fun c hc => List.getElem?_append_left hc
      have hp1k : p1 < k := by rw [← ek]; exact f2
      have viewOld : ∀ h2 : (Heap ℚ), (∀ c, c < h.length → h2[c]? = h[c]?) →
          ∀ P, Heap.GetValue (n + 1) h2 d P = some (L.GetValue P) := by
        intro h2 hag P
        simp only [Heap.GetValue, Heap.toLevelSet_congr (n + 1) h h2 d L hL hag, Option.map_some']
      have viewNew : ∀ h2 : (Heap ℚ),
          (∀ c, h.length ≤ c → c < (h ++ ext).length → h2[c]? = (h ++ ext)[c]?) →
          ∀ P, Heap.GetValue (n + 1) h2 k P = some (L.GetValue P) := by
        intro h2 hag P
        obtain ⟨L1, eL1, g1⟩ := vk h2 hag
        simp only [Heap.GetValue, eL1, Option.map_some', g1 P]
      refine ⟨h ++ ext, k, p1, by rw [e2, eh, ek], hcell, by simp [Heap.pLeveSet, hcell],
        by simp [Heap.pLeveSet, hold d hdlt, hd], by omega, by omega, by omega, by omega,
        fk1, f1, hold, ?_, ?_, ?_, ?_, ?_, ?_⟩
      · -- the inner object of the clone, by the dynamic type of the inner object
        intro o ho
        cases n with
        | zero => simp [Heap.toLevelSet] at hp
        | succ m =>
          refine ⟨?_, ?_, ?_⟩
          · intro hshape
            have ecl : Heap.CloneLevelSet defaultTOL (m + 1) h p
                = some (h ++ [o], h.length) := by
              rcases hshape with ⟨t0, x, y, r, rfl⟩ | ⟨t0, x, y, z, r, rfl⟩ <;>
                simp [Heap.CloneLevelSet, ho, Heap.alloc]
            rw [ecl] at e1
            simp only [Option.some.injEq, Prod.mk.injEq] at e1
            obtain ⟨e1h, e1p⟩ := e1
            rw [← eh, ← e1h, ← e1p, List.getElem?_append_left (by simp)]
            exact getElem?_append_singleton_length h o
          · intro t0 q hoq
            subst hoq
            have hp1 := hp
            rw [Heap.toLevelSet, ho] at hp1
            cases hq : Heap.toLevelSet m h q with
            | none => simp [hq] at hp1
            | some Lq =>
              obtain ⟨extq, q1, eq1, fq1, _, _⟩ :=
                Heap.CloneLevelSet_fresh defaultTOL m h q Lq hq
              have ecl : Heap.CloneLevelSet defaultTOL (m + 1) h p
                  = some ((h ++ extq) ++ [.inverse t0 q1], (h ++ extq).length) := by
                simp [Heap.CloneLevelSet, ho, eq1, Heap.alloc]
              rw [ecl] at e1
              simp only [Option.some.injEq, Prod.mk.injEq] at e1
              obtain ⟨e1h, e1p⟩ := e1
              refine ⟨q1, ?_, fq1⟩
              rw [← eh, ← e1h, ← e1p, List.getElem?_append_left (by simp)]
              exact getElem?_append_singleton_length (h ++ extq) _
          · intro t0 hot
            subst hot
            have ecl : Heap.CloneLevelSet defaultTOL (m + 1) h p
                = some (h ++ [.levelSet defaultTOL], h.length) := by
              simp [Heap.CloneLevelSet, ho, Heap.alloc]
            rw [ecl] at e1
            simp only [Option.some.injEq, Prod.mk.injEq] at e1
            obtain ⟨e1h, e1p⟩ := e1
            rw [← eh, ← e1h, ← e1p, List.getElem?_append_left (by simp)]
            exact getElem?_append_singleton_length h _
      · intro P
        exact ⟨viewNew (h ++ ext) (fun _ _ _ => rfl) P, viewOld (h ++ ext) hold P,
          viewOld h (fun _ _ => rfl) P⟩
      · intro q
        have hag : ∀ c, c < h.length → (Heap.pSetLevelSet (h ++ ext) k q)[c]? = h[c]? := by
          intro c hc
          rw [Heap.pSetLevelSet_getElem?_ne _ _ _ _ (by omega), hold c hc]
        exact ⟨viewOld _ hag, hag d hdlt, hag p hplt⟩
      · intro q
        have hag : ∀ c, h.length ≤ c →
            (Heap.pSetLevelSet (h ++ ext) d q)[c]? = (h ++ ext)[c]? := by
          intro c hc
          exact Heap.pSetLevelSet_getElem?_ne _ _ _ _ (by omega)
        exact ⟨viewNew _ (fun c hc _ => hag c hc), hag k fk1, hag p1 f1⟩
      · intro t1
        have hag : ∀ c, c < h.length → (Heap.SetTolerance (h ++ ext) p1 t1)[c]? = h[c]? := by
          intro c hc
          rw [Heap.SetTolerance_getElem?_ne _ _ _ _ (by omega), hold c hc]
        exact ⟨viewOld _ hag, hag d hdlt, hag p hplt⟩
      · intro t1
        have hag : ∀ c, h.length ≤ c →
            (Heap.SetTolerance (h ++ ext) p t1)[c]? = (h ++ ext)[c]? := by
          intro c hc
          exact Heap.SetTolerance_getElem?_ne _ _ _ _ (by omega)
        exact ⟨viewNew _ (fun c hc _ => hag c hc), hag k fk1, hag p1 f1⟩

theorem Heap.clone_of_inverse_independent_witness :
    ∃ h1 k p1,
      Heap.CloneLevelSet 0 2 [.circular (1 / 10) 0 0 5, .inverse (1 / 5) 0] 1 = some (h1, k)
        ∧ h1[k]? = some (.inverse (1 / 5) p1) ∧ k ≠ 1 ∧ p1 ≠ 0
        ∧ h1[p1]? = some (.circular (1 / 10) 0 0 5)
        ∧ (∀ P, Heap.GetValue 2 h1 k P
            = some ((InverseLevelSet (CircularLevelSet (0 : ℚ) 0 5 (1 / 10)) (1 / 5)).GetValue P))
        ∧ (∀ t1 P, Heap.GetValue 2 (Heap.SetTolerance h1 0 t1) k P
            = some ((InverseLevelSet (CircularLevelSet (0 : ℚ) 0 5 (1 / 10)) (1 / 5)).GetValue P)) := by
  obtain ⟨h1, k, p1, e, hcell, _, _, hkd, hp1p, _, _, _, _, _, hcopy, hval, _, _, _, htol⟩ :=
    Heap.clone_of_inverse_independent 0 [.circular (1 / 10) 0 0 5, .inverse (1 / 5) 0] 1 0
      (1 / 5) 2 (InverseLevelSet (CircularLevelSet (0 : ℚ) 0 5 (1 / 10)) (1 / 5)) rfl rfl
  exact ⟨h1, k, p1, e, hcell, hkd, hp1p,
    (hcopy _ rfl).1 (Or.inl ⟨_, _, _, _, rfl⟩), fun P => (hval P).1,
    fun t1 P => (htol t1).1 P⟩

/-! ## Relations between the classifications -/

/-- C35.  For every level set whose `GetValue` is `phi` on the points and every
tolerance `tol`: inserting into (or removing from) the list, at any position, a
point `P` with `-tol <= GetValue(P) <= tol` does not change the outcome of the
tolerance-banded `CutStatusOfPoints`, and neither does permuting the list; the
outcome is the same status or the same degenerate failure. -/
theorem LevelSet.banded_ignores_band_and_order (L : LevelSet ℚ) (phi : Point ℚ → ℚ) (tol : ℚ) :
    (∀ (l1 l2 : List (Point ℚ)) (P : Point ℚ),
        (∀ p ∈ l1 ++ P :: l2, L.GetValue p = .ok (phi p)) →
        -tol ≤ phi P → phi P ≤ tol →
        L.CutStatusOfPoints (l1 ++ P :: l2) tol = L.CutStatusOfPoints (l1 ++ l2) tol)
      ∧ (∀ pts pts1 : List (Point ℚ),
          (∀ p ∈ pts, L.GetValue p = .ok (phi p)) → pts.Perm pts1 →
          L.CutStatusOfPoints pts tol = L.CutStatusOfPoints pts1 tol) := by
  constructor
  · intro l1 l2 P h hlo hhi
    have h1 : ∀ p ∈ l1 ++ l2, L.GetValue p = .ok (phi p) := by
      intro p hp
      apply h
      rcases List.mem_append.mp hp with hp | hp
      · exact List.mem_append.mpr (Or.inl hp)
      · exact List.mem_append.mpr (Or.inr (List.mem_cons_of_mem _ hp))
    have c1 : ¬ (decide (phi P < -tol) = true) := by
      rw [decide_eq_true_eq]; linarith
    have c2 : ¬ (decide (¬ phi P < -tol ∧ phi P > tol) = true) := by
      rw [decide_eq_true_eq]; intro hc; linarith [hc.2]
    rw [L.banded_eq_statusOfSizes phi tol _ h, L.banded_eq_statusOfSizes phi tol _ h1,
      List.countP_append, List.countP_append, List.countP_append, List.countP_append,
      List.countP_cons_of_neg (fun p => decide (phi p < -tol)) l2 c1,
      List.countP_cons_of_neg (fun p => decide (¬ phi p < -tol ∧ phi p > tol)) l2 c2]
  · intro pts pts1 h hperm
    have h1 : ∀ p ∈ pts1, L.GetValue p = .ok (phi p) :=
      fun p hp => h p (hperm.mem_iff.mpr hp)
    rw [L.banded_eq_statusOfSizes phi tol _ h, L.banded_eq_statusOfSizes phi tol _ h1,
      hperm.countP_eq, hperm.countP_eq]

theorem LevelSet.banded_ignores_band_and_order_witness :
    (CircularLevelSet (0 : ℚ) 0 5 1).CutStatusOfPoints
        ([⟨1, 0, 0⟩] ++ (⟨5, 0, 0⟩ : Point ℚ) :: [⟨7, 0, 0⟩]) 1
      = (CircularLevelSet (0 : ℚ) 0 5 1).CutStatusOfPoints ([⟨1, 0, 0⟩] ++ [⟨7, 0, 0⟩]) 1 :=
  (LevelSet.banded_ignores_band_and_order (CircularLevelSet (0 : ℚ) 0 5 1) (circleValue (0 : ℚ) 0 5) 1).1 [⟨1, 0, 0⟩] [⟨7, 0, 0⟩]
    ⟨5, 0, 0⟩ (fun _ _ => rfl) (by norm_num [circleValue]) (by norm_num [circleValue])

/-- C36.  For every level set whose `GetValue` is `phi` on the points, every
`tol >= 0` and every list of points all of which satisfy `|GetValue(P)| > tol`:
`BRep::CutStatusOfPoints(points)`, run on the level set (so with
`LevelSet::IsInside`), and the tolerance-banded classification with `tol` give
the same outcome; when `tol` is the tolerance of the level set this is
`LevelSet::CutStatus(points)`; on the empty list both fail as degenerate. -/
theorem LevelSet.generic_agrees_with_banded_off_band (L : LevelSet ℚ) (phi : Point ℚ → ℚ) (tol : ℚ)
    (pts : List (Point ℚ)) (hphi : ∀ p ∈ pts, L.GetValue p = .ok (phi p)) (htol : 0 ≤ tol)
    (hband : ∀ p ∈ pts, |phi p| > tol) :
    L.toBRep.CutStatusOfPoints pts = L.CutStatusOfPoints pts tol
      ∧ (L.GetTolerance = tol → L.toBRep.CutStatusOfPoints pts = L.CutStatus pts)
      ∧ (pts = [] → L.toBRep.CutStatusOfPoints pts = .error .degenerated
          ∧ L.CutStatus pts = .error .degenerated) := by
  have hins : ∀ p ∈ pts, L.toBRep.IsInside p = .ok (decide (phi p < 0)) := by
    intro p hp
    simp only [LevelSet.toBRep, LevelSet.IsInside, hphi p hp]
  have main : L.toBRep.CutStatusOfPoints pts = L.CutStatusOfPoints pts tol := by
    rw [L.toBRep.generic_eq_statusOfSizes (fun p => decide (phi p < 0)) pts hins,
      L.banded_eq_statusOfSizes phi tol pts hphi]
    congr 1
    · apply List.countP_congr
      intro p hp
      have hb := hband p hp
      rw [gt_iff_lt, lt_abs] at hb
      simp only [decide_eq_true_eq]
      constructor
      · intro h0
        rcases hb with hb | hb
        · linarith
        · linarith
      · intro h0
        linarith
    · apply List.countP_congr
      intro p hp
      have hb := hband p hp
      rw [gt_iff_lt, lt_abs] at hb
      simp only [Bool.not_eq_true', decide_eq_false_iff_not, decide_eq_true_eq, not_lt]
      constructor
      · intro h0
        rcases hb with hb | hb
        · exact ⟨by linarith, hb⟩
        · linarith
      · intro h0
        linarith [h0.2]
  refine ⟨main, ?_, ?_⟩
  · intro ht
    rw [LevelSet.CutStatus, ht]
    exact main
  · intro he
    subst he
    exact ⟨rfl, rfl⟩

theorem LevelSet.generic_agrees_with_banded_off_band_witness :
    (0 : ℚ) ≤ 1
      ∧ (CircularLevelSet (0 : ℚ) 0 5 1).toBRep.CutStatusOfPoints [⟨1, 0, 0⟩, ⟨7, 0, 0⟩]
        = (CircularLevelSet (0 : ℚ) 0 5 1).CutStatus [⟨1, 0, 0⟩, ⟨7, 0, 0⟩] :=
  ⟨by norm_num,
    (LevelSet.generic_agrees_with_banded_off_band (CircularLevelSet (0 : ℚ) 0 5 1) (circleValue (0 : ℚ) 0 5) 1
      [⟨1, 0, 0⟩, ⟨7, 0, 0⟩]
      (fun _ _ => rfl) (by norm_num)
      (by
        intro p hp
        simp only [List.mem_cons, List.mem_singleton, List.not_mem_nil, or_false] at hp
        rcases hp with rfl | rfl <;> norm_num [circleValue, lt_abs])).2.1 rfl⟩

end Kratos
